import Mathlib

/-!
Verification of the minimum-vertex-cover solving engine.

The development shallowly embeds the Python sources of the repository:
graph.py, solvers/approximation.py, solvers/exact.py, solvers/backtracking.py,
solvers/iddfs.py, solvers/branch_and_bound.py, solvers/tabu_search.py.

Modelling conventions:
* Python lists of booleans become List Bool, accessed with getD (the claims
  always supply in-range indices, matching the Python accesses that would
  otherwise raise).
* Python set and frozenset values become lists without duplicates; iteration
  order of a Python set is arbitrary, so picking the head of the list is one
  admissible refinement of next(iter(s)).
* Python exceptions become Option results (none = the call raises).
* Machine integers are Int (Python integers are unbounded, so no wrap-around
  modelling is needed).
-/

set_option maxHeartbeats 1000000

/-- Embeds the Graph class of graph.py: a vertex count and an edge list.
The adjacency list is derived below by listAdj, mirroring the constructor
loop of Graph.
-/
structure Graph where
  num_vertices : Nat
  edges : List (Nat × Nat)

/-- Embeds Graph.count_uncovered_edges: the number of edges whose two
endpoints are both outside the cover vector. -/
def Graph.count_uncovered_edges (g : Graph) (cover : List Bool) : Nat :=
  g.edges.countP (fun e => !(cover.getD e.1 false || cover.getD e.2 false))

/-- One step of the adjacency-building loop in the Graph constructor:
self-loop edges are skipped, otherwise each endpoint is appended to the
adjacency list of the other. -/
def adjStep (adj : List (List Nat)) (e : Nat × Nat) : List (List Nat) :=
  if e.1 = e.2 then adj
  else
    let adj1 := adj.set e.1 (adj.getD e.1 [] ++ [e.2])
    adj1.set e.2 (adj1.getD e.2 [] ++ [e.1])

/-- Embeds the list_adj field computed by the Graph constructor (for graphs
whose edges already passed the range check). -/
def listAdj (g : Graph) : List (List Nat) :=
  g.edges.foldl adjStep (List.replicate g.num_vertices [])

/-- All edge endpoints are inside the vertex range, which is what the Graph
constructor enforces for nonnegative endpoints. -/
def Graph.valid (g : Graph) : Prop :=
  ∀ e ∈ g.edges, e.1 < g.num_vertices ∧ e.2 < g.num_vertices

/-- No edge is a self-loop. -/
def Graph.noSelfLoops (g : Graph) : Prop :=
  ∀ e ∈ g.edges, e.1 ≠ e.2

instance (g : Graph) : Decidable g.valid := by
  unfold Graph.valid; infer_instance

instance (g : Graph) : Decidable g.noSelfLoops := by
  unfold Graph.noSelfLoops; infer_instance

/-- A set of vertices touches every edge of the list. -/
def isCover (edges : List (Nat × Nat)) (C : Finset Nat) : Prop :=
  ∀ e ∈ edges, e.1 ∈ C ∨ e.2 ∈ C

instance (edges : List (Nat × Nat)) (C : Finset Nat) : Decidable (isCover edges C) := by
  unfold isCover; infer_instance

/-- All vertex covers of the edge list that live inside the vertex range. -/
def coverFinsets (n : Nat) (edges : List (Nat × Nat)) : Finset (Finset Nat) :=
  (Finset.range n).powerset.filter (fun C => isCover edges C)

/-- The minimum size of a vertex cover taken from the vertex range; the
default n is never used for graphs whose endpoints are in range. -/
def minCoverSize (n : Nat) (edges : List (Nat × Nat)) : Nat :=
  (((coverFinsets n edges).image Finset.card).min).getD n

lemma mem_coverFinsets {n : Nat} {edges : List (Nat × Nat)} {C : Finset Nat} :
    C ∈ coverFinsets n edges ↔ C ⊆ Finset.range n ∧ isCover edges C := by
  simp [coverFinsets, Finset.mem_filter, Finset.mem_powerset]

lemma range_mem_coverFinsets {g : Graph} (hv : g.valid) :
    Finset.range g.num_vertices ∈ coverFinsets g.num_vertices g.edges := by
  rw [mem_coverFinsets]
  refine ⟨le_refl _, fun e he => ?_⟩
  exact Or.inl (Finset.mem_range.mpr (hv e he).1)

lemma minCoverSize_eq_min' {n : Nat} {edges : List (Nat × Nat)}
    (h : (coverFinsets n edges).Nonempty) :
    minCoverSize n edges =
      ((coverFinsets n edges).image Finset.card).min' (h.image _) := by
  unfold minCoverSize
  rw [← Finset.coe_min' ((h.image Finset.card))]
  rfl

lemma minCoverSize_le {n : Nat} {edges : List (Nat × Nat)} {C : Finset Nat}
    (hC : C ∈ coverFinsets n edges) : minCoverSize n edges ≤ C.card := by
  have hne : (coverFinsets n edges).Nonempty := ⟨C, hC⟩
  rw [minCoverSize_eq_min' hne]
  exact Finset.min'_le _ _ (Finset.mem_image_of_mem _ hC)

lemma exists_minCover {n : Nat} {edges : List (Nat × Nat)}
    (h : (coverFinsets n edges).Nonempty) :
    ∃ C ∈ coverFinsets n edges, C.card = minCoverSize n edges := by
  rw [minCoverSize_eq_min' h]
  have hmem := Finset.min'_mem ((coverFinsets n edges).image Finset.card) (h.image _)
  rcases Finset.mem_image.mp hmem with ⟨C, hC, hcard⟩
  exact ⟨C, hC, hcard⟩

/-- A set that covers the edges and sits inside the range has size exactly
the minimum iff it is also below every cover. -/
lemma card_eq_minCoverSize {n : Nat} {edges : List (Nat × Nat)} {C : Finset Nat}
    (hC : C ∈ coverFinsets n edges)
    (hle : ∀ D ∈ coverFinsets n edges, C.card ≤ D.card) :
    C.card = minCoverSize n edges := by
  have h1 := minCoverSize_le hC
  rcases exists_minCover ⟨C, hC⟩ with ⟨D, hD, hcard⟩
  have h2 := hle D hD
  omega

/-! ## Approximation solver (solvers/approximation.py) -/

/-- One step of the edge loop in solve_approximation: when neither endpoint
is marked covered, mark both and add both to the result set. -/
def approxStep (st : List Bool × Finset Nat) (e : Nat × Nat) : List Bool × Finset Nat :=
  if !st.1.getD e.1 false && !st.1.getD e.2 false then
    (((st.1.set e.1 true).set e.2 true), insert e.2 (insert e.1 st.2))
  else st

/-- Embeds solve_approximation: a single pass over the edge list. -/
def solve_approximation (g : Graph) : Finset Nat :=
  (g.edges.foldl approxStep (List.replicate g.num_vertices false, ∅)).2

/-- Modelled from the words of the specification, section 4.2: a single pass
that keeps one set of covered vertices and, for each edge whose endpoints are
both still uncovered, inserts both endpoints. Used to compare the code
against the specification in claim C8. -/
def specApprox : List (Nat × Nat) → Finset Nat → Finset Nat
  | [], S => S
  | e :: rest, S =>
    if e.1 ∉ S ∧ e.2 ∉ S then specApprox rest (insert e.2 (insert e.1 S))
    else specApprox rest S

/-- Invariant tying the boolean vector of the code to the covered set of the
specification model. -/
def ApproxInv (n : Nat) (cov : List Bool) (S : Finset Nat) : Prop :=
  cov.length = n ∧ (∀ x ∈ S, x < n) ∧ ∀ x, x < n → (cov.getD x false = true ↔ x ∈ S)

lemma getD_set_self (l : List Bool) (i : Nat) (b : Bool) (h : i < l.length) :
    (l.set i b).getD i false = b := by
  simp [List.getD, List.getElem?_set_self', List.getElem?_eq_getElem h]

lemma getD_set_ne (l : List Bool) (b : Bool) {i j : Nat} (h : i ≠ j) :
    (l.set i b).getD j false = l.getD j false := by
  simp [List.getD, List.getElem?_set_ne h]

lemma approxStep_inv {n : Nat} {cov : List Bool} {S : Finset Nat} {e : Nat × Nat}
    (h : ApproxInv n cov S) (he1 : e.1 < n) (he2 : e.2 < n) :
    ApproxInv n (approxStep (cov, S) e).1 (approxStep (cov, S) e).2 ∧
      (approxStep (cov, S) e).2 =
        (if e.1 ∉ S ∧ e.2 ∉ S then insert e.2 (insert e.1 S) else S) := by
  obtain ⟨hlen, hmem, hiff⟩ := h
  by_cases hc : e.1 ∉ S ∧ e.2 ∉ S
  · have h1 : cov.getD e.1 false = false := by
      by_contra hx
      have := (hiff e.1 he1).mp (by revert hx; cases cov.getD e.1 false <;> simp)
      exact hc.1 this
    have h2 : cov.getD e.2 false = false := by
      by_contra hx
      have := (hiff e.2 he2).mp (by revert hx; cases cov.getD e.2 false <;> simp)
      exact hc.2 this
    have hstep : approxStep (cov, S) e =
        (((cov.set e.1 true).set e.2 true), insert e.2 (insert e.1 S)) := by
      simp only [approxStep]
      rw [h1, h2]
      simp
    rw [hstep]
    refine ⟨⟨by simp [hlen], ?_, ?_⟩, by simp [hc]⟩
    · intro x hx
      rcases Finset.mem_insert.mp hx with h | hx
      · omega
      rcases Finset.mem_insert.mp hx with h | hx
      · omega
      exact hmem x hx
    · intro x hxn
      by_cases hx2 : x = e.2
      · subst hx2
        rw [getD_set_self _ _ _ (by simp [hlen]; omega)]
        simp
      by_cases hx1 : x = e.1
      · subst hx1
        rw [getD_set_ne _ _ (fun hcontra => hx2 hcontra.symm),
          getD_set_self _ _ _ (by omega)]
        simp
      · rw [getD_set_ne _ _ (fun hcontra => hx2 hcontra.symm),
          getD_set_ne _ _ (fun hcontra => hx1 hcontra.symm)]
        rw [hiff x hxn]
        simp [Finset.mem_insert, hx1, hx2]
  · have hstep : approxStep (cov, S) e = (cov, S) := by
      rcases not_and_or.mp hc with hx | hx
      · have hx1 := (hiff e.1 he1).mpr (not_not.mp hx)
        simp only [approxStep]
        rw [hx1]
        simp
      · have hx2 := (hiff e.2 he2).mpr (not_not.mp hx)
        simp only [approxStep]
        rw [hx2]
        simp
    rw [hstep]
    exact ⟨⟨hlen, hmem, hiff⟩, by simp [hc]⟩

/-- The code fold agrees with the specification model along any edge list
whose endpoints are in range. -/
lemma approx_fold_eq_spec {n : Nat} (l : List (Nat × Nat)) (cov : List Bool) (S : Finset Nat)
    (h : ApproxInv n cov S) (hv : ∀ e ∈ l, e.1 < n ∧ e.2 < n) :
    (l.foldl approxStep (cov, S)).2 = specApprox l S := by
  induction l generalizing cov S with
  | nil => simp [specApprox]
  | cons e rest ih =>
    have he := hv e (by simp)
    obtain ⟨hinv, heq⟩ := approxStep_inv h he.1 he.2
    have hrest : ∀ f ∈ rest, f.1 < n ∧ f.2 < n := fun f hf => hv f (by simp [hf])
    rcases hst : approxStep (cov, S) e with ⟨cov', S'⟩
    rw [List.foldl_cons, hst]
    rw [hst] at hinv heq
    simp only at hinv heq
    rw [ih cov' S' hinv hrest]
    simp only [specApprox]
    rw [heq]
    by_cases hc : e.1 ∉ S ∧ e.2 ∉ S <;> simp [hc]

lemma specApprox_subset (l : List (Nat × Nat)) (S : Finset Nat) :
    S ⊆ specApprox l S := by
  induction l generalizing S with
  | nil => simp [specApprox]
  | cons e rest ih =>
    simp only [specApprox]
    by_cases hc : e.1 ∉ S ∧ e.2 ∉ S
    · simp only [hc, if_true]
      exact fun x hx =>
        ih _ (Finset.mem_insert_of_mem (Finset.mem_insert_of_mem hx))
    · simp only [hc, if_false]
      exact ih S

lemma specApprox_covers (l : List (Nat × Nat)) (S : Finset Nat) :
    isCover l (specApprox l S) := by
  induction l generalizing S with
  | nil => intro e he; simp at he
  | cons e rest ih =>
    intro f hf
    simp only [specApprox]
    by_cases hc : e.1 ∉ S ∧ e.2 ∉ S
    · simp only [hc, if_true]
      rcases List.mem_cons.mp hf with rfl | hfr
      · exact Or.inl (specApprox_subset _ _
          (Finset.mem_insert_of_mem (Finset.mem_insert_self _ _)))
      · exact ih _ f hfr
    · simp only [hc, if_false]
      rcases List.mem_cons.mp hf with rfl | hfr
      · rcases not_and_or.mp hc with hx | hx
        · exact Or.inl (specApprox_subset _ _ (not_not.mp hx))
        · exact Or.inr (specApprox_subset _ _ (not_not.mp hx))
      · exact ih S f hfr

/-- The classic factor-2 argument: every triggering edge consumes a fresh
vertex of any cover D, and contributes at most two result vertices. -/
lemma specApprox_card_bound (l : List (Nat × Nat)) (S : Finset Nat)
    (D : Finset Nat) (hD : isCover l D) :
    (specApprox l S).card ≤ S.card + 2 * (D.filter (· ∉ S)).card := by
  induction l generalizing S with
  | nil => simp [specApprox]
  | cons e rest ih =>
    simp only [specApprox]
    by_cases hc : e.1 ∉ S ∧ e.2 ∉ S
    · rw [if_pos hc]
      set S' := insert e.2 (insert e.1 S) with hS'
      obtain ⟨u, hu, huS, huS'⟩ : ∃ u, u ∈ D ∧ u ∉ S ∧ u ∈ S' := by
        rcases hD e (by simp) with h | h
        · exact ⟨e.1, h, hc.1, by simp [hS']⟩
        · exact ⟨e.2, h, hc.2, by simp [hS']⟩
      have hDrest : isCover rest D := fun f hf => hD f (by simp [hf])
      have hcard1 : S'.card ≤ S.card + 2 := by
        calc S'.card ≤ (insert e.1 S).card + 1 := Finset.card_insert_le _ _
        _ ≤ S.card + 2 := by
            have := Finset.card_insert_le e.1 S
            omega
      have hsub : D.filter (· ∉ S') ⊆ (D.filter (· ∉ S)).erase u := by
        intro x hx
        rcases Finset.mem_filter.mp hx with ⟨hxD, hxS'⟩
        refine Finset.mem_erase.mpr ⟨?_, Finset.mem_filter.mpr ⟨hxD, ?_⟩⟩
        · intro hxu; exact hxS' (hxu ▸ huS')
        · intro hxS
          exact hxS' (by
            have : S ⊆ S' := fun y hy =>
              Finset.mem_insert_of_mem (Finset.mem_insert_of_mem hy)
            exact this hxS)
      have humem : u ∈ D.filter (· ∉ S) := Finset.mem_filter.mpr ⟨hu, huS⟩
      have hpos : 1 ≤ (D.filter (· ∉ S)).card := Finset.card_pos.mpr ⟨u, humem⟩
      have hcard2 : (D.filter (· ∉ S')).card ≤ (D.filter (· ∉ S)).card - 1 := by
        calc (D.filter (· ∉ S')).card ≤ ((D.filter (· ∉ S)).erase u).card :=
              Finset.card_le_card hsub
        _ = (D.filter (· ∉ S)).card - 1 := Finset.card_erase_of_mem humem
      have := ih S' hDrest
      omega
    · rw [if_neg hc]
      have hDrest : isCover rest D := fun f hf => hD f (by simp [hf])
      exact ih S hDrest

lemma replicate_false_getD (n x : Nat) :
    (List.replicate n false).getD x false = false := by
  rcases Nat.lt_or_ge x n with h | h
  · simp [List.getD, List.getElem?_replicate, h]
  · simp [List.getD, List.getElem?_eq_none, h]

lemma approxInv_init (n : Nat) : ApproxInv n (List.replicate n false) ∅ := by
  refine ⟨by simp, by simp, fun x hx => ?_⟩
  rw [replicate_false_getD]
  simp

/-- The code result coincides with the specification model on valid graphs. -/
lemma solve_approximation_eq_spec {g : Graph} (hv : g.valid) :
    solve_approximation g = specApprox g.edges ∅ := by
  unfold solve_approximation
  exact approx_fold_eq_spec g.edges _ _ (approxInv_init g.num_vertices) hv

lemma solve_approximation_covers {g : Graph} (hv : g.valid) :
    isCover g.edges (solve_approximation g) := by
  rw [solve_approximation_eq_spec hv]
  exact specApprox_covers _ _

lemma solve_approximation_card {g : Graph} (hv : g.valid) :
    (solve_approximation g).card ≤ 2 * minCoverSize g.num_vertices g.edges := by
  rw [solve_approximation_eq_spec hv]
  obtain ⟨D, hD, hcard⟩ := exists_minCover ⟨_, range_mem_coverFinsets hv⟩
  have hbound := specApprox_card_bound g.edges ∅ D (mem_coverFinsets.mp hD).2
  simpa [hcard] using hbound

/-! ## Shared branching machinery of the exact solvers -/

/-- Membership of a vertex in an edge, mirroring the Python test u in edge. -/
def edgeHas (x : Nat) (e : Nat × Nat) : Bool :=
  x == e.1 || x == e.2

/-- The set comprehension removing every edge incident to x, shared by all
three recursive solvers. -/
def removeIncident (x : Nat) (l : List (Nat × Nat)) : List (Nat × Nat) :=
  l.filter (fun f => !edgeHas x f)

lemma edgeHas_iff {x : Nat} {e : Nat × Nat} :
    edgeHas x e = true ↔ x = e.1 ∨ x = e.2 := by
  simp [edgeHas]

lemma mem_removeIncident {x : Nat} {l : List (Nat × Nat)} {f : Nat × Nat} :
    f ∈ removeIncident x l ↔ f ∈ l ∧ x ≠ f.1 ∧ x ≠ f.2 := by
  simp [removeIncident, List.mem_filter, edgeHas]

lemma removeIncident_length_lt {x : Nat} {e : Nat × Nat} {l : List (Nat × Nat)}
    (hx : edgeHas x e = true) :
    (removeIncident x (e :: l)).length < (e :: l).length := by
  have : removeIncident x (e :: l) = removeIncident x l := by
    simp [removeIncident, List.filter_cons, hx]
  rw [this]
  have := List.length_filter_le (fun f => !edgeHas x f) l
  simp only [removeIncident, List.length_cons]
  omega

lemma isCover_insert_of_removeIncident {x : Nat} {l : List (Nat × Nat)} {C : Finset Nat}
    (h : isCover (removeIncident x l) C) : isCover l (insert x C) := by
  intro e he
  by_cases hx : edgeHas x e = true
  · rcases edgeHas_iff.mp hx with h1 | h1
    · exact Or.inl (h1 ▸ Finset.mem_insert_self x C)
    · exact Or.inr (h1 ▸ Finset.mem_insert_self x C)
  · have hne : x ≠ e.1 ∧ x ≠ e.2 := by
      constructor <;> intro hcontra <;> exact hx (edgeHas_iff.mpr (by tauto))
    have hmem : e ∈ removeIncident x l := mem_removeIncident.mpr ⟨he, hne.1, hne.2⟩
    rcases h e hmem with h1 | h1
    · exact Or.inl (Finset.mem_insert_of_mem h1)
    · exact Or.inr (Finset.mem_insert_of_mem h1)

lemma isCover_removeIncident_erase {x : Nat} {l : List (Nat × Nat)} {D : Finset Nat}
    (h : isCover l D) : isCover (removeIncident x l) (D.erase x) := by
  intro e he
  rcases mem_removeIncident.mp he with ⟨hel, hne1, hne2⟩
  rcases h e hel with h1 | h1
  · exact Or.inl (Finset.mem_erase.mpr ⟨fun hc => hne1 hc.symm, h1⟩)
  · exact Or.inr (Finset.mem_erase.mpr ⟨fun hc => hne2 hc.symm, h1⟩)

/-- The canonical form used by the solvers: tuple(sorted((u, v))). -/
def sortPair (e : Nat × Nat) : Nat × Nat :=
  if e.1 ≤ e.2 then e else (e.2, e.1)

/-- Embeds set(tuple(sorted((u, v))) for (u, v) in edges): the solvers build
this set once before searching; list order refines the arbitrary iteration
order of the Python set. -/
def canonicalEdges (g : Graph) : List (Nat × Nat) :=
  (g.edges.map sortPair).dedup

lemma isCover_sortPair {e : Nat × Nat} {C : Finset Nat} :
    (sortPair e).1 ∈ C ∨ (sortPair e).2 ∈ C ↔ e.1 ∈ C ∨ e.2 ∈ C := by
  unfold sortPair
  by_cases h : e.1 ≤ e.2 <;> simp [h] <;> tauto

lemma isCover_canonical_iff {g : Graph} {C : Finset Nat} :
    isCover (canonicalEdges g) C ↔ isCover g.edges C := by
  constructor
  · intro h e he
    have : sortPair e ∈ canonicalEdges g := by
      unfold canonicalEdges
      rw [List.mem_dedup]
      exact List.mem_map_of_mem _ he
    exact isCover_sortPair.mp (h _ this)
  · intro h f hf
    rcases List.mem_map.mp (List.mem_dedup.mp hf) with ⟨e, he, rfl⟩
    exact isCover_sortPair.mpr (h e he)

lemma canonicalEdges_valid {g : Graph} (hv : g.valid) :
    ∀ e ∈ canonicalEdges g, e.1 < g.num_vertices ∧ e.2 < g.num_vertices := by
  intro f hf
  rcases List.mem_map.mp (List.mem_dedup.mp hf) with ⟨e, he, rfl⟩
  have := hv e he
  unfold sortPair
  by_cases h : e.1 ≤ e.2 <;> simp [h] <;> omega

lemma canonicalEdges_noLoops {g : Graph} (h : g.noSelfLoops) :
    ∀ e ∈ canonicalEdges g, e.1 ≠ e.2 := by
  intro f hf
  rcases List.mem_map.mp (List.mem_dedup.mp hf) with ⟨e, he, rfl⟩
  have := h e he
  unfold sortPair
  by_cases hle : e.1 ≤ e.2 <;> simp [hle] <;> omega

lemma canonicalEdges_nil_iff {g : Graph} : canonicalEdges g = [] ↔ g.edges = [] := by
  unfold canonicalEdges
  rw [List.dedup_eq_nil, List.map_eq_nil]

lemma removeIncident_valid {n x : Nat} {l : List (Nat × Nat)}
    (hv : ∀ e ∈ l, e.1 < n ∧ e.2 < n) :
    ∀ e ∈ removeIncident x l, e.1 < n ∧ e.2 < n :=
  fun e he => hv e (mem_removeIncident.mp he).1

lemma removeIncident_noLoops {x : Nat} {l : List (Nat × Nat)}
    (h : ∀ e ∈ l, e.1 ≠ e.2) :
    ∀ e ∈ removeIncident x l, e.1 ≠ e.2 :=
  fun e he => h e (mem_removeIncident.mp he).1

/-! ## Exact solver (solvers/exact.py)

The recursion works on a set of frozenset edges; a frozenset with two
distinct elements unpacks into u, v, while a self-loop gives a one-element
frozenset whose unpacking raises ValueError (modelled as none).  The memo
table caches the value the recursion itself computes at equal keys, so it is
dropped without changing the result. -/

def ExactSolver.find_cover : List (Nat × Nat) → Option (Finset Nat)
  | [] => some ∅
  | e :: rest =>
    if e.1 = e.2 then none
    else
      match ExactSolver.find_cover (removeIncident e.1 (e :: rest)),
            ExactSolver.find_cover (removeIncident e.2 (e :: rest)) with
      | some c1, some c2 =>
          some (if (insert e.1 c1).card < (insert e.2 c2).card
                then insert e.1 c1 else insert e.2 c2)
      | _, _ => none
  termination_by l => l.length
  decreasing_by
  · exact removeIncident_length_lt (by simp [edgeHas])
  · exact removeIncident_length_lt (by simp [edgeHas])

/-- Embeds ExactSolver.solve. -/
def ExactSolver.solve (g : Graph) : Option (Finset Nat) :=
  ExactSolver.find_cover (canonicalEdges g)

lemma ExactSolver.find_cover_spec_aux (n : Nat) :
    ∀ l : List (Nat × Nat), l.length ≤ n → (∀ e ∈ l, e.1 ≠ e.2) →
      ∃ C, ExactSolver.find_cover l = some C ∧ isCover l C ∧
        (∀ x ∈ C, ∃ e ∈ l, x = e.1 ∨ x = e.2) ∧
        (∀ D : Finset Nat, isCover l D → C.card ≤ D.card) := by
  induction n with
  | zero =>
    intro l hl _
    have hnil : l = [] := List.length_eq_zero.mp (Nat.le_zero.mp hl)
    subst hnil
    refine ⟨∅, by simp [ExactSolver.find_cover], ?_, by simp, fun D _ => by simp⟩
    intro e he
    simp at he
  | succ n ih =>
    intro l hl hloop
    rcases l with _ | ⟨e, rest⟩
    · refine ⟨∅, by simp [ExactSolver.find_cover], ?_, by simp, fun D _ => by simp⟩
      intro f hf
      simp at hf
    have hne : e.1 ≠ e.2 := hloop e (by simp)
    have hlen1 : (removeIncident e.1 (e :: rest)).length ≤ n := by
      have := removeIncident_length_lt (l := rest) (x := e.1) (e := e) (by simp [edgeHas])
      simp only [List.length_cons] at this hl
      omega
    have hlen2 : (removeIncident e.2 (e :: rest)).length ≤ n := by
      have := removeIncident_length_lt (l := rest) (x := e.2) (e := e) (by simp [edgeHas])
      simp only [List.length_cons] at this hl
      omega
    obtain ⟨C1, hC1eq, hC1cov, hC1sub, hC1min⟩ :=
      ih _ hlen1 (removeIncident_noLoops hloop)
    obtain ⟨C2, hC2eq, hC2cov, hC2sub, hC2min⟩ :=
      ih _ hlen2 (removeIncident_noLoops hloop)
    have heq : ExactSolver.find_cover (e :: rest) =
        some (if (insert e.1 C1).card < (insert e.2 C2).card
              then insert e.1 C1 else insert e.2 C2) := by
      rw [ExactSolver.find_cover]
      rw [if_neg hne, hC1eq, hC2eq]
    set R := if (insert e.1 C1).card < (insert e.2 C2).card
              then insert e.1 C1 else insert e.2 C2 with hR
    have hRcard : R.card ≤ (insert e.1 C1).card ∧ R.card ≤ (insert e.2 C2).card := by
      rw [hR]
      by_cases hcmp : (insert e.1 C1).card < (insert e.2 C2).card
      · rw [if_pos hcmp]; omega
      · rw [if_neg hcmp]; omega
    have hRcases : R = insert e.1 C1 ∨ R = insert e.2 C2 := by
      rw [hR]
      by_cases hcmp : (insert e.1 C1).card < (insert e.2 C2).card
      · rw [if_pos hcmp]; exact Or.inl rfl
      · rw [if_neg hcmp]; exact Or.inr rfl
    refine ⟨R, heq, ?_, ?_, ?_⟩
    · rcases hRcases with h | h <;> rw [h]
      · exact isCover_insert_of_removeIncident hC1cov
      · exact isCover_insert_of_removeIncident hC2cov
    · intro x hx
      rcases hRcases with h | h <;> rw [h] at hx <;> rcases Finset.mem_insert.mp hx with rfl | hx
      · exact ⟨e, by simp⟩
      · obtain ⟨f, hf, hfx⟩ := hC1sub x hx
        exact ⟨f, (mem_removeIncident.mp hf).1, hfx⟩
      · exact ⟨e, by simp⟩
      · obtain ⟨f, hf, hfx⟩ := hC2sub x hx
        exact ⟨f, (mem_removeIncident.mp hf).1, hfx⟩
    · intro D hD
      rcases hD e (by simp) with hmem | hmem
      · have h1 := hC1min (D.erase e.1) (isCover_removeIncident_erase hD)
        have h2 := Finset.card_erase_of_mem hmem
        have h3 := Finset.card_insert_le e.1 C1
        have h4 : 1 ≤ D.card := Finset.card_pos.mpr ⟨e.1, hmem⟩
        omega
      · have h1 := hC2min (D.erase e.2) (isCover_removeIncident_erase hD)
        have h2 := Finset.card_erase_of_mem hmem
        have h3 := Finset.card_insert_le e.2 C2
        have h4 : 1 ≤ D.card := Finset.card_pos.mpr ⟨e.2, hmem⟩
        omega

/-- ExactSolver.solve on a loop-free valid graph: returns a minimum vertex
cover. -/
lemma ExactSolver.exact_solve_spec {g : Graph} (hv : g.valid) (hnl : g.noSelfLoops) :
    ∃ C, ExactSolver.solve g = some C ∧ isCover g.edges C ∧
      C ∈ coverFinsets g.num_vertices g.edges ∧
      C.card = minCoverSize g.num_vertices g.edges := by
  obtain ⟨C, heq, hcov, hsub, hmin⟩ :=
    ExactSolver.find_cover_spec_aux (canonicalEdges g).length (canonicalEdges g)
      (le_refl _) (canonicalEdges_noLoops hnl)
  have hcov' : isCover g.edges C := isCover_canonical_iff.mp hcov
  have hrange : C ⊆ Finset.range g.num_vertices := by
    intro x hx
    obtain ⟨f, hf, hfx⟩ := hsub x hx
    have := canonicalEdges_valid hv f hf
    rcases hfx with rfl | rfl <;> exact Finset.mem_range.mpr (by omega)
  have hCmem : C ∈ coverFinsets g.num_vertices g.edges :=
    mem_coverFinsets.mpr ⟨hrange, hcov'⟩
  refine ⟨C, heq, hcov', hCmem, card_eq_minCoverSize hCmem ?_⟩
  intro D hD
  exact hmin D (isCover_canonical_iff.mpr (mem_coverFinsets.mp hD).2)

/-- A self-loop in the residual edge set always propagates a ValueError out
of the recursion: both branches are evaluated and the loop edge survives at
least one of them. -/
lemma ExactSolver.find_cover_none (n : Nat) :
    ∀ l : List (Nat × Nat), l.length ≤ n → ∀ a : Nat, (a, a) ∈ l →
      ExactSolver.find_cover l = none := by
  induction n with
  | zero =>
    intro l hl a ha
    have hnil : l = [] := List.length_eq_zero.mp (Nat.le_zero.mp hl)
    subst hnil
    simp at ha
  | succ n ih =>
    intro l hl a ha
    rcases l with _ | ⟨e, rest⟩
    · simp at ha
    by_cases hne : e.1 = e.2
    · rw [ExactSolver.find_cover, if_pos hne]
    rw [ExactSolver.find_cover, if_neg hne]
    have hea : e ≠ (a, a) := by
      intro hcontra
      rw [hcontra] at hne
      exact hne rfl
    have hmem : (a, a) ∈ rest := by
      rcases List.mem_cons.mp ha with h | h
      · exact absurd h.symm hea
      · exact h
    have hlen1 : (removeIncident e.1 (e :: rest)).length ≤ n := by
      have := removeIncident_length_lt (l := rest) (x := e.1) (e := e) (by simp [edgeHas])
      simp only [List.length_cons] at this hl
      omega
    have hlen2 : (removeIncident e.2 (e :: rest)).length ≤ n := by
      have := removeIncident_length_lt (l := rest) (x := e.2) (e := e) (by simp [edgeHas])
      simp only [List.length_cons] at this hl
      omega
    by_cases h1 : e.1 = a
    · have h2 : e.2 ≠ a := fun hc => hne (by omega)
      have hkeep : (a, a) ∈ removeIncident e.2 (e :: rest) :=
        mem_removeIncident.mpr ⟨ha, h2, h2⟩
      rw [ih _ hlen2 a hkeep]
      rcases ExactSolver.find_cover (removeIncident e.1 (e :: rest)) with _ | c1 <;> rfl
    · have hkeep : (a, a) ∈ removeIncident e.1 (e :: rest) :=
        mem_removeIncident.mpr ⟨ha, h1, h1⟩
      rw [ih _ hlen1 a hkeep]

/-- ExactSolver.solve raises on any graph whose edge list holds a self-loop. -/
lemma ExactSolver.solve_none {g : Graph} {a : Nat} (ha : (a, a) ∈ g.edges) :
    ExactSolver.solve g = none := by
  have hmem : (a, a) ∈ canonicalEdges g := by
    unfold canonicalEdges
    rw [List.mem_dedup]
    have : sortPair (a, a) = (a, a) := by simp [sortPair]
    rw [← this]
    exact List.mem_map_of_mem _ ha
  exact ExactSolver.find_cover_none (canonicalEdges g).length _ (le_refl _) a hmem

/-! ## Backtracking solver (solvers/backtracking.py)

The mutable fields upper_bound and best_cover become an explicit state that
the recursion threads through both branches (branch u first, then branch v,
matching the sequential Python calls). -/

structure BTState where
  upper_bound : Nat
  best_cover : Finset Nat

def BacktrackingSolver.find_cover
    (uncovered : List (Nat × Nat)) (current : Finset Nat) (s : BTState) : BTState :=
  if s.upper_bound ≤ current.card then s
  else
    match uncovered with
    | [] => ⟨current.card, current⟩
    | e :: rest =>
      let s1 := BacktrackingSolver.find_cover
        (removeIncident e.1 (e :: rest)) (insert e.1 current) s
      BacktrackingSolver.find_cover
        (removeIncident e.2 (e :: rest)) (insert e.2 current) s1
  termination_by uncovered.length
  decreasing_by
  · exact removeIncident_length_lt (by simp [edgeHas])
  · exact removeIncident_length_lt (by simp [edgeHas])

/-- Embeds BacktrackingSolver.solve. -/
def BacktrackingSolver.solve (g : Graph) : Finset Nat :=
  (BacktrackingSolver.find_cover (canonicalEdges g) ∅
    ⟨g.num_vertices, Finset.range g.num_vertices⟩).best_cover

/-- The upper bound never increases. -/
lemma BacktrackingSolver.bt_ub_mono (n : Nat) :
    ∀ (l : List (Nat × Nat)) (current : Finset Nat) (s : BTState), l.length ≤ n →
      (BacktrackingSolver.find_cover l current s).upper_bound ≤ s.upper_bound := by
  induction n with
  | zero =>
    intro l current s hl
    have hnil : l = [] := List.length_eq_zero.mp (Nat.le_zero.mp hl)
    subst hnil
    rw [BacktrackingSolver.find_cover.eq_def]
    by_cases hp : s.upper_bound ≤ current.card
    · rw [if_pos hp]
    · rw [if_neg hp]
      simp only
      omega
  | succ n ih =>
    intro l current s hl
    rw [BacktrackingSolver.find_cover.eq_def]
    by_cases hp : s.upper_bound ≤ current.card
    · rw [if_pos hp]
    rw [if_neg hp]
    rcases l with _ | ⟨e, rest⟩
    · simp only
      omega
    simp only
    have hlen1 : (removeIncident e.1 (e :: rest)).length ≤ n := by
      have := removeIncident_length_lt (l := rest) (x := e.1) (e := e) (by simp [edgeHas])
      simp only [List.length_cons] at this hl
      omega
    have hlen2 : (removeIncident e.2 (e :: rest)).length ≤ n := by
      have := removeIncident_length_lt (l := rest) (x := e.2) (e := e) (by simp [edgeHas])
      simp only [List.length_cons] at this hl
      omega
    have h1 := ih (removeIncident e.1 (e :: rest)) (insert e.1 current) s hlen1
    have h2 := ih (removeIncident e.2 (e :: rest)) (insert e.2 current)
      (BacktrackingSolver.find_cover (removeIncident e.1 (e :: rest)) (insert e.1 current) s)
      hlen2
    omega

/-- Soundness invariant of the backtracking state: the stored best cover
always covers the whole edge set E, sits inside the vertex set V, and
upper_bound records its size. -/
def BTInv (E : List (Nat × Nat)) (V : Finset Nat) (s : BTState) : Prop :=
  isCover E s.best_cover ∧ s.best_cover ⊆ V ∧ s.upper_bound = s.best_cover.card

lemma BacktrackingSolver.bt_find_cover_sound (E : List (Nat × Nat)) (V : Finset Nat) (n : Nat) :
    ∀ (l : List (Nat × Nat)) (current : Finset Nat) (s : BTState), l.length ≤ n →
      BTInv E V s →
      (∀ e ∈ E, (e.1 ∈ current ∨ e.2 ∈ current) ∨ e ∈ l) →
      current ⊆ V →
      (∀ e ∈ l, e.1 ∈ V ∧ e.2 ∈ V) →
      BTInv E V (BacktrackingSolver.find_cover l current s) := by
  induction n with
  | zero =>
    intro l current s hl hs hP hcur hlV
    have hnil : l = [] := List.length_eq_zero.mp (Nat.le_zero.mp hl)
    subst hnil
    rw [BacktrackingSolver.find_cover.eq_def]
    by_cases hp : s.upper_bound ≤ current.card
    · rw [if_pos hp]; exact hs
    · rw [if_neg hp]
      refine ⟨fun e he => ?_, hcur, rfl⟩
      rcases hP e he with h | h
      · exact h
      · simp at h
  | succ n ih =>
    intro l current s hl hs hP hcur hlV
    rw [BacktrackingSolver.find_cover.eq_def]
    by_cases hp : s.upper_bound ≤ current.card
    · rw [if_pos hp]; exact hs
    rw [if_neg hp]
    rcases l with _ | ⟨e, rest⟩
    · refine ⟨fun f hf => ?_, hcur, rfl⟩
      rcases hP f hf with h | h
      · exact h
      · simp at h
    simp only
    have heV := hlV e (by simp)
    have hlen1 : (removeIncident e.1 (e :: rest)).length ≤ n := by
      have := removeIncident_length_lt (l := rest) (x := e.1) (e := e) (by simp [edgeHas])
      simp only [List.length_cons] at this hl
      omega
    have hlen2 : (removeIncident e.2 (e :: rest)).length ≤ n := by
      have := removeIncident_length_lt (l := rest) (x := e.2) (e := e) (by simp [edgeHas])
      simp only [List.length_cons] at this hl
      omega
    have hP1 : ∀ f ∈ E, (f.1 ∈ insert e.1 current ∨ f.2 ∈ insert e.1 current) ∨
        f ∈ removeIncident e.1 (e :: rest) := by
      intro f hf
      rcases hP f hf with h | h
      · rcases h with h | h
        · exact Or.inl (Or.inl (Finset.mem_insert_of_mem h))
        · exact Or.inl (Or.inr (Finset.mem_insert_of_mem h))
      · by_cases hx : edgeHas e.1 f = true
        · rcases edgeHas_iff.mp hx with h1 | h1
          · exact Or.inl (Or.inl (h1 ▸ Finset.mem_insert_self _ _))
          · exact Or.inl (Or.inr (h1 ▸ Finset.mem_insert_self _ _))
        · have hne : e.1 ≠ f.1 ∧ e.1 ≠ f.2 := by
            constructor <;> intro hc <;> exact hx (edgeHas_iff.mpr (by tauto))
          exact Or.inr (mem_removeIncident.mpr ⟨h, hne.1, hne.2⟩)
    have hP2 : ∀ f ∈ E, (f.1 ∈ insert e.2 current ∨ f.2 ∈ insert e.2 current) ∨
        f ∈ removeIncident e.2 (e :: rest) := by
      intro f hf
      rcases hP f hf with h | h
      · rcases h with h | h
        · exact Or.inl (Or.inl (Finset.mem_insert_of_mem h))
        · exact Or.inl (Or.inr (Finset.mem_insert_of_mem h))
      · by_cases hx : edgeHas e.2 f = true
        · rcases edgeHas_iff.mp hx with h1 | h1
          · exact Or.inl (Or.inl (h1 ▸ Finset.mem_insert_self _ _))
          · exact Or.inl (Or.inr (h1 ▸ Finset.mem_insert_self _ _))
        · have hne : e.2 ≠ f.1 ∧ e.2 ≠ f.2 := by
            constructor <;> intro hc <;> exact hx (edgeHas_iff.mpr (by tauto))
          exact Or.inr (mem_removeIncident.mpr ⟨h, hne.1, hne.2⟩)
    have hs1 := ih (removeIncident e.1 (e :: rest)) (insert e.1 current) s hlen1 hs hP1
      (Finset.insert_subset heV.1 hcur) (fun f hf => hlV f (mem_removeIncident.mp hf).1)
    exact ih (removeIncident e.2 (e :: rest)) (insert e.2 current) _ hlen2 hs1 hP2
      (Finset.insert_subset heV.2 hcur) (fun f hf => hlV f (mem_removeIncident.mp hf).1)

/-- Optimality: the final upper bound is at most the size of current plus the
size of any disjoint cover of the residual edges, and never above the
incoming bound. -/
lemma BacktrackingSolver.bt_find_cover_opt (n : Nat) :
    ∀ (l : List (Nat × Nat)) (current : Finset Nat) (s : BTState) (D : Finset Nat),
      l.length ≤ n → isCover l D → (∀ x ∈ D, x ∉ current) →
      (BacktrackingSolver.find_cover l current s).upper_bound ≤
        current.card + D.card := by
  induction n with
  | zero =>
    intro l current s D hl hD hdisj
    have hnil : l = [] := List.length_eq_zero.mp (Nat.le_zero.mp hl)
    subst hnil
    rw [BacktrackingSolver.find_cover.eq_def]
    by_cases hp : s.upper_bound ≤ current.card
    · rw [if_pos hp]; omega
    · rw [if_neg hp]
      simp only
      omega
  | succ n ih =>
    intro l current s D hl hD hdisj
    rw [BacktrackingSolver.find_cover.eq_def]
    by_cases hp : s.upper_bound ≤ current.card
    · rw [if_pos hp]; omega
    rw [if_neg hp]
    rcases l with _ | ⟨e, rest⟩
    · simp only
      omega
    simp only
    have hlen1 : (removeIncident e.1 (e :: rest)).length ≤ n := by
      have := removeIncident_length_lt (l := rest) (x := e.1) (e := e) (by simp [edgeHas])
      simp only [List.length_cons] at this hl
      omega
    have hlen2 : (removeIncident e.2 (e :: rest)).length ≤ n := by
      have := removeIncident_length_lt (l := rest) (x := e.2) (e := e) (by simp [edgeHas])
      simp only [List.length_cons] at this hl
      omega
    rcases hD e (by simp) with hmem | hmem
    · have hD1 : isCover (removeIncident e.1 (e :: rest)) (D.erase e.1) :=
        isCover_removeIncident_erase hD
      have hdisj1 : ∀ x ∈ D.erase e.1, x ∉ insert e.1 current := by
        intro x hx
        rcases Finset.mem_erase.mp hx with ⟨hxne, hxD⟩
        intro hcontra
        rcases Finset.mem_insert.mp hcontra with h | h
        · exact hxne h
        · exact hdisj x hxD h
      have h1 := ih (removeIncident e.1 (e :: rest)) (insert e.1 current) s (D.erase e.1)
        hlen1 hD1 hdisj1
      have h2 := BacktrackingSolver.bt_ub_mono (removeIncident e.2 (e :: rest)).length
        (removeIncident e.2 (e :: rest)) (insert e.2 current)
        (BacktrackingSolver.find_cover (removeIncident e.1 (e :: rest))
          (insert e.1 current) s) (le_refl _)
      have hcard1 : (insert e.1 current).card = current.card + 1 :=
        Finset.card_insert_of_not_mem (hdisj e.1 hmem)
      have hcard2 : (D.erase e.1).card = D.card - 1 := Finset.card_erase_of_mem hmem
      have hpos : 1 ≤ D.card := Finset.card_pos.mpr ⟨e.1, hmem⟩
      omega
    · have hD2 : isCover (removeIncident e.2 (e :: rest)) (D.erase e.2) :=
        isCover_removeIncident_erase hD
      have hdisj2 : ∀ x ∈ D.erase e.2, x ∉ insert e.2 current := by
        intro x hx
        rcases Finset.mem_erase.mp hx with ⟨hxne, hxD⟩
        intro hcontra
        rcases Finset.mem_insert.mp hcontra with h | h
        · exact hxne h
        · exact hdisj x hxD h
      have h1 := ih (removeIncident e.2 (e :: rest)) (insert e.2 current)
        (BacktrackingSolver.find_cover (removeIncident e.1 (e :: rest))
          (insert e.1 current) s) (D.erase e.2) hlen2 hD2 hdisj2
      have h0 := BacktrackingSolver.bt_ub_mono (removeIncident e.1 (e :: rest)).length
        (removeIncident e.1 (e :: rest)) (insert e.1 current) s (le_refl _)
      have hcard1 : (insert e.2 current).card = current.card + 1 :=
        Finset.card_insert_of_not_mem (hdisj e.2 hmem)
      have hcard2 : (D.erase e.2).card = D.card - 1 := Finset.card_erase_of_mem hmem
      have hpos : 1 ≤ D.card := Finset.card_pos.mpr ⟨e.2, hmem⟩
      omega

/-- BacktrackingSolver.solve returns a minimum vertex cover on valid graphs. -/
lemma BacktrackingSolver.bt_solve_spec {g : Graph} (hv : g.valid) :
    isCover g.edges (BacktrackingSolver.solve g) ∧
      BacktrackingSolver.solve g ∈ coverFinsets g.num_vertices g.edges ∧
      (BacktrackingSolver.solve g).card = minCoverSize g.num_vertices g.edges := by
  set V := Finset.range g.num_vertices with hV
  set E := canonicalEdges g with hE
  have hs0 : BTInv E V ⟨g.num_vertices, V⟩ := by
    refine ⟨?_, le_refl _, by simp [hV]⟩
    intro e he
    have := canonicalEdges_valid hv e he
    exact Or.inl (by rw [hV]; exact Finset.mem_range.mpr this.1)
  have hsound := BacktrackingSolver.bt_find_cover_sound E V E.length E ∅
    ⟨g.num_vertices, V⟩ (le_refl _) hs0 (fun e he => Or.inr he) (by simp)
    (fun e he => by
      have := canonicalEdges_valid hv e he
      exact ⟨Finset.mem_range.mpr this.1, Finset.mem_range.mpr this.2⟩)
  obtain ⟨hcov, hsub, hub⟩ := hsound
  have hcov' : isCover g.edges (BacktrackingSolver.solve g) := by
    rw [BacktrackingSolver.solve]
    exact isCover_canonical_iff.mp hcov
  have hmem : BacktrackingSolver.solve g ∈ coverFinsets g.num_vertices g.edges :=
    mem_coverFinsets.mpr ⟨hsub, hcov'⟩
  refine ⟨hcov', hmem, card_eq_minCoverSize hmem ?_⟩
  intro D hD
  have hDcov : isCover E D := isCover_canonical_iff.mpr (mem_coverFinsets.mp hD).2
  have hopt := BacktrackingSolver.bt_find_cover_opt E.length E ∅ ⟨g.num_vertices, V⟩ D
    (le_refl _) hDcov (by simp)
  have hempty : (∅ : Finset Nat).card = 0 := Finset.card_empty
  rw [BacktrackingSolver.solve, ← hE, ← hV]
  omega

/-! ## IDDFS solver (solvers/iddfs.py) -/

/-- Embeds IDDFSSolver._depth_limited_search; branch u is explored first and
branch v only on failure, matching the sequential Python control flow. -/
def IDDFSSolver.dls (uncovered : List (Nat × Nat)) (k : Nat) : Option (Finset Nat) :=
  match uncovered with
  | [] => some ∅
  | e :: rest =>
    if k = 0 then none
    else
      match IDDFSSolver.dls (removeIncident e.1 (e :: rest)) (k - 1) with
      | some r => some (insert e.1 r)
      | none =>
        match IDDFSSolver.dls (removeIncident e.2 (e :: rest)) (k - 1) with
        | some r => some (insert e.2 r)
        | none => none
  termination_by uncovered.length
  decreasing_by
  · exact removeIncident_length_lt (by simp [edgeHas])
  · exact removeIncident_length_lt (by simp [edgeHas])

/-- Embeds IDDFSSolver.solve: iterative deepening over k = 1..num_vertices,
with the empty-edge early return and the all-vertices fallback. -/
def IDDFSSolver.solve (g : Graph) : Finset Nat :=
  let canonical := canonicalEdges g
  if canonical = [] then ∅
  else
    match (List.range' 1 g.num_vertices).findSome? (fun k => IDDFSSolver.dls canonical k) with
    | some s => s
    | none => Finset.range g.num_vertices

/-- Soundness of the depth-limited search: a returned set covers the edges,
uses at most k vertices, and is made of edge endpoints. -/
lemma IDDFSSolver.dls_sound (n : Nat) :
    ∀ (l : List (Nat × Nat)) (k : Nat) (C : Finset Nat), l.length ≤ n →
      IDDFSSolver.dls l k = some C →
      isCover l C ∧ C.card ≤ k ∧ (∀ x ∈ C, ∃ e ∈ l, x = e.1 ∨ x = e.2) := by
  induction n with
  | zero =>
    intro l k C hl heq
    have hnil : l = [] := List.length_eq_zero.mp (Nat.le_zero.mp hl)
    subst hnil
    rw [IDDFSSolver.dls] at heq
    obtain rfl : (∅ : Finset Nat) = C := Option.some.inj heq
    refine ⟨fun e he => absurd he (List.not_mem_nil e), by simp, by simp⟩
  | succ n ih =>
    intro l k C hl heq
    rcases l with _ | ⟨e, rest⟩
    · rw [IDDFSSolver.dls] at heq
      obtain rfl : (∅ : Finset Nat) = C := Option.some.inj heq
      refine ⟨fun f hf => absurd hf (List.not_mem_nil f), by simp, by simp⟩
    rw [IDDFSSolver.dls] at heq
    by_cases hk : k = 0
    · rw [if_pos hk] at heq
      exact absurd heq (by simp)
    rw [if_neg hk] at heq
    have hlen1 : (removeIncident e.1 (e :: rest)).length ≤ n := by
      have := removeIncident_length_lt (l := rest) (x := e.1) (e := e) (by simp [edgeHas])
      simp only [List.length_cons] at this hl
      omega
    have hlen2 : (removeIncident e.2 (e :: rest)).length ≤ n := by
      have := removeIncident_length_lt (l := rest) (x := e.2) (e := e) (by simp [edgeHas])
      simp only [List.length_cons] at this hl
      omega
    rcases h1 : IDDFSSolver.dls (removeIncident e.1 (e :: rest)) (k - 1) with _ | r1
    · rw [h1] at heq
      rcases h2 : IDDFSSolver.dls (removeIncident e.2 (e :: rest)) (k - 1) with _ | r2
      · rw [h2] at heq
        exact absurd heq (by simp)
      · rw [h2] at heq
        simp only [Option.some.injEq] at heq
        subst heq
        obtain ⟨hcov, hcard, hsub⟩ := ih _ _ _ hlen2 h2
        refine ⟨isCover_insert_of_removeIncident hcov, ?_, ?_⟩
        · have := Finset.card_insert_le e.2 r2
          omega
        · intro x hx
          rcases Finset.mem_insert.mp hx with rfl | hx
          · exact ⟨e, by simp⟩
          · obtain ⟨f, hf, hfx⟩ := hsub x hx
            exact ⟨f, (mem_removeIncident.mp hf).1, hfx⟩
    · rw [h1] at heq
      simp only [Option.some.injEq] at heq
      subst heq
      obtain ⟨hcov, hcard, hsub⟩ := ih _ _ _ hlen1 h1
      refine ⟨isCover_insert_of_removeIncident hcov, ?_, ?_⟩
      · have := Finset.card_insert_le e.1 r1
        omega
      · intro x hx
        rcases Finset.mem_insert.mp hx with rfl | hx
        · exact ⟨e, by simp⟩
        · obtain ⟨f, hf, hfx⟩ := hsub x hx
          exact ⟨f, (mem_removeIncident.mp hf).1, hfx⟩

/-- Completeness of the depth-limited search: a cover of size at most k makes
the search succeed. -/
lemma IDDFSSolver.dls_complete (n : Nat) :
    ∀ (l : List (Nat × Nat)) (k : Nat) (D : Finset Nat), l.length ≤ n →
      isCover l D → D.card ≤ k →
      ∃ C, IDDFSSolver.dls l k = some C := by
  induction n with
  | zero =>
    intro l k D hl _ _
    have hnil : l = [] := List.length_eq_zero.mp (Nat.le_zero.mp hl)
    subst hnil
    exact ⟨∅, by rw [IDDFSSolver.dls]⟩
  | succ n ih =>
    intro l k D hl hD hk
    rcases l with _ | ⟨e, rest⟩
    · exact ⟨∅, by rw [IDDFSSolver.dls]⟩
    have hmemD : e.1 ∈ D ∨ e.2 ∈ D := hD e (by simp)
    have hpos : 1 ≤ D.card := by
      rcases hmemD with h | h
      · exact Finset.card_pos.mpr ⟨e.1, h⟩
      · exact Finset.card_pos.mpr ⟨e.2, h⟩
    have hkpos : k ≠ 0 := by omega
    have hlen1 : (removeIncident e.1 (e :: rest)).length ≤ n := by
      have := removeIncident_length_lt (l := rest) (x := e.1) (e := e) (by simp [edgeHas])
      simp only [List.length_cons] at this hl
      omega
    have hlen2 : (removeIncident e.2 (e :: rest)).length ≤ n := by
      have := removeIncident_length_lt (l := rest) (x := e.2) (e := e) (by simp [edgeHas])
      simp only [List.length_cons] at this hl
      omega
    rw [IDDFSSolver.dls, if_neg hkpos]
    rcases h1 : IDDFSSolver.dls (removeIncident e.1 (e :: rest)) (k - 1) with _ | r1
    · rcases hmemD with hmem | hmem
      · exfalso
        have hD1 : isCover (removeIncident e.1 (e :: rest)) (D.erase e.1) :=
          isCover_removeIncident_erase hD
        have hcard : (D.erase e.1).card ≤ k - 1 := by
          have := Finset.card_erase_of_mem hmem
          omega
        obtain ⟨C, hC⟩ := ih _ _ _ hlen1 hD1 hcard
        rw [h1] at hC
        exact absurd hC (by simp)
      · have hD2 : isCover (removeIncident e.2 (e :: rest)) (D.erase e.2) :=
          isCover_removeIncident_erase hD
        have hcard : (D.erase e.2).card ≤ k - 1 := by
          have := Finset.card_erase_of_mem hmem
          omega
        obtain ⟨C, hC⟩ := ih _ _ _ hlen2 hD2 hcard
        rw [hC]
        exact ⟨insert e.2 C, rfl⟩
    · exact ⟨insert e.1 r1, rfl⟩

/-- First success of findSome? over a contiguous range of budgets. -/
lemma findSome_range' (f : Nat → Option (Finset Nat)) (m : Nat) (C : Finset Nat)
    (hm : f m = some C) (hbelow : ∀ j, j < m → f j = none) :
    ∀ (b a : Nat), a ≤ m → m < a + b →
      (List.range' a b).findSome? f = some C := by
  intro b
  induction b with
  | zero => intro a ha hb; omega
  | succ b ih =>
    intro a ha hb
    rw [List.range'_succ, List.findSome?_cons]
    by_cases hcase : a = m
    · subst hcase
      rw [hm]
    · have hlt : a < m := by omega
      rw [hbelow a hlt]
      exact ih (a + 1) (by omega) (by omega)

/-- IDDFSSolver.solve returns a minimum vertex cover on valid graphs. -/
lemma IDDFSSolver.iddfs_solve_spec {g : Graph} (hv : g.valid) :
    isCover g.edges (IDDFSSolver.solve g) ∧
      IDDFSSolver.solve g ∈ coverFinsets g.num_vertices g.edges ∧
      (IDDFSSolver.solve g).card = minCoverSize g.num_vertices g.edges := by
  by_cases hnil : canonicalEdges g = []
  · have hedges : g.edges = [] := canonicalEdges_nil_iff.mp hnil
    have hsolve : IDDFSSolver.solve g = ∅ := by
      rw [IDDFSSolver.solve]
      simp [hnil]
    rw [hsolve]
    have hmem : (∅ : Finset Nat) ∈ coverFinsets g.num_vertices g.edges := by
      rw [mem_coverFinsets, hedges]
      exact ⟨Finset.empty_subset _, fun e he => absurd he (List.not_mem_nil e)⟩
    refine ⟨by rw [hedges]; exact fun e he => absurd he (List.not_mem_nil e), hmem, ?_⟩
    have := minCoverSize_le hmem
    simp at this ⊢
    omega
  · set E := canonicalEdges g with hE
    set m := minCoverSize g.num_vertices g.edges with hm
    have hne : (coverFinsets g.num_vertices g.edges).Nonempty :=
      ⟨_, range_mem_coverFinsets hv⟩
    obtain ⟨Dstar, hDstar, hDcard⟩ := exists_minCover hne
    have hDcov : isCover E Dstar := isCover_canonical_iff.mpr (mem_coverFinsets.mp hDstar).2
    have hsucc : ∃ C, IDDFSSolver.dls E m = some C :=
      IDDFSSolver.dls_complete E.length E m Dstar (le_refl _) hDcov (by omega)
    obtain ⟨C, hC⟩ := hsucc
    have hfail : ∀ j, j < m → IDDFSSolver.dls E j = none := by
      intro j hj
      rcases hcase : IDDFSSolver.dls E j with _ | R
      · rfl
      exfalso
      obtain ⟨hRcov, hRcard, hRsub⟩ := IDDFSSolver.dls_sound E.length E j R (le_refl _) hcase
      have hRrange : R ⊆ Finset.range g.num_vertices := by
        intro x hx
        obtain ⟨f, hf, hfx⟩ := hRsub x hx
        have := canonicalEdges_valid hv f hf
        rcases hfx with rfl | rfl <;> exact Finset.mem_range.mpr (by omega)
      have hRmem : R ∈ coverFinsets g.num_vertices g.edges :=
        mem_coverFinsets.mpr ⟨hRrange, isCover_canonical_iff.mp hRcov⟩
      have := minCoverSize_le hRmem
      omega
    have hm_pos : 1 ≤ m := by
      by_contra hcontra
      have hm0 : m = 0 := by omega
      obtain ⟨e, he⟩ := List.exists_mem_of_ne_nil E hnil
      obtain ⟨hcov, hcard, _⟩ := IDDFSSolver.dls_sound E.length E m C (le_refl _) hC
      have hCempty : C = ∅ := Finset.card_eq_zero.mp (by omega)
      rcases hcov e he with h | h <;> rw [hCempty] at h <;> simp at h
    have hm_le : m ≤ g.num_vertices := by
      have := minCoverSize_le (range_mem_coverFinsets hv)
      simp at this
      omega
    have hfind : (List.range' 1 g.num_vertices).findSome?
        (fun k => IDDFSSolver.dls E k) = some C :=
      findSome_range' _ m C hC hfail g.num_vertices 1 hm_pos (by omega)
    have hsolve : IDDFSSolver.solve g = C := by
      rw [IDDFSSolver.solve]
      simp only [← hE, hnil, if_neg hnil]
      rw [hfind]
      simp
    obtain ⟨hcov, hcard, hsub⟩ := IDDFSSolver.dls_sound E.length E m C (le_refl _) hC
    have hrange : C ⊆ Finset.range g.num_vertices := by
      intro x hx
      obtain ⟨f, hf, hfx⟩ := hsub x hx
      have := canonicalEdges_valid hv f hf
      rcases hfx with rfl | rfl <;> exact Finset.mem_range.mpr (by omega)
    have hCmem : C ∈ coverFinsets g.num_vertices g.edges :=
      mem_coverFinsets.mpr ⟨hrange, isCover_canonical_iff.mp hcov⟩
    have hge := minCoverSize_le hCmem
    rw [hsolve]
    exact ⟨isCover_canonical_iff.mp hcov, hCmem, by omega⟩

/-! ## Tabu search (solvers/tabu_search.py)

The random number generator is used only to draw the initial 50/50
assignment, so the embedding takes that assignment as the parameter init and
quantifies over it; every other step of the algorithm is deterministic.
Python integers become Int. -/

/-- Embeds _cost_function. -/
def cost_function (g : Graph) (cover : List Bool) (penalty : Int) : Int :=
  (g.count_uncovered_edges cover : Int) * penalty + (cover.count true : Int)

/-- The loop over the neighbours of v shared by _calculate_delta_cost and
the apply-move recomputation: counts +1 for every uncovered neighbour when v
is being removed and -1 when v is being added. -/
def delta_uncovered (g : Graph) (current : List Bool) (v : Nat) : Int :=
  ((listAdj g).getD v []).foldl
    (fun acc u =>
      if !current.getD u false then
        (if current.getD v false then acc + 1 else acc - 1)
      else acc)
    0

/-- Embeds _calculate_delta_cost. -/
def calculate_delta_cost (g : Graph) (current : List Bool) (v : Nat) (penalty : Int) : Int :=
  delta_uncovered g current v * penalty +
    (if current.getD v false then -1 else 1)

/-- The mutable locals of solve_tabu_search gathered into one state. -/
structure TabuState where
  current : List Bool
  current_cost : Int
  current_uncovered : Int
  best : List Bool
  best_cost : Int
  tabu : Nat × Bool → Int

/-- One candidate evaluation inside the neighbourhood-exploration loop of an
iteration: the running best_move/best_move_cost pair is the accumulator, with
float inf modelled by the none start. -/
def pickStep (g : Graph) (penalty it : Int) (st : TabuState)
    (acc : Option (Nat × Int)) (v : Nat) : Option (Nat × Int) :=
  let new_cost := st.current_cost + calculate_delta_cost g st.current v penalty
  let new_state := !st.current.getD v false
  if ¬(st.tabu (v, new_state) > it) ∨ new_cost < st.best_cost then
    match acc with
    | none => some (v, new_cost)
    | some (bm, bc) => if new_cost < bc then some (v, new_cost) else some (bm, bc)
  else acc

/-- Embeds the neighbourhood-exploration loop of one iteration. -/
def pickMove (g : Graph) (penalty : Int) (it : Int) (st : TabuState) : Option (Nat × Int) :=
  (List.range g.num_vertices).foldl (pickStep g penalty it st) none

/-- Embeds the apply-best-move block of one iteration, including the tabu
entry on the reverted state and the guarded best update. -/
def applyMove (g : Graph) (tabu_tenure : Int) (it : Int) (st : TabuState)
    (v : Nat) (new_cost : Int) : TabuState :=
  let old_state := st.current.getD v false
  let current_uncovered := st.current_uncovered + delta_uncovered g st.current v
  let current := st.current.set v (!old_state)
  let tabu := fun k => if k = (v, old_state) then it + tabu_tenure else st.tabu k
  if new_cost < st.best_cost ∧ current_uncovered = 0 then
    ⟨current, new_cost, current_uncovered, current, new_cost, tabu⟩
  else
    ⟨current, new_cost, current_uncovered, st.best, st.best_cost, tabu⟩

/-- One iteration of the main loop; none encodes the break on
best_move is None. -/
def tabuStep (g : Graph) (penalty tabu_tenure : Int) (it : Int) (st : TabuState) :
    Option TabuState :=
  match pickMove g penalty it st with
  | none => none
  | some (v, c) => some (applyMove g tabu_tenure it st v c)

/-- The main loop, iterating it = 1, 2, ... while iterations remain. -/
def tabuLoop (g : Graph) (penalty tabu_tenure : Int) :
    Nat → Int → TabuState → TabuState
  | 0, _, st => st
  | remaining + 1, it, st =>
    match tabuStep g penalty tabu_tenure it st with
    | none => st
    | some st1 => tabuLoop g penalty tabu_tenure remaining (it + 1) st1

/-- The dynamic-penalty correction at the top of solve_tabu_search: a missing
or too small penalty is replaced by num_vertices + 1. -/
def effectivePenalty (g : Graph) (penalty : Option Int) : Int :=
  match penalty with
  | none => (g.num_vertices : Int) + 1
  | some p => if p ≤ (g.num_vertices : Int) then (g.num_vertices : Int) + 1 else p

/-- Embeds the final list comprehension over enumerate(best). -/
def trueIndices (l : List Bool) : List Nat :=
  (List.range l.length).filter (fun i => l.getD i false)

/-- The initialisation block of solve_tabu_search: best starts at the full
cover, current at the random draw init, and best is pre-empted by init when
that draw happens to be valid and cheaper. -/
def tabuInit (g : Graph) (penalty : Int) (init : List Bool) : TabuState :=
  let best0 : List Bool := List.replicate g.num_vertices true
  let best_cost0 := cost_function g best0 penalty
  let current_uncovered := (g.count_uncovered_edges init : Int)
  let current_cost := current_uncovered * penalty + (init.count true : Int)
  if current_uncovered = 0 ∧ current_cost < best_cost0 then
    ⟨init, current_cost, current_uncovered, init, current_cost, fun _ => 0⟩
  else
    ⟨init, current_cost, current_uncovered, best0, best_cost0, fun _ => 0⟩

/-- Embeds solve_tabu_search; init is the random 50/50 starting assignment
drawn from the seeded generator. -/
def solve_tabu_search (g : Graph) (max_iters : Nat) (tabu_tenure : Int)
    (penaltyArg : Option Int) (init : List Bool) : List Nat × Int :=
  let penalty := effectivePenalty g penaltyArg
  let stF := tabuLoop g penalty tabu_tenure max_iters 1 (tabuInit g penalty init)
  (trueIndices stF.best, cost_function g stF.best penalty)

/-- Uncovered-edge count measured directly on a returned list of cover
vertices. -/
def count_uncovered_list (g : Graph) (cover : List Nat) : Nat :=
  g.edges.countP (fun e => !(cover.contains e.1 || cover.contains e.2))

lemma getDl_set_self {α : Type} (l : List α) (i : Nat) (x d : α) (h : i < l.length) :
    (l.set i x).getD i d = x := by
  simp [List.getD, List.getElem?_set_self', List.getElem?_eq_getElem h]

lemma getDl_set_ne {α : Type} (l : List α) (x d : α) {i j : Nat} (h : i ≠ j) :
    (l.set i x).getD j d = l.getD j d := by
  simp [List.getD, List.getElem?_set_ne h]

/-- Per-vertex contribution of one edge to the adjacency list of v. -/
def adjContrib (P : Nat → Bool) (v : Nat) (e : Nat × Nat) : Nat :=
  if e.1 = e.2 then 0
  else (if e.1 = v ∧ P e.2 then 1 else 0) + (if e.2 = v ∧ P e.1 then 1 else 0)

lemma adjStep_length (adj : List (List Nat)) (e : Nat × Nat) :
    (adjStep adj e).length = adj.length := by
  unfold adjStep
  by_cases h : e.1 = e.2 <;> simp [h]

lemma adjStep_countP (P : Nat → Bool) (v : Nat) (adj : List (List Nat)) (e : Nat × Nat)
    (h1 : e.1 < adj.length) (h2 : e.2 < adj.length) :
    ((adjStep adj e).getD v []).countP P =
      (adj.getD v []).countP P + adjContrib P v e := by
  unfold adjStep adjContrib
  by_cases hloop : e.1 = e.2
  · simp [hloop]
  rw [if_neg hloop, if_neg hloop]
  simp only
  by_cases hv2 : v = e.2
  · subst hv2
    rw [getDl_set_self _ _ _ _ (by simpa using h2)]
    rw [getDl_set_ne _ _ _ hloop]
    rw [List.countP_append]
    simp only [List.countP_cons, List.countP_nil]
    by_cases hp : P e.1 = true <;> simp [hp, hloop]
  · by_cases hv1 : v = e.1
    · subst hv1
      rw [getDl_set_ne _ _ _ (fun hc => hloop hc.symm)]
      rw [getDl_set_self _ _ _ _ h1]
      rw [List.countP_append]
      have hne : ¬(e.2 = e.1) := fun hc => hloop hc.symm
      simp only [List.countP_cons, List.countP_nil]
      by_cases hp : P e.2 = true <;> simp [hp, hne]
    · rw [getDl_set_ne _ _ _ (fun hc => hv2 hc.symm)]
      rw [getDl_set_ne _ _ _ (fun hc => hv1 hc.symm)]
      have hne1 : ¬(e.1 = v) := fun hc => hv1 hc.symm
      have hne2 : ¬(e.2 = v) := fun hc => hv2 hc.symm
      simp [hne1, hne2]

lemma adj_fold_countP (P : Nat → Bool) (v : Nat) :
    ∀ (l : List (Nat × Nat)) (adj : List (List Nat)),
      (∀ e ∈ l, e.1 < adj.length ∧ e.2 < adj.length) →
      ((l.foldl adjStep adj).getD v []).countP P =
        (adj.getD v []).countP P + (l.map (adjContrib P v)).sum := by
  intro l
  induction l with
  | nil => intro adj _; simp
  | cons e rest ih =>
    intro adj hb
    have he := hb e (by simp)
    rw [List.foldl_cons]
    rw [ih (adjStep adj e) (fun f hf => by
      rw [adjStep_length]
      exact hb f (by simp [hf]))]
    rw [adjStep_countP P v adj e he.1 he.2]
    simp [List.map_cons, List.sum_cons]
    omega

/-- The adjacency lists of a valid graph decompose edge by edge. -/
lemma listAdj_countP (g : Graph) (hv : g.valid) (P : Nat → Bool) (v : Nat) :
    ((listAdj g).getD v []).countP P = (g.edges.map (adjContrib P v)).sum := by
  unfold listAdj
  rw [adj_fold_countP P v g.edges (List.replicate g.num_vertices []) (fun e he => by
    have := hv e he
    simp [this])]
  rcases Nat.lt_or_ge v g.num_vertices with h | h
  · simp [List.getD, List.getElem?_replicate, h]
  · simp [List.getD, List.getElem?_eq_none, h]

lemma delta_fold (cur : List Bool) (v : Nat) :
    ∀ (l : List Nat) (acc : Int),
      l.foldl (fun acc u =>
        if !cur.getD u false then
          (if cur.getD v false then acc + 1 else acc - 1)
        else acc) acc =
      acc + (if cur.getD v false
             then (l.countP (fun u => !cur.getD u false) : Int)
             else -(l.countP (fun u => !cur.getD u false) : Int)) := by
  intro l
  induction l with
  | nil => intro acc; simp
  | cons x xs ih =>
    intro acc
    rw [List.foldl_cons]
    by_cases hx : (!cur.getD x false) = true
    · rw [if_pos hx]
      by_cases hold : cur.getD v false = true
      · rw [if_pos hold, ih (acc + 1)]
        rw [if_pos hold, if_pos hold]
        rw [List.countP_cons, if_pos hx]
        push_cast
        ring
      · rw [if_neg hold, ih (acc - 1)]
        rw [if_neg hold, if_neg hold]
        rw [List.countP_cons, if_pos hx]
        push_cast
        ring
    · rw [if_neg hx, ih acc]
      rw [List.countP_cons, if_neg hx]
      simp

/-- Closed form of delta_uncovered: sign times the number of uncovered
neighbours. -/
lemma delta_uncovered_eq (g : Graph) (cur : List Bool) (v : Nat) :
    delta_uncovered g cur v =
      (if cur.getD v false
       then ((((listAdj g).getD v []).countP (fun u => !cur.getD u false) : Int))
       else -((((listAdj g).getD v []).countP (fun u => !cur.getD u false) : Int))) := by
  unfold delta_uncovered
  rw [delta_fold cur v ((listAdj g).getD v []) 0]
  ring

lemma count_true_set_gen (cur : List Bool) :
    ∀ (v : Nat) (b : Bool), v < cur.length →
      ((cur.set v b).count true : Int) =
        (cur.count true : Int) + (if b then 1 else 0) -
          (if cur.getD v false then 1 else 0) := by
  induction cur with
  | nil => intro v b h; simp at h
  | cons x xs ih =>
    intro v b h
    rcases v with _ | v
    · simp only [List.getD_cons_zero, List.set_cons_zero]
      rcases x with _ | _ <;> rcases b with _ | _ <;>
        simp [List.count_cons] <;> ring
    · simp only [List.getD_cons_succ, List.set_cons_succ, List.count_cons]
      have hv : v < xs.length := by simpa using h
      have hxs := ih v b hv
      rcases x with _ | _ <;> rcases b with _ | _ <;>
        by_cases hgd : xs.getD v false = true <;>
          simp [hgd] at hxs ⊢ <;> omega

lemma count_true_set (cur : List Bool) (v : Nat) (h : v < cur.length) :
    ((cur.set v (!cur.getD v false)).count true : Int) =
      (cur.count true : Int) + (if cur.getD v false then -1 else 1) := by
  have hgen := count_true_set_gen cur v (!cur.getD v false) h
  rcases hold : cur.getD v false with _ | _ <;> rw [hold] at hgen <;>
    simp at hgen ⊢ <;> omega

/-- The per-edge change of the uncovered indicator when flipping v. -/
lemma flip_edge_diff (cur : List Bool) (v : Nat) (e : Nat × Nat)
    (hne : e.1 ≠ e.2) (hvn : v < cur.length) :
    ((if !((cur.set v (!cur.getD v false)).getD e.1 false ||
           (cur.set v (!cur.getD v false)).getD e.2 false) then (1 : Int) else 0) -
      (if !(cur.getD e.1 false || cur.getD e.2 false) then (1 : Int) else 0)) =
      (if cur.getD v false then (1 : Int) else -1) *
        (adjContrib (fun u => !cur.getD u false) v e : Int) := by
  unfold adjContrib
  rw [if_neg hne]
  beta_reduce
  by_cases h1 : v = e.1
  · subst h1
    rw [getD_set_self _ _ _ hvn, getD_set_ne _ _ hne]
    have hne2 : ¬(e.2 = e.1) := fun hc => hne hc.symm
    rcases hold : cur.getD e.1 false with _ | _ <;>
      rcases hb2 : cur.getD e.2 false with _ | _ <;>
        simp [hold, hb2, hne2]
  · by_cases h2 : v = e.2
    · subst h2
      rw [getD_set_ne _ _ h1, getD_set_self _ _ _ hvn]
      rcases hold : cur.getD e.2 false with _ | _ <;>
        rcases hb1 : cur.getD e.1 false with _ | _ <;>
          simp [hold, hb1, hne]
    · rw [getD_set_ne _ _ h1, getD_set_ne _ _ h2]
      have hne1 : ¬(e.1 = v) := fun hc => h1 hc.symm
      have hne2 : ¬(e.2 = v) := fun hc => h2 hc.symm
      simp [hne1, hne2]

lemma countP_diff_sum (Q Q' : Nat × Nat → Bool) (w : Nat × Nat → Int) :
    ∀ l : List (Nat × Nat),
      (∀ e ∈ l, ((if Q' e then (1 : Int) else 0) - (if Q e then (1 : Int) else 0)) = w e) →
      (l.countP Q' : Int) = (l.countP Q : Int) + (l.map w).sum := by
  intro l
  induction l with
  | nil => simp
  | cons e rest ih =>
    intro hw
    have he := hw e (by simp)
    have hr := ih (fun f hf => hw f (by simp [hf]))
    rw [List.countP_cons, List.countP_cons]
    simp only [List.map_cons, List.sum_cons]
    by_cases hq : Q e = true <;> by_cases hq' : Q' e = true <;>
      simp [hq, hq'] at he ⊢ <;> push_cast <;> omega

/-- Delta evaluation is exact on loop-free valid graphs: flipping vertex v
changes the uncovered-edge count by exactly delta_uncovered. -/
lemma count_uncovered_flip (g : Graph) (hv : g.valid) (hnl : g.noSelfLoops)
    (cur : List Bool) (v : Nat) (hlen : cur.length = g.num_vertices) :
    (g.count_uncovered_edges (cur.set v (!cur.getD v false)) : Int) =
      (g.count_uncovered_edges cur : Int) + delta_uncovered g cur v := by
  set P : Nat → Bool := fun u => !cur.getD u false with hP
  set w : Nat × Nat → Int :=
    fun e => (if cur.getD v false then (1 : Int) else -1) * (adjContrib P v e : Int) with hw
  have hdiff := countP_diff_sum
    (fun e => !(cur.getD e.1 false || cur.getD e.2 false))
    (fun e => !((cur.set v (!cur.getD v false)).getD e.1 false ||
                (cur.set v (!cur.getD v false)).getD e.2 false))
    w g.edges ?_
  · unfold Graph.count_uncovered_edges
    rw [hdiff]
    have hsum : (g.edges.map w).sum =
        (if cur.getD v false then (1 : Int) else -1) *
          ((g.edges.map (adjContrib P v)).sum : Int) := by
      rw [hw]
      induction g.edges with
      | nil => simp
      | cons e rest ih =>
        simp only [List.map_cons, List.sum_cons, ih]
        push_cast
        ring
    rw [hsum, ← listAdj_countP g hv P v]
    rw [delta_uncovered_eq g cur v]
    rcases hold : cur.getD v false with _ | _ <;> simp [hold, hP, List.getD]
  · intro e he
    have hne := hnl e he
    have hvn : v < cur.length ∨ ¬(v < cur.length) := em _
    rcases Nat.lt_or_ge v cur.length with hvlt | hvge
    · exact flip_edge_diff cur v e hne hvlt
    · have hset : cur.set v (!cur.getD v false) = cur := by
        apply List.set_eq_of_length_le
        omega
      rw [hset]
      have hcontrib : adjContrib P v e = 0 := by
        unfold adjContrib
        have h1 : ¬(e.1 = v) := by
          have := hv e he
          omega
        have h2 : ¬(e.2 = v) := by
          have := hv e he
          omega
        simp [hne, h1, h2]
      rw [hw]
      simp only [hcontrib]
      simp

/-- Exactness of the full delta cost. -/
lemma cost_flip (g : Graph) (hv : g.valid) (hnl : g.noSelfLoops)
    (cur : List Bool) (v : Nat) (pen : Int)
    (hlen : cur.length = g.num_vertices) (hvn : v < g.num_vertices) :
    cost_function g (cur.set v (!cur.getD v false)) pen =
      cost_function g cur pen + calculate_delta_cost g cur v pen := by
  unfold cost_function calculate_delta_cost
  have hunc := count_uncovered_flip g hv hnl cur v hlen
  have hsize := count_true_set cur v (by omega)
  rw [hunc, hsize]
  ring

/-- The cost the loop predicts for flipping v. -/
def moveCost (g : Graph) (pen : Int) (st : TabuState) (v : Nat) : Int :=
  st.current_cost + calculate_delta_cost g st.current v pen

/-- A flip of v is admitted when it is not tabu, or when it beats the best
global cost (aspiration). -/
def admissible (g : Graph) (pen it : Int) (st : TabuState) (v : Nat) : Prop :=
  ¬(st.tabu (v, !st.current.getD v false) > it) ∨ moveCost g pen st v < st.best_cost

instance (g : Graph) (pen it : Int) (st : TabuState) (v : Nat) :
    Decidable (admissible g pen it st v) := by
  unfold admissible; infer_instance

/-- Invariant of the neighbourhood fold over the first n candidates. -/
def PickInv (g : Graph) (pen it : Int) (st : TabuState) (n : Nat)
    (acc : Option (Nat × Int)) : Prop :=
  (acc = none ↔ ∀ v, v < n → ¬ admissible g pen it st v) ∧
  (∀ v c, acc = some (v, c) →
    v < n ∧ admissible g pen it st v ∧ c = moveCost g pen st v ∧
    (∀ u, u < n → admissible g pen it st u → c ≤ moveCost g pen st u) ∧
    (∀ u, u < n → admissible g pen it st u → moveCost g pen st u = c → v ≤ u))

lemma pickStep_eq (g : Graph) (pen it : Int) (st : TabuState)
    (acc : Option (Nat × Int)) (v : Nat) :
    pickStep g pen it st acc v =
      if admissible g pen it st v then
        match acc with
        | none => some (v, moveCost g pen st v)
        | some (bm, bc) =>
            if moveCost g pen st v < bc then some (v, moveCost g pen st v)
            else some (bm, bc)
      else acc := rfl

lemma pickInv_step (g : Graph) (pen it : Int) (st : TabuState) (n : Nat)
    (acc : Option (Nat × Int)) (h : PickInv g pen it st n acc) :
    PickInv g pen it st (n + 1) (pickStep g pen it st acc n) := by
  obtain ⟨hnone, hsome⟩ := h
  rw [pickStep_eq]
  by_cases hadm : admissible g pen it st n
  · rw [if_pos hadm]
    rcases hacc : acc with _ | ⟨bm, bc⟩
    · constructor
      · constructor
        · intro hcontra; exact absurd hcontra (by simp)
        · intro hall; exact absurd hadm (hall n (by omega))
      · intro v c hvc
        simp only [Option.some.injEq, Prod.mk.injEq] at hvc
        obtain ⟨rfl, rfl⟩ := hvc
        refine ⟨by omega, hadm, rfl, ?_, ?_⟩
        · intro u hu hadmu
          rcases Nat.lt_or_ge u n with h | h
          · exact absurd hadmu ((hnone.mp hacc) u h)
          · have : u = n := by omega
            subst this
            exact le_refl _
        · intro u hu hadmu _
          rcases Nat.lt_or_ge u n with h | h
          · exact absurd hadmu ((hnone.mp hacc) u h)
          · omega
    · obtain ⟨hbm, hbadm, hbc, hmin, htie⟩ := hsome bm bc hacc
      dsimp only
      by_cases hcmp : moveCost g pen st n < bc
      · rw [if_pos hcmp]
        constructor
        · constructor
          · intro hcontra; exact absurd hcontra (by simp)
          · intro hall; exact absurd hadm (hall n (by omega))
        · intro v c hvc
          simp only [Option.some.injEq, Prod.mk.injEq] at hvc
          obtain ⟨rfl, rfl⟩ := hvc
          refine ⟨by omega, hadm, rfl, ?_, ?_⟩
          · intro u hu hadmu
            rcases Nat.lt_or_ge u n with h | h
            · have := hmin u h hadmu
              omega
            · have : u = n := by omega
              subst this
              exact le_refl _
          · intro u hu hadmu hequ
            rcases Nat.lt_or_ge u n with h | h
            · have := hmin u h hadmu
              omega
            · omega
      · rw [if_neg hcmp]
        constructor
        · constructor
          · intro hcontra; exact absurd hcontra (by simp)
          · intro hall; exact absurd hbadm (hall bm (by omega))
        · intro v c hvc
          simp only [Option.some.injEq, Prod.mk.injEq] at hvc
          obtain ⟨rfl, rfl⟩ := hvc
          refine ⟨by omega, hbadm, hbc, ?_, ?_⟩
          · intro u hu hadmu
            rcases Nat.lt_or_ge u n with h | h
            · exact hmin u h hadmu
            · have : u = n := by omega
              subst this
              omega
          · intro u hu hadmu hequ
            rcases Nat.lt_or_ge u n with h | h
            · exact htie u h hadmu hequ
            · omega
  · rw [if_neg hadm]
    constructor
    · rw [hnone]
      constructor
      · intro hall v hv
        rcases Nat.lt_or_ge v n with h | h
        · exact hall v h
        · have : v = n := by omega
          subst this
          exact hadm
      · intro hall v hv
        exact hall v (by omega)
    · intro v c hvc
      obtain ⟨hvn, hvadm, hvc', hmin, htie⟩ := hsome v c hvc
      refine ⟨by omega, hvadm, hvc', ?_, ?_⟩
      · intro u hu hadmu
        rcases Nat.lt_or_ge u n with h | h
        · exact hmin u h hadmu
        · have : u = n := by omega
          subst this
          exact absurd hadmu hadm
      · intro u hu hadmu hequ
        rcases Nat.lt_or_ge u n with h | h
        · exact htie u h hadmu hequ
        · have : u = n := by omega
          subst this
          exact absurd hadmu hadm

/-- Characterisation of the selected move: the admitted flip of minimal
predicted cost, ties to the smallest vertex index; none exactly when no flip
is admitted. -/
lemma pickMove_spec (g : Graph) (pen it : Int) (st : TabuState) :
    PickInv g pen it st g.num_vertices (pickMove g pen it st) := by
  unfold pickMove
  have haux : ∀ n : Nat, PickInv g pen it st n ((List.range n).foldl (pickStep g pen it st) none) := by
    intro n
    induction n with
    | zero =>
      constructor
      · simp
      · intro v c hvc
        simp at hvc
    | succ n ih =>
      rw [List.range_succ, List.foldl_append, List.foldl_cons, List.foldl_nil]
      exact pickInv_step g pen it st n _ ih
  exact haux g.num_vertices

/-- Bookkeeping invariant of the tabu state on loop-free valid graphs: the
tracked incremental quantities agree with the real ones and the recorded
best is feasible with its recorded cost. -/
def TabuInv (g : Graph) (pen : Int) (st : TabuState) : Prop :=
  st.current.length = g.num_vertices ∧
  st.current_uncovered = (g.count_uncovered_edges st.current : Int) ∧
  st.current_cost = cost_function g st.current pen ∧
  st.best.length = g.num_vertices ∧
  st.best_cost = cost_function g st.best pen ∧
  g.count_uncovered_edges st.best = 0

lemma applyMove_spec (g : Graph) (hv : g.valid) (hnl : g.noSelfLoops)
    (pen tenure it : Int) (st : TabuState) (v : Nat) (c : Int)
    (hInv : TabuInv g pen st) (hvn : v < g.num_vertices)
    (hc : c = moveCost g pen st v) :
    TabuInv g pen (applyMove g tenure it st v c) ∧
      ((applyMove g tenure it st v c).best = st.best ∧
        (applyMove g tenure it st v c).best_cost = st.best_cost ∨
       ((applyMove g tenure it st v c).best_cost < st.best_cost ∧
        g.count_uncovered_edges (applyMove g tenure it st v c).best = 0)) := by
  obtain ⟨hlen, hunc, hcost, hblen, hbcost, hbfeas⟩ := hInv
  have hflip := count_uncovered_flip g hv hnl st.current v hlen
  have hcostflip := cost_flip g hv hnl st.current v pen hlen hvn
  have hlen' : (st.current.set v (!st.current.getD v false)).length = g.num_vertices := by
    simp [hlen]
  have huncovered' : st.current_uncovered + delta_uncovered g st.current v =
      (g.count_uncovered_edges (st.current.set v (!st.current.getD v false)) : Int) := by
    rw [hflip, hunc]
  have hcost' : c = cost_function g (st.current.set v (!st.current.getD v false)) pen := by
    rw [hc, hcostflip]
    unfold moveCost
    rw [hcost]
  unfold applyMove
  by_cases hguard : c < st.best_cost ∧
      st.current_uncovered + delta_uncovered g st.current v = 0
  · rw [if_pos hguard]
    have hfeas : g.count_uncovered_edges (st.current.set v (!st.current.getD v false)) = 0 := by
      have := huncovered'
      omega
    refine ⟨⟨hlen', by simp only; omega, hcost', hlen', hcost', hfeas⟩, Or.inr ⟨hguard.1, hfeas⟩⟩
  · rw [if_neg hguard]
    exact ⟨⟨hlen', by simp only; omega, hcost', hblen, hbcost, hbfeas⟩, Or.inl ⟨rfl, rfl⟩⟩

lemma tabuStep_spec (g : Graph) (hv : g.valid) (hnl : g.noSelfLoops)
    (pen tenure it : Int) (st st1 : TabuState)
    (hInv : TabuInv g pen st)
    (hstep : tabuStep g pen tenure it st = some st1) :
    TabuInv g pen st1 ∧
      (st1.best = st.best ∧ st1.best_cost = st.best_cost ∨
       (st1.best_cost < st.best_cost ∧ g.count_uncovered_edges st1.best = 0)) := by
  unfold tabuStep at hstep
  rcases hpick : pickMove g pen it st with _ | ⟨v, c⟩
  · rw [hpick] at hstep
    exact absurd hstep (by simp)
  · rw [hpick] at hstep
    simp only [Option.some.injEq] at hstep
    obtain ⟨hvn, _, hc, _, _⟩ := (pickMove_spec g pen it st).2 v c hpick
    have := applyMove_spec g hv hnl pen tenure it st v c hInv hvn hc
    rw [hstep] at this
    exact this

lemma tabuLoop_spec (g : Graph) (hv : g.valid) (hnl : g.noSelfLoops)
    (pen tenure : Int) :
    ∀ (r : Nat) (it : Int) (st : TabuState), TabuInv g pen st →
      TabuInv g pen (tabuLoop g pen tenure r it st) ∧
        (tabuLoop g pen tenure r it st).best_cost ≤ st.best_cost := by
  intro r
  induction r with
  | zero => intro it st hInv; exact ⟨hInv, le_refl _⟩
  | succ r ih =>
    intro it st hInv
    rw [tabuLoop]
    rcases hstep : tabuStep g pen tenure it st with _ | st1
    · exact ⟨hInv, le_refl _⟩
    · dsimp only
      obtain ⟨hInv1, hbest1⟩ := tabuStep_spec g hv hnl pen tenure it st st1 hInv hstep
      obtain ⟨hInvF, hle⟩ := ih (it + 1) st1 hInv1
      refine ⟨hInvF, ?_⟩
      rcases hbest1 with ⟨_, heq⟩ | ⟨hlt, _⟩ <;> omega

lemma replicate_true_getD (n x : Nat) (h : x < n) :
    (List.replicate n true).getD x false = true := by
  simp [List.getD, List.getElem?_replicate, h]

lemma count_uncovered_replicate_true (g : Graph) (hv : g.valid) :
    g.count_uncovered_edges (List.replicate g.num_vertices true) = 0 := by
  unfold Graph.count_uncovered_edges
  rw [List.countP_eq_zero]
  intro e he
  have := hv e he
  rw [replicate_true_getD _ _ this.1]
  simp

lemma tabuInit_inv (g : Graph) (hv : g.valid) (pen : Int) (init : List Bool)
    (hlen : init.length = g.num_vertices) :
    TabuInv g pen (tabuInit g pen init) := by
  unfold tabuInit
  have hbest0 : g.count_uncovered_edges (List.replicate g.num_vertices true) = 0 :=
    count_uncovered_replicate_true g hv
  by_cases hguard : (g.count_uncovered_edges init : Int) = 0 ∧
      (g.count_uncovered_edges init : Int) * pen + (init.count true : Int) <
        cost_function g (List.replicate g.num_vertices true) pen
  · rw [if_pos hguard]
    have hfeas : g.count_uncovered_edges init = 0 := by
      have := hguard.1
      omega
    refine ⟨hlen, rfl, rfl, hlen, rfl, hfeas⟩
  · rw [if_neg hguard]
    exact ⟨hlen, rfl, rfl, by simp, rfl, hbest0⟩

lemma getD_eq_false_of_ge {l : List Bool} {x : Nat} (h : l.length ≤ x) :
    l.getD x false = false := by
  simp [List.getD, List.getElem?_eq_none, h]

lemma mem_trueIndices {l : List Bool} {x : Nat} :
    x ∈ trueIndices l ↔ l.getD x false = true := by
  unfold trueIndices
  rw [List.mem_filter, List.mem_range]
  constructor
  · exact fun h => h.2
  · intro h
    refine ⟨?_, h⟩
    by_contra hge
    rw [getD_eq_false_of_ge (by omega)] at h
    exact absurd h (by simp)

/-- The uncovered count measured on the returned index list equals the one
measured on the underlying boolean vector. -/
lemma count_uncovered_list_trueIndices (g : Graph) (l : List Bool) :
    count_uncovered_list g (trueIndices l) = g.count_uncovered_edges l := by
  unfold count_uncovered_list Graph.count_uncovered_edges
  apply List.countP_congr
  intro e _
  have h1 : (trueIndices l).contains e.1 = l.getD e.1 false := by
    rw [show (trueIndices l).contains e.1 = decide (e.1 ∈ trueIndices l) from
      List.elem_eq_mem e.1 (trueIndices l)]
    have hmem := mem_trueIndices (l := l) (x := e.1)
    rcases h : l.getD e.1 false with _ | _ <;> rw [h] at hmem <;> simp [hmem]
  have h2 : (trueIndices l).contains e.2 = l.getD e.2 false := by
    rw [show (trueIndices l).contains e.2 = decide (e.2 ∈ trueIndices l) from
      List.elem_eq_mem e.2 (trueIndices l)]
    have hmem := mem_trueIndices (l := l) (x := e.2)
    rcases h : l.getD e.2 false with _ | _ <;> rw [h] at hmem <;> simp [hmem]
  rw [h1, h2]

/-- The length of the returned index list is the number of included
vertices. -/
lemma length_trueIndices (l : List Bool) :
    (trueIndices l).length = l.count true := by
  induction l using List.reverseRecOn with
  | nil => simp [trueIndices]
  | append_singleton xs x ih =>
    unfold trueIndices at ih ⊢
    rw [List.length_append, List.length_singleton, List.range_succ, List.filter_append]
    have hsame : (List.range xs.length).filter (fun i => (xs ++ [x]).getD i false) =
        (List.range xs.length).filter (fun i => xs.getD i false) := by
      apply List.filter_congr
      intro i hi
      rw [List.mem_range] at hi
      rw [List.getD, List.get?_append hi]
      rfl
    rw [List.length_append, hsame, ih]
    have hlast : (xs ++ [x]).getD xs.length false = x := by
      rw [List.getD, List.get?_append_right (le_refl _)]
      simp
    rcases x with _ | _ <;> simp [List.filter_cons, hlast, List.count_append]

lemma solve_tabu_search_eq (g : Graph) (mi : Nat) (tt : Int) (penArg : Option Int)
    (init : List Bool) :
    solve_tabu_search g mi tt penArg init =
      (trueIndices (tabuLoop g (effectivePenalty g penArg) tt mi 1
          (tabuInit g (effectivePenalty g penArg) init)).best,
       cost_function g (tabuLoop g (effectivePenalty g penArg) tt mi 1
          (tabuInit g (effectivePenalty g penArg) init)).best
         (effectivePenalty g penArg)) := rfl

/-- On loop-free valid graphs the returned cover is always feasible. -/
lemma solve_tabu_search_feasible (g : Graph) (hv : g.valid) (hnl : g.noSelfLoops)
    (mi : Nat) (tt : Int) (penArg : Option Int) (init : List Bool)
    (hlen : init.length = g.num_vertices) :
    count_uncovered_list g (solve_tabu_search g mi tt penArg init).1 = 0 := by
  rw [solve_tabu_search_eq]
  simp only
  rw [count_uncovered_list_trueIndices]
  have hinit := tabuInit_inv g hv (effectivePenalty g penArg) init hlen
  have := tabuLoop_spec g hv hnl (effectivePenalty g penArg) tt mi 1 _ hinit
  exact this.1.2.2.2.2.2

/-- The returned cost is the cost function recomputed on the returned cover
with the internal penalty. -/
lemma solve_tabu_search_cost (g : Graph) (mi : Nat) (tt : Int) (penArg : Option Int)
    (init : List Bool) :
    (solve_tabu_search g mi tt penArg init).2 =
      (count_uncovered_list g (solve_tabu_search g mi tt penArg init).1 : Int) *
        effectivePenalty g penArg +
        ((solve_tabu_search g mi tt penArg init).1.length : Int) := by
  rw [solve_tabu_search_eq]
  simp only
  rw [count_uncovered_list_trueIndices, length_trueIndices]
  rfl

lemma effectivePenalty_gt (g : Graph) (penArg : Option Int) :
    (g.num_vertices : Int) < effectivePenalty g penArg := by
  unfold effectivePenalty
  rcases penArg with _ | p
  · dsimp only
    omega
  · dsimp only
    by_cases h : p ≤ (g.num_vertices : Int) <;> simp [h] <;> omega

/-! ## Graph construction over Python integers (graph.py)

The constructor checks only the upper bound (a >= num_vertices or
b >= num_vertices); a negative endpoint slips through and is then resolved
by Python negative indexing on list_adj, raising IndexError only below -n.
This model keeps the endpoints as Int to capture that behaviour. -/

/-- Python list indexing: wraps negatives, fails outside [-n, n). -/
def pyIndex (n : Nat) (i : Int) : Option Nat :=
  if 0 ≤ i ∧ i < (n : Int) then some i.toNat
  else if -(n : Int) ≤ i ∧ i < 0 then some ((n : Int) + i).toNat
  else none

/-- One edge of the constructor loop of Graph: the range check (upper bound
only), the self-loop skip, and the two adjacency appends. -/
def graphInitStep (n : Nat) (adj : List (List Int)) (e : Int × Int) :
    Option (List (List Int)) :=
  if e.1 ≥ (n : Int) ∨ e.2 ≥ (n : Int) then none
  else if e.1 = e.2 then some adj
  else
    match pyIndex n e.1 with
    | none => none
    | some ia =>
      let adj1 := adj.set ia (adj.getD ia [] ++ [e.2])
      match pyIndex n e.2 with
      | none => none
      | some ib => some (adj1.set ib (adj1.getD ib [] ++ [e.1]))

/-- The list_adj built by the Graph constructor, or none when construction
raises. -/
def Graph.init_list_adj (n : Nat) (edges : List (Int × Int)) :
    Option (List (List Int)) :=
  edges.foldlM (fun adj e => graphInitStep n adj e) (List.replicate n ([] : List Int))

/-! ## Behaviour of tabu search on graphs without edges (claim C7) -/

lemma count_uncovered_empty (g : Graph) (hE : g.edges = []) (cov : List Bool) :
    g.count_uncovered_edges cov = 0 := by
  unfold Graph.count_uncovered_edges
  rw [hE]
  rfl

lemma delta_uncovered_empty (g : Graph) (hE : g.edges = []) (cur : List Bool) (v : Nat) :
    delta_uncovered g cur v = 0 := by
  unfold delta_uncovered listAdj
  rw [hE]
  simp only [List.foldl_nil]
  rcases Nat.lt_or_ge v g.num_vertices with h | h
  · simp [List.getD, List.getElem?_replicate, h]
  · simp [List.getD, List.getElem?_eq_none, h]

lemma cost_function_empty (g : Graph) (hE : g.edges = []) (cov : List Bool) (pen : Int) :
    cost_function g cov pen = (cov.count true : Int) := by
  unfold cost_function
  rw [count_uncovered_empty g hE]
  simp

lemma moveCost_empty (g : Graph) (hE : g.edges = []) (pen : Int) (st : TabuState) (v : Nat) :
    moveCost g pen st v =
      st.current_cost + (if st.current.getD v false then -1 else 1) := by
  unfold moveCost calculate_delta_cost
  rw [delta_uncovered_empty g hE]
  ring_nf

lemma exists_true_index {l : List Bool} (h : 0 < l.count true) :
    ∃ u, u < l.length ∧ l.getD u false = true := by
  induction l with
  | nil => simp at h
  | cons x xs ih =>
    rcases x with _ | _
    · rw [List.count_cons] at h
      have h0 : (if (false == true) = true then 1 else 0) = 0 := rfl
      rw [h0] at h
      obtain ⟨u, hu, hget⟩ := ih (by omega)
      exact ⟨u + 1, by simp [hu], by simpa using hget⟩
    · exact ⟨0, by simp, by simp⟩

/-- Phase two: once the recorded best cost is at most zero, the best pair is
frozen for the rest of the run (costs of cover vectors never go negative on
an edgeless graph). -/
lemma tabu_empty_phase2 (g : Graph) (hE : g.edges = []) (pen tenure : Int) :
    ∀ (r : Nat) (it : Int) (st : TabuState),
      st.current_cost = (st.current.count true : Int) →
      st.current.length = g.num_vertices →
      st.best_cost ≤ 0 →
      (tabuLoop g pen tenure r it st).best = st.best ∧
        (tabuLoop g pen tenure r it st).best_cost = st.best_cost := by
  intro r
  induction r with
  | zero => intro it st _ _ _; exact ⟨rfl, rfl⟩
  | succ r ih =>
    intro it st hcost hlen hbest
    rw [tabuLoop]
    rcases hstep : tabuStep g pen tenure it st with _ | st1
    · exact ⟨rfl, rfl⟩
    dsimp only
    unfold tabuStep at hstep
    rcases hpick : pickMove g pen it st with _ | ⟨v, c⟩ <;> rw [hpick] at hstep
    · exact absurd hstep (by simp)
    simp only [Option.some.injEq] at hstep
    obtain ⟨hvn, _, hc, _, _⟩ := (pickMove_spec g pen it st).2 v c hpick
    have hcount' : c = ((st.current.set v (!st.current.getD v false)).count true : Int) := by
      rw [hc, moveCost_empty g hE, hcost, count_true_set st.current v (by omega)]
    have hguardfail : ¬(c < st.best_cost ∧
        st.current_uncovered + delta_uncovered g st.current v = 0) := by
      intro hcontra
      obtain ⟨hlt, _⟩ := hcontra
      have h1 : (0 : Int) ≤ c := by
        rw [hcount']
        positivity
      omega
    have happ : st1 = ⟨st.current.set v (!st.current.getD v false), c,
        st.current_uncovered + delta_uncovered g st.current v,
        st.best, st.best_cost,
        fun k => if k = (v, st.current.getD v false) then it + tenure else st.tabu k⟩ := by
      rw [← hstep]
      unfold applyMove
      rw [if_neg hguardfail]
    have := ih (it + 1) st1 (by rw [happ]; exact hcount') (by rw [happ]; simp [hlen])
      (by rw [happ]; exact hbest)
    rw [happ] at this ⊢
    exact this

/-- Invariant during the stripping phase on an edgeless graph. -/
def Phase1Inv (g : Graph) (st : TabuState) : Prop :=
  st.current.length = g.num_vertices ∧
  st.current_cost = (st.current.count true : Int) ∧
  st.best_cost = st.current_cost ∧
  st.best_cost = (st.best.count true : Int) ∧
  st.current_uncovered = 0 ∧
  (∀ v : Nat, st.tabu (v, false) = 0)

/-- Phase one: with enough iterations left, the loop strips every included
vertex and ends with an empty recorded best. -/
lemma tabu_empty_phase1 (g : Graph) (hE : g.edges = []) (pen tenure : Int) :
    ∀ (r : Nat) (it : Int) (st : TabuState), 1 ≤ it →
      Phase1Inv g st → st.current.count true ≤ r →
      (tabuLoop g pen tenure r it st).best.count true = 0 := by
  intro r
  induction r with
  | zero =>
    intro it st _ hInv hcnt
    obtain ⟨_, hcost, hbeq, hbcnt, _, _⟩ := hInv
    rw [tabuLoop]
    have hz : st.current.count true = 0 := by omega
    rw [hz] at hcost
    omega
  | succ r ih =>
    intro it st hit hInv hcnt
    obtain ⟨hlen, hcost, hbeq, hbcnt, hunc, htabu⟩ := hInv
    by_cases hzero : st.current.count true = 0
    · have hb0 : st.best_cost ≤ 0 := by
        rw [hbeq, hcost, hzero]
        simp
      have hph2 := tabu_empty_phase2 g hE pen tenure (r + 1) it st hcost hlen hb0
      rw [hph2.1]
      omega
    · have hpos : 0 < st.current.count true := by omega
      obtain ⟨u, hu, hgu⟩ := exists_true_index hpos
      have hun : u < g.num_vertices := by omega
      have hadm_u : admissible g pen it st u := by
        unfold admissible
        left
        rw [hgu]
        simp only [Bool.not_true]
        rw [htabu u]
        omega
      rcases hpick : pickMove g pen it st with _ | ⟨v, c⟩
      · exact absurd hadm_u (((pickMove_spec g pen it st).1.mp hpick) u hun)
      obtain ⟨hvn, hvadm, hc, hmin, _⟩ := (pickMove_spec g pen it st).2 v c hpick
      have hcu : moveCost g pen st u = st.current_cost - 1 := by
        rw [moveCost_empty g hE, hgu]
        simp <;> omega
      have hcle : c ≤ st.current_cost - 1 := by
        have := hmin u hun hadm_u
        omega
      have hgv : st.current.getD v false = true := by
        by_contra hfalse
        have hgvf : st.current.getD v false = false := by
          revert hfalse; cases st.current.getD v false <;> simp
        rw [hc, moveCost_empty g hE, hgvf] at hcle
        simp at hcle <;> omega
      have hcval : c = st.current_cost - 1 := by
        rw [hc, moveCost_empty g hE, hgv]
        simp <;> omega
      rw [tabuLoop]
      have hstep : tabuStep g pen tenure it st =
          some (applyMove g tenure it st v c) := by
        unfold tabuStep
        rw [hpick]
      rw [hstep]
      dsimp only
      have hguard : c < st.best_cost ∧
          st.current_uncovered + delta_uncovered g st.current v = 0 := by
        constructor
        · rw [hbeq]; omega
        · rw [delta_uncovered_empty g hE, hunc]
          omega
      have happ : applyMove g tenure it st v c =
          ⟨st.current.set v (!st.current.getD v false), c,
           st.current_uncovered + delta_uncovered g st.current v,
           st.current.set v (!st.current.getD v false), c,
           fun k => if k = (v, st.current.getD v false) then it + tenure else st.tabu k⟩ := by
        unfold applyMove
        rw [if_pos hguard]
      rw [happ]
      have hcount' : ((st.current.set v (!st.current.getD v false)).count true : Int) =
          (st.current.count true : Int) - 1 := by
        rw [count_true_set st.current v (by omega), hgv]
        simp <;> omega
      apply ih (it + 1) _ (by omega)
      · refine ⟨by simp [hlen], ?_, rfl, ?_, ?_, ?_⟩
        · dsimp only
          rw [hcount', hcval, hcost]
        · dsimp only
          rw [hcount', hcval, hcost]
        · dsimp only
          rw [delta_uncovered_empty g hE, hunc]
          omega
        · intro w
          dsimp only
          rw [hgv]
          have hne : ((w, false) : Nat × Bool) ≠ (v, true) := by simp
          rw [if_neg hne]
          exact htabu w
      · dsimp only
        omega

lemma getD_true_mem {l : List Bool} {i : Nat} (h : l.getD i false = true) : true ∈ l := by
  rcases Nat.lt_or_ge i l.length with hlt | hge
  · rw [List.getD, List.get?_eq_get hlt] at h
    simp at h
    rw [← h]
    exact List.getElem_mem hlt
  · rw [getD_eq_false_of_ge hge] at h
    exact absurd h (by simp)

lemma trueIndices_eq_nil {l : List Bool} (h : l.count true = 0) : trueIndices l = [] := by
  unfold trueIndices
  rw [List.filter_eq_nil]
  intro i _
  intro hcontra
  have := getD_true_mem hcontra
  rw [List.count_eq_zero] at h
  exact h this

/-- On a graph without edges, enough iterations strip the cover down to the
empty set with final cost zero. -/
lemma solve_tabu_search_empty (g : Graph) (hE : g.edges = []) (mi : Nat) (tt : Int)
    (penArg : Option Int) (init : List Bool) (hlen : init.length = g.num_vertices)
    (hiters : init.count true ≤ mi) :
    solve_tabu_search g mi tt penArg init = ([], 0) := by
  set pen := effectivePenalty g penArg with hpen
  have hinv : Phase1Inv g (tabuInit g pen init) := by
    unfold tabuInit
    have hc0 : g.count_uncovered_edges init = 0 := count_uncovered_empty g hE init
    have hcostr : cost_function g (List.replicate g.num_vertices true) pen =
        (g.num_vertices : Int) := by
      rw [cost_function_empty g hE]
      simp
    by_cases hguard : (g.count_uncovered_edges init : Int) = 0 ∧
        (g.count_uncovered_edges init : Int) * pen + (init.count true : Int) <
          cost_function g (List.replicate g.num_vertices true) pen
    · rw [if_pos hguard]
      refine ⟨hlen, ?_, rfl, ?_, ?_, fun v => rfl⟩
      · dsimp only
        rw [hc0]
        simp
      · dsimp only
        rw [hc0]
        simp
      · dsimp only
        rw [hc0]
        simp
    · rw [if_neg hguard]
      have hle : (init.count true : Int) ≤ (g.num_vertices : Int) := by
        have := List.count_le_length true init
        omega
      have heq : (init.count true : Int) = (g.num_vertices : Int) := by
        rcases not_and_or.mp hguard with hcase | hcase
        · exact absurd (by rw [hc0]; simp) hcase
        · rw [hcostr, hc0] at hcase
          simp at hcase
          omega
      refine ⟨hlen, ?_, ?_, ?_, ?_, fun v => rfl⟩
      · dsimp only
        rw [hc0]
        simp
      · dsimp only
        rw [hcostr, hc0]
        simp
        omega
      · dsimp only
        rw [hcostr]
        simp
      · dsimp only
        rw [hc0]
        simp
  have hfinal := tabu_empty_phase1 g hE pen tt mi 1
    (tabuInit g pen init) (by omega) hinv (by
      have : (tabuInit g pen init).current = init := by
        unfold tabuInit
        by_cases hguard : (g.count_uncovered_edges init : Int) = 0 ∧
            (g.count_uncovered_edges init : Int) * pen + (init.count true : Int) <
              cost_function g (List.replicate g.num_vertices true) pen
        · rw [if_pos hguard]
        · rw [if_neg hguard]
      rw [this]
      exact hiters)
  rw [solve_tabu_search_eq, ← hpen]
  have hnil := trueIndices_eq_nil hfinal
  rw [hnil]
  have hcost0 : cost_function g
      (tabuLoop g pen tt mi 1 (tabuInit g pen init)).best pen = 0 := by
    rw [cost_function_empty g hE, hfinal]
    rfl
  rw [hcost0]

lemma solve_approximation_empty (g : Graph) (hE : g.edges = []) :
    solve_approximation g = ∅ := by
  unfold solve_approximation
  rw [hE]
  rfl

lemma ExactSolver.exact_solve_empty (g : Graph) (hE : g.edges = []) :
    ExactSolver.solve g = some ∅ := by
  unfold ExactSolver.solve
  rw [canonicalEdges_nil_iff.mpr hE]
  rw [ExactSolver.find_cover]

lemma BacktrackingSolver.bt_solve_empty (g : Graph) (hE : g.edges = []) :
    BacktrackingSolver.solve g = ∅ := by
  unfold BacktrackingSolver.solve
  rw [canonicalEdges_nil_iff.mpr hE]
  rw [BacktrackingSolver.find_cover.eq_def]
  rcases Nat.eq_zero_or_pos g.num_vertices with h | h
  · rw [if_pos (by simp [h])]
    simp [h]
  · rw [if_neg (by simp; omega)]

lemma IDDFSSolver.iddfs_solve_empty (g : Graph) (hE : g.edges = []) :
    IDDFSSolver.solve g = ∅ := by
  unfold IDDFSSolver.solve
  rw [canonicalEdges_nil_iff.mpr hE]
  simp [canonicalEdges_nil_iff.mpr hE]

/-! ## Branch and bound (solvers/branch_and_bound.py)

The matrix capacity[i][j] becomes a function Nat -> Nat -> Int updated
pointwise.  The two unbounded while loops (max-flow augmentation and the BFS
queue) get fuel parameters; the fuel chosen at the call sites (N + 1 for
both) covers every actual run, since each augmentation consumes a unit of
source capacity and each BFS round either pops a queued vertex or stops, with
at most N vertices ever enqueued.  All theorems below are fuel-robust: they
hold for every fuel value. -/

/-- Pointwise matrix update. -/
def upd2 (f : Nat → Nat → Int) (i j : Nat) (x : Int) : Nat → Nat → Int :=
  fun a b => if a = i ∧ b = j then x else f a b

/-- Path reconstruction of _edmonds_karp_bfs: follows the parent pointers
from curr back to the source, building the reversed path. -/
def buildPathRev (parent : Nat → Option Nat) (source : Nat) :
    Nat → Nat → List Nat
  | 0, curr => [curr]
  | fuel + 1, curr =>
    if curr = source then [curr]
    else curr :: buildPathRev parent source fuel ((parent curr).getD 0)

/-- The inner for-loop of _edmonds_karp_bfs over candidate vertices v, with
the early return on reaching the sink. -/
def bfsScan (r : Nat → Nat → Int) (N source sink u : Nat) :
    List Nat → (Nat → Option Nat) → List Nat →
      ((Nat → Option Nat) × List Nat) ⊕ List Nat
  | [], parent, queue => Sum.inl (parent, queue)
  | v :: vs, parent, queue =>
    if (parent v).isNone ∧ 0 < r u v then
      let parent1 := fun x => if x = v then some u else parent x
      if v = sink then Sum.inr ((buildPathRev parent1 source (N + 1) sink).reverse)
      else bfsScan r N source sink u vs parent1 (queue ++ [v])
    else bfsScan r N source sink u vs parent queue

/-- The while-queue loop of _edmonds_karp_bfs. -/
def bfsLoop (r : Nat → Nat → Int) (N source sink : Nat) :
    Nat → (Nat → Option Nat) → List Nat → Option (List Nat)
  | 0, _, _ => none
  | fuel + 1, parent, queue =>
    match queue with
    | [] => none
    | u :: qrest =>
      match bfsScan r N source sink u (List.range N) parent qrest with
      | Sum.inr path => some path
      | Sum.inl (parent1, queue1) => bfsLoop r N source sink fuel parent1 queue1

/-- Embeds _edmonds_karp_bfs. -/
def edmonds_karp_bfs (r : Nat → Nat → Int) (N source sink : Nat) :
    Option (List Nat) :=
  bfsLoop r N source sink (N + 1)
    (fun x => if x = source then some source else none) [source]

/-- Embeds the path-flow computation: the minimum residual capacity along
the path (min over at least one edge, so the float inf start never
survives). -/
def path_flow (r : Nat → Nat → Int) (path : List Nat) : Int :=
  match (path.zip path.tail).map (fun q => r q.1 q.2) with
  | [] => 0
  | c :: cs => cs.foldl min c

/-- Embeds the residual update along the augmenting path. -/
def augmentPath (r : Nat → Nat → Int) (path : List Nat) (pf : Int) :
    Nat → Nat → Int :=
  (path.zip path.tail).foldl
    (fun r' q =>
      let r1 := upd2 r' q.1 q.2 (r' q.1 q.2 - pf)
      upd2 r1 q.2 q.1 (r1 q.2 q.1 + pf))
    r

/-- The while-True loop of _max_flow. -/
def maxFlowLoop (N source sink : Nat) :
    Nat → (Nat → Nat → Int) → Int → Int
  | 0, _, acc => acc
  | fuel + 1, r, acc =>
    match edmonds_karp_bfs r N source sink with
    | none => acc
    | some path =>
      let pf := path_flow r path
      maxFlowLoop N source sink fuel (augmentPath r path pf) (acc + pf)

/-- Embeds _max_flow. -/
def max_flow (capacity : Nat → Nat → Int) (N source sink : Nat) : Int :=
  maxFlowLoop N source sink (N + 1) capacity 0

/-- The residual vertex set V_prime (iteration order of the Python set is
arbitrary; this enumeration is one refinement). -/
def residVerts (residual : List (Nat × Nat)) : List Nat :=
  (residual.foldl (fun acc e => e.1 :: e.2 :: acc) []).dedup

/-- u_map: position inside U, shifted past the source node 0. -/
def umap (U : List Nat) (x : Nat) : Nat := U.indexOf x + 1

/-- w_map: position inside W, shifted past source and U. -/
def wmap (U W : List Nat) (x : Nat) : Nat := W.indexOf x + U.length + 1

/-- The capacity network of _maximum_matching_lower_bound: source to U,
W to sink, and the parity-guarded U-to-W edges (under the guard the
u_val/v_val shuffle of the source is the identity). -/
def buildCapacity (residual : List (Nat × Nat)) (U W : List Nat)
    (source sink : Nat) : Nat → Nat → Int :=
  let c0 : Nat → Nat → Int := fun _ _ => 0
  let c1 := U.foldl (fun c u => upd2 c source (umap U u) 1) c0
  let c2 := W.foldl (fun c w => upd2 c (wmap U W w) sink 1) c1
  residual.foldl
    (fun c e =>
      if e.1 ∈ U ∧ e.2 ∈ W then upd2 c (umap U e.1) (wmap U W e.2) 1 else c)
    c2

/-- Embeds _maximum_matching_lower_bound. -/
def maximum_matching_lower_bound (residual : List (Nat × Nat)) : Int :=
  if residual = [] then 0
  else
    let verts := residVerts residual
    let U := verts.filter (fun v => v % 2 = 0)
    let W := verts.filter (fun v => ¬(v % 2 = 0))
    let source := 0
    let sink := verts.length + 1
    max_flow (buildCapacity residual U W source sink) (verts.length + 2) source sink

/-- Embeds BranchAndBoundSolver._find_cover_recursive: completion check
first, then the matching-based prune, then the two branches. -/
def BranchAndBoundSolver.find_cover
    (uncovered : List (Nat × Nat)) (current : Finset Nat) (s : BTState) : BTState :=
  match uncovered with
  | [] => if current.card < s.upper_bound then ⟨current.card, current⟩ else s
  | e :: rest =>
    let lower_bound : Int :=
      (current.card : Int) + maximum_matching_lower_bound (e :: rest)
    if (s.upper_bound : Int) ≤ lower_bound then s
    else
      let s1 := BranchAndBoundSolver.find_cover
        (removeIncident e.1 (e :: rest)) (insert e.1 current) s
      BranchAndBoundSolver.find_cover
        (removeIncident e.2 (e :: rest)) (insert e.2 current) s1
  termination_by uncovered.length
  decreasing_by
  · exact removeIncident_length_lt (by simp [edgeHas])
  · exact removeIncident_length_lt (by simp [edgeHas])

/-- Embeds BranchAndBoundSolver.solve. -/
def BranchAndBoundSolver.solve (g : Graph) : Finset Nat :=
  (BranchAndBoundSolver.find_cover (canonicalEdges g) ∅
    ⟨g.num_vertices, Finset.range g.num_vertices⟩).best_cover

lemma BranchAndBoundSolver.bnb_ub_mono (n : Nat) :
    ∀ (l : List (Nat × Nat)) (current : Finset Nat) (s : BTState), l.length ≤ n →
      (BranchAndBoundSolver.find_cover l current s).upper_bound ≤ s.upper_bound := by
  induction n with
  | zero =>
    intro l current s hl
    have hnil : l = [] := List.length_eq_zero.mp (Nat.le_zero.mp hl)
    subst hnil
    rw [BranchAndBoundSolver.find_cover]
    by_cases hp : current.card < s.upper_bound
    · rw [if_pos hp]; simp only; omega
    · rw [if_neg hp]
  | succ n ih =>
    intro l current s hl
    rw [BranchAndBoundSolver.find_cover.eq_def]
    rcases l with _ | ⟨e, rest⟩
    · by_cases hp : current.card < s.upper_bound
      · rw [if_pos hp]; simp only; omega
      · rw [if_neg hp]
    simp only
    by_cases hp : (s.upper_bound : Int) ≤
        (current.card : Int) + maximum_matching_lower_bound (e :: rest)
    · rw [if_pos hp]
    rw [if_neg hp]
    have hlen1 : (removeIncident e.1 (e :: rest)).length ≤ n := by
      have := removeIncident_length_lt (l := rest) (x := e.1) (e := e) (by simp [edgeHas])
      simp only [List.length_cons] at this hl
      omega
    have hlen2 : (removeIncident e.2 (e :: rest)).length ≤ n := by
      have := removeIncident_length_lt (l := rest) (x := e.2) (e := e) (by simp [edgeHas])
      simp only [List.length_cons] at this hl
      omega
    have h1 := ih (removeIncident e.1 (e :: rest)) (insert e.1 current) s hlen1
    have h2 := ih (removeIncident e.2 (e :: rest)) (insert e.2 current)
      (BranchAndBoundSolver.find_cover (removeIncident e.1 (e :: rest))
        (insert e.1 current) s) hlen2
    omega

lemma BranchAndBoundSolver.bnb_find_cover_sound (E : List (Nat × Nat)) (V : Finset Nat) (n : Nat) :
    ∀ (l : List (Nat × Nat)) (current : Finset Nat) (s : BTState), l.length ≤ n →
      BTInv E V s →
      (∀ e ∈ E, (e.1 ∈ current ∨ e.2 ∈ current) ∨ e ∈ l) →
      current ⊆ V →
      (∀ e ∈ l, e.1 ∈ V ∧ e.2 ∈ V) →
      BTInv E V (BranchAndBoundSolver.find_cover l current s) := by
  induction n with
  | zero =>
    intro l current s hl hs hP hcur hlV
    have hnil : l = [] := List.length_eq_zero.mp (Nat.le_zero.mp hl)
    subst hnil
    rw [BranchAndBoundSolver.find_cover]
    by_cases hp : current.card < s.upper_bound
    · rw [if_pos hp]
      refine ⟨fun e he => ?_, hcur, rfl⟩
      rcases hP e he with h | h
      · exact h
      · simp at h
    · rw [if_neg hp]; exact hs
  | succ n ih =>
    intro l current s hl hs hP hcur hlV
    rw [BranchAndBoundSolver.find_cover.eq_def]
    rcases l with _ | ⟨e, rest⟩
    · by_cases hp : current.card < s.upper_bound
      · rw [if_pos hp]
        refine ⟨fun f hf => ?_, hcur, rfl⟩
        rcases hP f hf with h | h
        · exact h
        · simp at h
      · rw [if_neg hp]; exact hs
    simp only
    by_cases hp : (s.upper_bound : Int) ≤
        (current.card : Int) + maximum_matching_lower_bound (e :: rest)
    · rw [if_pos hp]; exact hs
    rw [if_neg hp]
    have heV := hlV e (by simp)
    have hlen1 : (removeIncident e.1 (e :: rest)).length ≤ n := by
      have := removeIncident_length_lt (l := rest) (x := e.1) (e := e) (by simp [edgeHas])
      simp only [List.length_cons] at this hl
      omega
    have hlen2 : (removeIncident e.2 (e :: rest)).length ≤ n := by
      have := removeIncident_length_lt (l := rest) (x := e.2) (e := e) (by simp [edgeHas])
      simp only [List.length_cons] at this hl
      omega
    have hP1 : ∀ f ∈ E, (f.1 ∈ insert e.1 current ∨ f.2 ∈ insert e.1 current) ∨
        f ∈ removeIncident e.1 (e :: rest) := by
      intro f hf
      rcases hP f hf with h | h
      · rcases h with h | h
        · exact Or.inl (Or.inl (Finset.mem_insert_of_mem h))
        · exact Or.inl (Or.inr (Finset.mem_insert_of_mem h))
      · by_cases hx : edgeHas e.1 f = true
        · rcases edgeHas_iff.mp hx with h1 | h1
          · exact Or.inl (Or.inl (h1 ▸ Finset.mem_insert_self _ _))
          · exact Or.inl (Or.inr (h1 ▸ Finset.mem_insert_self _ _))
        · have hne : e.1 ≠ f.1 ∧ e.1 ≠ f.2 := by
            constructor <;> intro hc <;> exact hx (edgeHas_iff.mpr (by tauto))
          exact Or.inr (mem_removeIncident.mpr ⟨h, hne.1, hne.2⟩)
    have hP2 : ∀ f ∈ E, (f.1 ∈ insert e.2 current ∨ f.2 ∈ insert e.2 current) ∨
        f ∈ removeIncident e.2 (e :: rest) := by
      intro f hf
      rcases hP f hf with h | h
      · rcases h with h | h
        · exact Or.inl (Or.inl (Finset.mem_insert_of_mem h))
        · exact Or.inl (Or.inr (Finset.mem_insert_of_mem h))
      · by_cases hx : edgeHas e.2 f = true
        · rcases edgeHas_iff.mp hx with h1 | h1
          · exact Or.inl (Or.inl (h1 ▸ Finset.mem_insert_self _ _))
          · exact Or.inl (Or.inr (h1 ▸ Finset.mem_insert_self _ _))
        · have hne : e.2 ≠ f.1 ∧ e.2 ≠ f.2 := by
            constructor <;> intro hc <;> exact hx (edgeHas_iff.mpr (by tauto))
          exact Or.inr (mem_removeIncident.mpr ⟨h, hne.1, hne.2⟩)
    have hs1 := ih (removeIncident e.1 (e :: rest)) (insert e.1 current) s hlen1 hs hP1
      (Finset.insert_subset heV.1 hcur) (fun f hf => hlV f (mem_removeIncident.mp hf).1)
    exact ih (removeIncident e.2 (e :: rest)) (insert e.2 current) _ hlen2 hs1 hP2
      (Finset.insert_subset heV.2 hcur) (fun f hf => hlV f (mem_removeIncident.mp hf).1)

lemma BranchAndBoundSolver.bnb_solve_empty (g : Graph) (hE : g.edges = []) :
    BranchAndBoundSolver.solve g = ∅ := by
  unfold BranchAndBoundSolver.solve
  rw [canonicalEdges_nil_iff.mpr hE]
  rw [BranchAndBoundSolver.find_cover]
  rcases Nat.eq_zero_or_pos g.num_vertices with h | h
  · rw [if_neg (by simp [h])]
    simp [h]
  · rw [if_pos (by simp; omega)]

/-- Soundness of the returned cover, independent of the bound values. -/
lemma BranchAndBoundSolver.solve_sound {g : Graph} (hv : g.valid) :
    isCover g.edges (BranchAndBoundSolver.solve g) ∧
      BranchAndBoundSolver.solve g ∈ coverFinsets g.num_vertices g.edges := by
  set V := Finset.range g.num_vertices with hV
  set E := canonicalEdges g with hE
  have hs0 : BTInv E V ⟨g.num_vertices, V⟩ := by
    refine ⟨?_, le_refl _, by simp [hV]⟩
    intro e he
    have := canonicalEdges_valid hv e he
    exact Or.inl (by rw [hV]; exact Finset.mem_range.mpr this.1)
  have hsound := BranchAndBoundSolver.bnb_find_cover_sound E V E.length E ∅
    ⟨g.num_vertices, V⟩ (le_refl _) hs0 (fun e he => Or.inr he) (by simp)
    (fun e he => by
      have := canonicalEdges_valid hv e he
      exact ⟨Finset.mem_range.mpr this.1, Finset.mem_range.mpr this.2⟩)
  obtain ⟨hcov, hsub, _⟩ := hsound
  have hcov' : isCover g.edges (BranchAndBoundSolver.solve g) := by
    rw [BranchAndBoundSolver.solve]
    exact isCover_canonical_iff.mp hcov
  exact ⟨hcov', mem_coverFinsets.mpr ⟨hsub, hcov'⟩⟩

/-! ### Consecutive-pair combinatorics of simple paths -/

lemma mem_pairs_left {α : Type} {p : List α} {q : α × α}
    (h : q ∈ p.zip p.tail) : q.1 ∈ p :=
  (List.of_mem_zip h).1

lemma mem_pairs_right_tail {α : Type} {p : List α} {q : α × α}
    (h : q ∈ p.zip p.tail) : q.2 ∈ p.tail :=
  (List.of_mem_zip h).2

lemma mem_pairs_right {α : Type} {p : List α} {q : α × α}
    (h : q ∈ p.zip p.tail) : q.2 ∈ p :=
  List.mem_of_mem_tail (mem_pairs_right_tail h)

lemma pairs_cons_cons {α : Type} (a b : α) (rest : List α) :
    (a :: b :: rest).zip (a :: b :: rest).tail =
      (a, b) :: ((b :: rest).zip (b :: rest).tail) := rfl

lemma exists_next {p : List Nat} {x : Nat} (hx : x ∈ p)
    (hlast : p.getLast? ≠ some x) : ∃ y, (x, y) ∈ p.zip p.tail := by
  induction p with
  | nil => simp at hx
  | cons a t ih =>
    rcases t with _ | ⟨b, rest⟩
    · simp at hx
      subst hx
      simp at hlast
    · rcases List.mem_cons.mp hx with rfl | hx'
      · exact ⟨b, by rw [pairs_cons_cons]; simp⟩
      · have hlast' : (b :: rest).getLast? ≠ some x := by
          rwa [List.getLast?_cons_cons] at hlast
        obtain ⟨y, hy⟩ := ih hx' hlast'
        exact ⟨y, by rw [pairs_cons_cons]; exact List.mem_cons_of_mem _ hy⟩

lemma exists_prev {p : List Nat} {x : Nat} (hx : x ∈ p)
    (hhead : p.head? ≠ some x) : ∃ y, (y, x) ∈ p.zip p.tail := by
  induction p with
  | nil => simp at hx
  | cons a t ih =>
    rcases List.mem_cons.mp hx with rfl | hx'
    · simp at hhead
    · rcases t with _ | ⟨b, rest⟩
      · simp at hx'
      · rcases List.mem_cons.mp hx' with rfl | hx''
        · exact ⟨a, by rw [pairs_cons_cons]; simp⟩
        · by_cases hxb : x = b
          · subst hxb
            exact ⟨a, by rw [pairs_cons_cons]; simp⟩
          · have hhead' : (b :: rest).head? ≠ some x := by
              simp
              exact fun hc => hxb hc.symm
            obtain ⟨y, hy⟩ := ih (by simp [hx'']) hhead'
            exact ⟨y, by rw [pairs_cons_cons]; exact List.mem_cons_of_mem _ hy⟩

lemma next_unique {p : List Nat} (hnd : p.Nodup) {x y y' : Nat}
    (h1 : (x, y) ∈ p.zip p.tail) (h2 : (x, y') ∈ p.zip p.tail) : y = y' := by
  induction p with
  | nil => simp at h1
  | cons a t ih =>
    rcases t with _ | ⟨b, rest⟩
    · simp at h1
    · rw [pairs_cons_cons] at h1 h2
      have hand : a ∉ b :: rest := (List.nodup_cons.mp hnd).1
      rcases List.mem_cons.mp h1 with he1 | ht1 <;>
        rcases List.mem_cons.mp h2 with he2 | ht2
      · rw [Prod.mk.injEq] at he1 he2
        omega
      · rw [Prod.mk.injEq] at he1
        exact absurd (he1.1 ▸ mem_pairs_left ht2) hand
      · rw [Prod.mk.injEq] at he2
        exact absurd (he2.1 ▸ mem_pairs_left ht1) hand
      · exact ih (List.nodup_cons.mp hnd).2 ht1 ht2

lemma prev_unique {p : List Nat} (hnd : p.Nodup) {x y y' : Nat}
    (h1 : (y, x) ∈ p.zip p.tail) (h2 : (y', x) ∈ p.zip p.tail) : y = y' := by
  induction p with
  | nil => simp at h1
  | cons a t ih =>
    rcases t with _ | ⟨b, rest⟩
    · simp at h1
    · rw [pairs_cons_cons] at h1 h2
      have hndt : (b :: rest).Nodup := (List.nodup_cons.mp hnd).2
      have hbnr : b ∉ rest := (List.nodup_cons.mp hndt).1
      rcases List.mem_cons.mp h1 with he1 | ht1 <;>
        rcases List.mem_cons.mp h2 with he2 | ht2
      · rw [Prod.mk.injEq] at he1 he2
        omega
      · rw [Prod.mk.injEq] at he1
        have hmem := mem_pairs_right_tail ht2
        rw [he1.2] at hmem
        exact absurd (by simpa using hmem : b ∈ rest) hbnr
      · rw [Prod.mk.injEq] at he2
        have hmem := mem_pairs_right_tail ht1
        rw [he2.2] at hmem
        exact absurd (by simpa using hmem : b ∈ rest) hbnr
      · exact ih hndt ht1 ht2

lemma no_next_of_last {p : List Nat} (hnd : p.Nodup) {x y : Nat}
    (hlast : p.getLast? = some x) (h : (x, y) ∈ p.zip p.tail) : False := by
  induction p with
  | nil => simp at h
  | cons a t ih =>
    rcases t with _ | ⟨b, rest⟩
    · simp at h
    · rw [pairs_cons_cons] at h
      rw [List.getLast?_cons_cons] at hlast
      have hand : a ∉ b :: rest := (List.nodup_cons.mp hnd).1
      rcases List.mem_cons.mp h with he | ht
      · rw [Prod.mk.injEq] at he
        have hxm : x ∈ b :: rest := List.mem_of_mem_getLast? hlast
        exact hand (he.1 ▸ hxm)
      · exact ih (List.nodup_cons.mp hnd).2 hlast ht

lemma no_prev_of_head {p : List Nat} (hnd : p.Nodup) {x y : Nat}
    (hhead : p.head? = some x) (h : (y, x) ∈ p.zip p.tail) : False := by
  rcases p with _ | ⟨a, t⟩
  · simp at h
  · simp at hhead
    subst hhead
    have := mem_pairs_right_tail h
    simp at this
    exact (List.nodup_cons.mp hnd).1 this

/-! ### Path flow and augmentation -/

lemma foldl_min_le :
    ∀ (cs : List Int) (c : Int), cs.foldl min c ≤ c ∧ ∀ x ∈ cs, cs.foldl min c ≤ x := by
  intro cs
  induction cs with
  | nil => intro c; exact ⟨le_refl _, by simp⟩
  | cons d ds ih =>
    intro c
    rw [List.foldl_cons]
    obtain ⟨h1, h2⟩ := ih (min c d)
    refine ⟨h1.trans (min_le_left _ _), ?_⟩
    intro x hx
    rcases List.mem_cons.mp hx with rfl | hx'
    · exact h1.trans (min_le_right _ _)
    · exact h2 x hx'

lemma foldl_min_pos {c : Int} {cs : List Int}
    (h : ∀ x ∈ c :: cs, 0 < x) : 0 < cs.foldl min c := by
  induction cs generalizing c with
  | nil => exact h c (by simp)
  | cons d ds ih =>
    rw [List.foldl_cons]
    apply ih
    intro x hx
    rcases List.mem_cons.mp hx with rfl | hx'
    · have h1 := h c (by simp)
      have h2 := h d (by simp)
      simp only [lt_min_iff]
      omega
    · exact h x (by simp [hx'])

/-- Goodness of a BFS path: starts at the source, ends at the sink, simple,
inside the node range, and positive residual capacity on every hop. -/
def GoodPath (r : Nat → Nat → Int) (N source sink : Nat) (p : List Nat) : Prop :=
  p.head? = some source ∧ p.getLast? = some sink ∧ p.Nodup ∧
  (∀ x ∈ p, x < N) ∧ (∀ q ∈ p.zip p.tail, 0 < r q.1 q.2)

lemma goodPath_pairs_ne_nil {r : Nat → Nat → Int} {N source sink : Nat}
    {p : List Nat} (h : GoodPath r N source sink p) (hss : source ≠ sink) :
    p.zip p.tail ≠ [] := by
  obtain ⟨hhead, hlast, _, _, _⟩ := h
  rcases p with _ | ⟨a, t⟩
  · simp at hhead
  rcases t with _ | ⟨b, rest⟩
  · simp at hhead hlast
    omega
  · rw [pairs_cons_cons]
    simp

lemma path_flow_spec {r : Nat → Nat → Int} {N source sink : Nat} {p : List Nat}
    (h : GoodPath r N source sink p) (hss : source ≠ sink) :
    0 < path_flow r p ∧ ∀ q ∈ p.zip p.tail, path_flow r p ≤ r q.1 q.2 := by
  have hpos := h.2.2.2.2
  have hne := goodPath_pairs_ne_nil h hss
  unfold path_flow
  rcases hcs : (p.zip p.tail).map (fun q => r q.1 q.2) with _ | ⟨c, cs⟩
  · exact absurd (List.map_eq_nil.mp hcs) hne
  rw [hcs]
  dsimp only
  constructor
  · apply foldl_min_pos
    intro x hx
    rw [← hcs] at hx
    obtain ⟨q, hq, rfl⟩ := List.mem_map.mp hx
    exact hpos q hq
  · intro q hq
    have hmem : r q.1 q.2 ∈ c :: cs := by
      rw [← hcs]
      exact List.mem_map.mpr ⟨q, hq, rfl⟩
    rcases List.mem_cons.mp hmem with heq | hmem'
    · rw [heq]
      exact (foldl_min_le cs c).1
    · exact (foldl_min_le cs c).2 _ hmem'

/-- Closed form of the residual update along a simple path: subtract the flow
on forward path pairs, add it on reversed ones. -/
lemma augmentPath_closed (pf : Int) :
    ∀ (p : List Nat), p.Nodup → ∀ (r : Nat → Nat → Int),
      augmentPath r p pf = fun a b =>
        r a b - (if (a, b) ∈ p.zip p.tail then pf else 0) +
          (if (b, a) ∈ p.zip p.tail then pf else 0) := by
  intro p
  induction p with
  | nil =>
    intro _ r
    funext a b
    simp [augmentPath]
  | cons a t ih =>
    intro hnd r
    rcases t with _ | ⟨b, rest⟩
    · funext x y
      simp [augmentPath]
    · have hanotin : a ∉ b :: rest := (List.nodup_cons.mp hnd).1
      have hab : a ≠ b := fun hc => hanotin (hc ▸ List.mem_cons_self _ _)
      set tp := (b :: rest).zip (b :: rest).tail with htp
      have hhead_notin : ((a, b) : Nat × Nat) ∉ tp := fun hc =>
        hanotin (mem_pairs_left hc)
      have hswap_notin : ((b, a) : Nat × Nat) ∉ tp := fun hc => by
        have hmem := mem_pairs_right_tail hc
        simp at hmem
        exact hanotin (List.mem_cons_of_mem _ hmem)
      have hstep : augmentPath r (a :: b :: rest) pf =
          augmentPath (upd2 (upd2 r a b (r a b - pf)) b a
            ((upd2 r a b (r a b - pf)) b a + pf)) (b :: rest) pf := by
        unfold augmentPath
        rw [pairs_cons_cons, List.foldl_cons]
      rw [hstep, ih (List.nodup_cons.mp hnd).2]
      funext x y
      rw [pairs_cons_cons, ← htp]
      by_cases hxy : (x, y) = (a, b)
      · rw [Prod.mk.injEq] at hxy
        obtain ⟨rfl, rfl⟩ := hxy
        have hv : upd2 (upd2 r x y (r x y - pf)) y x
            ((upd2 r x y (r x y - pf)) y x + pf) x y = r x y - pf := by
          unfold upd2
          rw [if_neg (fun hc => hab hc.1)]
          rw [if_pos ⟨rfl, rfl⟩]
        rw [hv]
        rw [if_neg hhead_notin, if_neg hswap_notin]
        rw [if_pos (List.mem_cons_self _ _)]
        rw [if_neg (by
          intro hc
          rcases List.mem_cons.mp hc with he | ht
          · rw [Prod.mk.injEq] at he
            exact hab he.2
          · exact hswap_notin ht)]
        ring
      · by_cases hyx : (x, y) = (b, a)
        · rw [Prod.mk.injEq] at hyx
          obtain ⟨rfl, rfl⟩ := hyx
          have hv : upd2 (upd2 r y x (r y x - pf)) x y
              ((upd2 r y x (r y x - pf)) x y + pf) x y = r x y + pf := by
            unfold upd2
            rw [if_pos ⟨rfl, rfl⟩]
            rw [if_neg (fun hc => hab hc.1.symm)]
          rw [hv]
          rw [if_neg hswap_notin, if_neg hhead_notin]
          rw [if_neg (by
            intro hc
            rcases List.mem_cons.mp hc with he | ht
            · rw [Prod.mk.injEq] at he
              exact hab he.1.symm
            · exact hswap_notin ht)]
          rw [if_pos (List.mem_cons_self _ _)]
          ring
        · have hv : upd2 (upd2 r a b (r a b - pf)) b a
              ((upd2 r a b (r a b - pf)) b a + pf) x y = r x y := by
            unfold upd2
            rw [if_neg (by
              intro hc
              apply hyx
              rw [Prod.mk.injEq]
              exact ⟨hc.1, hc.2⟩)]
            rw [if_neg (by
              intro hc
              apply hxy
              rw [Prod.mk.injEq]
              exact ⟨hc.1, hc.2⟩)]
          have hc1 : ((x, y) ∈ (a, b) :: tp) ↔ ((x, y) ∈ tp) := by
            rw [List.mem_cons]
            exact ⟨fun h => h.resolve_left hxy, Or.inr⟩
          have hc2 : ((y, x) ∈ (a, b) :: tp) ↔ ((y, x) ∈ tp) := by
            rw [List.mem_cons]
            refine ⟨fun h => h.resolve_left (fun hc => ?_), Or.inr⟩
            rw [Prod.mk.injEq] at hc
            exact hyx (by rw [Prod.mk.injEq]; tauto)
          rw [hv, if_congr hc1 rfl rfl, if_congr hc2 rfl rfl]

/-! ### The flow invariant and the cut bound -/

/-- Net outflow of a node in the flow f = c - r. -/
def netOut (N : Nat) (c r : Nat → Nat → Int) (x : Nat) : Int :=
  ∑ y ∈ Finset.range N, (c x y - r x y)

/-- Standard invariant of the augmentation loop. -/
def FlowInv (N source sink : Nat) (c r : Nat → Nat → Int) (v : Int) : Prop :=
  (∀ i j, 0 ≤ r i j) ∧
  (∀ i j, r i j + r j i = c i j + c j i) ∧
  (∀ x, x < N → x ≠ source → x ≠ sink → netOut N c r x = 0) ∧
  v = netOut N c r source

lemma sum_indicator_eq_zero {N : Nat} {pf : Int} {P : Nat → Prop}
    [DecidablePred P] (h : ∀ y, ¬ P y) :
    (∑ y ∈ Finset.range N, (if P y then pf else 0)) = 0 := by
  apply Finset.sum_eq_zero
  intro y _
  rw [if_neg (h y)]

lemma sum_indicator_eq_single {N : Nat} {pf : Int} {P : Nat → Prop}
    [DecidablePred P] {y0 : Nat} (hy0 : P y0) (hy0N : y0 < N)
    (huniq : ∀ y, P y → y = y0) :
    (∑ y ∈ Finset.range N, (if P y then pf else 0)) = pf := by
  have hcong : ∀ y ∈ Finset.range N,
      (if P y then pf else 0) = (if y = y0 then pf else 0) := by
    intro y _
    by_cases hy : P y
    · rw [if_pos hy, if_pos (huniq y hy)]
    · rw [if_neg hy]
      by_cases he : y = y0
      · exact absurd (he ▸ hy0) hy
      · rw [if_neg he]
  rw [Finset.sum_congr rfl hcong]
  rw [Finset.sum_ite_eq' (Finset.range N) y0 (fun _ => pf)]
  rw [if_pos (Finset.mem_range.mpr hy0N)]

/-- One augmentation step preserves the flow invariant and adds the path
flow to the value. -/
lemma augment_preserves {N source sink : Nat} {c r : Nat → Nat → Int} {v : Int}
    {p : List Nat} (hInv : FlowInv N source sink c r v)
    (hGood : GoodPath r N source sink p) (hss : source ≠ sink) :
    FlowInv N source sink c (augmentPath r p (path_flow r p)) (v + path_flow r p) := by
  obtain ⟨hr0, hsym, hcons, hval⟩ := hInv
  obtain ⟨hhead, hlast, hnd, hmemN, hpos⟩ := hGood
  obtain ⟨hpf_pos, hpf_le⟩ := path_flow_spec ⟨hhead, hlast, hnd, hmemN, hpos⟩ hss
  set pf := path_flow r p with hpf
  set tp := p.zip p.tail with htp
  have hr' : ∀ a b, augmentPath r p pf a b =
      r a b - (if (a, b) ∈ tp then pf else 0) + (if (b, a) ∈ tp then pf else 0) := by
    intro a b
    rw [augmentPath_closed pf p hnd r]
  refine ⟨?_, ?_, ?_, ?_⟩
  · intro i j
    rw [hr' i j]
    by_cases h1 : (i, j) ∈ tp
    · have hle := hpf_le (i, j) h1
      by_cases h2 : (j, i) ∈ tp
      · rw [if_pos h1, if_pos h2]
        simp only at hle ⊢
        omega
      · rw [if_pos h1, if_neg h2]
        simp only at hle ⊢
        omega
    · by_cases h2 : (j, i) ∈ tp
      · rw [if_pos h2, if_neg h1]
        have := hr0 i j
        omega
      · rw [if_neg h1, if_neg h2]
        have := hr0 i j
        omega
  · intro i j
    rw [hr' i j, hr' j i]
    have := hsym i j
    by_cases h1 : (i, j) ∈ tp <;> by_cases h2 : (j, i) ∈ tp <;>
      [rw [if_pos h1, if_pos h2]; rw [if_pos h1, if_neg h2];
       rw [if_neg h1, if_pos h2]; rw [if_neg h1, if_neg h2]] <;> omega
  · intro x hxN hxs hxt
    have hbase := hcons x hxN hxs hxt
    unfold netOut at hbase ⊢
    have hsplit : ∀ y,
        (c x y - augmentPath r p pf x y) =
        (c x y - r x y) + ((if (x, y) ∈ tp then pf else 0) -
          (if (y, x) ∈ tp then pf else 0)) := by
      intro y
      rw [hr' x y]
      ring
    rw [Finset.sum_congr rfl (fun y _ => hsplit y)]
    rw [Finset.sum_add_distrib, hbase, Finset.sum_sub_distrib]
    by_cases hxp : x ∈ p
    · have hxhead : p.head? ≠ some x := by
        rw [hhead]
        intro hc
        exact hxs (Option.some.inj hc).symm
      have hxlast : p.getLast? ≠ some x := by
        rw [hlast]
        intro hc
        exact hxt (Option.some.inj hc).symm
      obtain ⟨ynext, hynext⟩ := exists_next hxp hxlast
      obtain ⟨yprev, hyprev⟩ := exists_prev hxp hxhead
      have hs1 : (∑ y ∈ Finset.range N, (if (x, y) ∈ tp then pf else 0)) = pf := by
        apply sum_indicator_eq_single hynext
        · exact hmemN ynext (mem_pairs_right hynext)
        · intro y hy
          exact next_unique hnd hy hynext
      have hs2 : (∑ y ∈ Finset.range N, (if (y, x) ∈ tp then pf else 0)) = pf := by
        apply sum_indicator_eq_single hyprev
        · exact hmemN yprev (mem_pairs_left hyprev)
        · intro y hy
          exact prev_unique hnd hy hyprev
      rw [hs1, hs2]
      ring
    · have hs1 : (∑ y ∈ Finset.range N, (if (x, y) ∈ tp then pf else 0)) = 0 := by
        apply sum_indicator_eq_zero
        intro y hy
        exact hxp (mem_pairs_left hy)
      have hs2 : (∑ y ∈ Finset.range N, (if (y, x) ∈ tp then pf else 0)) = 0 := by
        apply sum_indicator_eq_zero
        intro y hy
        exact hxp (mem_pairs_right hy)
      rw [hs1, hs2]
      ring
  · unfold netOut at hval ⊢
    have hsplit : ∀ y,
        (c source y - augmentPath r p pf source y) =
        (c source y - r source y) + ((if (source, y) ∈ tp then pf else 0) -
          (if (y, source) ∈ tp then pf else 0)) := by
      intro y
      rw [hr' source y]
      ring
    rw [Finset.sum_congr rfl (fun y _ => hsplit y)]
    rw [Finset.sum_add_distrib, ← hval, Finset.sum_sub_distrib]
    have hsrcp : source ∈ p := by
      rcases p with _ | ⟨a, t⟩
      · simp at hhead
      · simp at hhead
        rw [hhead]
        simp
    have hsrclast : p.getLast? ≠ some source := by
      rw [hlast]
      intro hc
      exact hss (Option.some.inj hc).symm
    obtain ⟨ynext, hynext⟩ := exists_next hsrcp hsrclast
    have hs1 : (∑ y ∈ Finset.range N, (if (source, y) ∈ tp then pf else 0)) = pf := by
      apply sum_indicator_eq_single hynext
      · exact hmemN ynext (mem_pairs_right hynext)
      · intro y hy
        exact next_unique hnd hy hynext
    have hs2 : (∑ y ∈ Finset.range N, (if (y, source) ∈ tp then pf else 0)) = 0 := by
      apply sum_indicator_eq_zero
      intro y hy
      exact no_prev_of_head hnd hhead hy
    rw [hs1, hs2]
    ring

/-- The value of any flow satisfying the invariant is bounded by the
capacity crossing any source-sink separating node set. -/
lemma flowInv_le_cut {N source sink : Nat} {c r : Nat → Nat → Int} {v : Int}
    (hInv : FlowInv N source sink c r v) (S : Finset Nat)
    (hS : S ⊆ Finset.range N) (hsrc : source ∈ S) (hsink : sink ∉ S) :
    v ≤ ∑ i ∈ S, ∑ j ∈ Finset.range N \ S, c i j := by
  obtain ⟨hr0, hsym, hcons, hval⟩ := hInv
  have hsum_single : (∑ i ∈ S, netOut N c r i) = netOut N c r source := by
    apply Finset.sum_eq_single_of_mem source hsrc
    intro b hb hbne
    exact hcons b (Finset.mem_range.mp (hS hb)) hbne (fun hc => hsink (hc ▸ hb))
  have hsplit : ∀ i, netOut N c r i =
      (∑ j ∈ S, (c i j - r i j)) + (∑ j ∈ Finset.range N \ S, (c i j - r i j)) := by
    intro i
    unfold netOut
    conv_lhs => rw [← Finset.union_sdiff_of_subset hS]
    rw [Finset.sum_union Finset.disjoint_sdiff]
  have hzero : (∑ i ∈ S, ∑ j ∈ S, (c i j - r i j)) = 0 := by
    have h1 : (∑ i ∈ S, ∑ j ∈ S, (c i j - r i j)) =
        ∑ i ∈ S, ∑ j ∈ S, (c j i - r j i) := Finset.sum_comm
    have h2 : (∑ i ∈ S, ∑ j ∈ S, (c j i - r j i)) =
        ∑ i ∈ S, ∑ j ∈ S, -(c i j - r i j) := by
      apply Finset.sum_congr rfl
      intro i _
      apply Finset.sum_congr rfl
      intro j _
      have := hsym i j
      omega
    have h3 : (∑ i ∈ S, ∑ j ∈ S, -(c i j - r i j)) =
        -(∑ i ∈ S, ∑ j ∈ S, (c i j - r i j)) := by
      simp
    omega
  calc v = ∑ i ∈ S, netOut N c r i := by rw [hval, hsum_single]
  _ = ∑ i ∈ S, ((∑ j ∈ S, (c i j - r i j)) +
        (∑ j ∈ Finset.range N \ S, (c i j - r i j))) :=
      Finset.sum_congr rfl (fun i _ => hsplit i)
  _ = (∑ i ∈ S, ∑ j ∈ S, (c i j - r i j)) +
        (∑ i ∈ S, ∑ j ∈ Finset.range N \ S, (c i j - r i j)) :=
      Finset.sum_add_distrib
  _ = ∑ i ∈ S, ∑ j ∈ Finset.range N \ S, (c i j - r i j) := by
      rw [hzero]
      ring
  _ ≤ ∑ i ∈ S, ∑ j ∈ Finset.range N \ S, c i j := by
      apply Finset.sum_le_sum
      intro i _
      apply Finset.sum_le_sum
      intro j _
      have := hr0 i j
      omega

/-! ### Soundness of the BFS parent structure -/

/-- The parent array encodes a forest rooted at the source: every assigned
vertex points to an earlier-assigned one across a positive residual edge.
The ghost list order records assignment order. -/
def ParentChain (r : Nat → Nat → Int) (N source : Nat)
    (parent : Nat → Option Nat) (order : List Nat) : Prop :=
  order.Nodup ∧ (∀ x ∈ order, x < N) ∧
  (∀ x, (parent x).isSome ↔ x ∈ order) ∧
  parent source = some source ∧
  (∀ v q, parent v = some q → v ≠ source →
    0 < r q v ∧ q ∈ order ∧ order.indexOf q < order.indexOf v)

lemma parentChain_order_le {r : Nat → Nat → Int} {N source : Nat}
    {parent : Nat → Option Nat} {order : List Nat}
    (h : ParentChain r N source parent order) : order.length ≤ N := by
  obtain ⟨hnd, hmem, _, _, _⟩ := h
  have h1 : order.length = order.toFinset.card := (List.toFinset_card_of_nodup hnd).symm
  have h2 : order.toFinset ⊆ Finset.range N := by
    intro x hx
    exact Finset.mem_range.mpr (hmem x (List.mem_toFinset.mp hx))
  have := Finset.card_le_card h2
  simp at this
  omega

/-- Following the parent pointers from any assigned vertex yields a simple
positive chain back to the source. -/
lemma buildPathRev_spec {r : Nat → Nat → Int} {N source : Nat}
    {parent : Nat → Option Nat} {order : List Nat}
    (hpc : ParentChain r N source parent order) :
    ∀ (k : Nat) (v : Nat), (parent v).isSome → order.indexOf v ≤ k →
      ∀ fuel : Nat, (v = source ∨ order.indexOf v < fuel) →
      ∃ l : List Nat, buildPathRev parent source fuel v = l ∧
        l.head? = some v ∧ l.getLast? = some source ∧ l.Nodup ∧
        (∀ x ∈ l, x ∈ order) ∧
        (∀ x ∈ l, order.indexOf x ≤ order.indexOf v) ∧
        (∀ x ∈ l.tail, order.indexOf x < order.indexOf v) ∧
        (∀ q ∈ l.zip l.tail, 0 < r q.2 q.1) := by
  obtain ⟨hnd, hmemN, hiff, hsrc, hstep⟩ := hpc
  intro k
  induction k with
  | zero =>
    intro v hv hvk fuel hfuel
    have hvsrc : v = source := by
      by_contra hne
      obtain ⟨q, hq⟩ := Option.isSome_iff_exists.mp hv
      have := (hstep v q hq hne).2.2
      omega
    have hl : buildPathRev parent source fuel v = [v] := by
      rcases fuel with _ | f
      · rfl
      · rw [buildPathRev, if_pos hvsrc]
    refine ⟨[v], hl, rfl, by simp [hvsrc], by simp, ?_, by simp, by simp, by simp⟩
    intro x hx
    simp at hx
    subst hx
    exact (hiff x).mp hv
  | succ k ih =>
    intro v hv hvk fuel hfuel
    by_cases hvsrc : v = source
    · have hl : buildPathRev parent source fuel v = [v] := by
        rcases fuel with _ | f
        · rfl
        · rw [buildPathRev, if_pos hvsrc]
      refine ⟨[v], hl, rfl, by simp [hvsrc], by simp, ?_, by simp, by simp, by simp⟩
      intro x hx
      simp at hx
      subst hx
      exact (hiff x).mp hv
    · obtain ⟨q, hq⟩ := Option.isSome_iff_exists.mp hv
      obtain ⟨hrpos, hqorder, hqlt⟩ := hstep v q hq hvsrc
      have hfuel' : order.indexOf v < fuel := hfuel.resolve_left hvsrc
      rcases fuel with _ | f
      · omega
      have hqsome : (parent q).isSome := (hiff q).mpr hqorder
      have hqk : order.indexOf q ≤ k := by omega
      have hqfuel : q = source ∨ order.indexOf q < f := by
        by_cases hqs : q = source
        · exact Or.inl hqs
        · right
          omega
      obtain ⟨l', hl', hhead', hlast', hnd', hord', hle', hlt', hpos'⟩ :=
        ih q hqsome hqk f hqfuel
      have hl : buildPathRev parent source (f + 1) v = v :: l' := by
        rw [buildPathRev]
        rw [if_neg hvsrc, hq]
        simp only [Option.getD_some]
        rw [hl']
      have hl'ne : l' ≠ [] := by
        intro hc
        rw [hc] at hhead'
        simp at hhead'
      refine ⟨v :: l', hl, rfl, ?_, ?_, ?_, ?_, ?_, ?_⟩
      · rcases l' with _ | ⟨b, rest⟩
        · exact absurd rfl hl'ne
        · exact hlast'
      · rw [List.nodup_cons]
        refine ⟨?_, hnd'⟩
        intro hc
        have := hle' v hc
        omega
      · intro x hx
        rcases List.mem_cons.mp hx with rfl | hx'
        · exact (hiff x).mp hv
        · exact hord' x hx'
      · intro x hx
        rcases List.mem_cons.mp hx with rfl | hx'
        · exact le_refl _
        · have := hle' x hx'
          omega
      · intro x hx
        simp only [List.tail_cons] at hx
        have := hle' x hx
        omega
      · intro p hp
        rcases l' with _ | ⟨b, rest⟩
        · exact absurd rfl hl'ne
        rw [pairs_cons_cons] at hp
        rcases List.mem_cons.mp hp with he | ht
        · have hb : b = q := by
            have := hhead'
            simp at this
            exact this
          rw [he]
          simp only
          rw [hb]
          exact hrpos
        · exact hpos' p ht

lemma pairs_snoc {α : Type} :
    ∀ (m : List α) (b a : α), m.getLast? = some b →
    (m ++ [a]).zip ((m ++ [a]).tail) = m.zip m.tail ++ [(b, a)] := by
  intro m
  induction m with
  | nil =>
    intro b a hb
    simp at hb
  | cons c ms ih =>
    intro b a hb
    rcases ms with _ | ⟨d, ms'⟩
    · simp at hb
      subst hb
      rfl
    · have hl : ((c :: d :: ms') ++ [a]) = c :: d :: (ms' ++ [a]) := rfl
      rw [hl, pairs_cons_cons]
      have hb' : (d :: ms').getLast? = some b := hb
      rw [pairs_cons_cons]
      rw [List.cons_append]
      congr 1
      exact ih b a hb'

lemma pairs_reverse {α : Type} (l : List α) :
    l.reverse.zip l.reverse.tail =
      ((l.zip l.tail).map (fun q => (q.2, q.1))).reverse := by
  induction l with
  | nil => rfl
  | cons a t ih =>
    rcases t with _ | ⟨b, rest⟩
    · rfl
    · have hrev : (a :: b :: rest).reverse = (b :: rest).reverse ++ [a] := by
        simp
      have hlast : (b :: rest).reverse.getLast? = some b := by
        rw [List.getLast?_reverse]
        rfl
      rw [hrev, pairs_snoc _ b a hlast, ih, pairs_cons_cons]
      simp

/-- A reversed parent chain from the sink is a good augmenting path. -/
lemma goodPath_of_revchain {r : Nat → Nat → Int} {N source sink : Nat}
    {l : List Nat} (hhead : l.head? = some sink) (hlast : l.getLast? = some source)
    (hnd : l.Nodup) (hmem : ∀ x ∈ l, x < N)
    (hpos : ∀ q ∈ l.zip l.tail, 0 < r q.2 q.1) :
    GoodPath r N source sink l.reverse := by
  refine ⟨?_, ?_, ?_, ?_, ?_⟩
  · rw [List.head?_reverse]
    exact hlast
  · rw [List.getLast?_reverse]
    exact hhead
  · exact List.nodup_reverse.mpr hnd
  · intro x hx
    exact hmem x (List.mem_reverse.mp hx)
  · intro q hq
    rw [pairs_reverse] at hq
    rw [List.mem_reverse] at hq
    obtain ⟨q', hq', hswap⟩ := List.mem_map.mp hq
    have h1 : q.1 = q'.2 := by rw [← hswap]
    have h2 : q.2 = q'.1 := by rw [← hswap]
    rw [h1, h2]
    exact hpos q' hq'

/-- Extending the parent array with an unvisited vertex v pointing to a
visited u across a positive residual edge preserves the chain invariant,
with v appended to the assignment order. -/
lemma parentChain_extend {r : Nat → Nat → Int} {N source : Nat}
    {parent : Nat → Option Nat} {order : List Nat} {u v : Nat}
    (hpc : ParentChain r N source parent order) (hu : u ∈ order)
    (hvnone : (parent v).isNone) (hrv : 0 < r u v) (hvN : v < N) :
    ParentChain r N source (fun x => if x = v then some u else parent x)
      (order ++ [v]) := by
  obtain ⟨hnd, hmemN, hiff, hsrc, hstep⟩ := hpc
  have hvnotin : v ∉ order := by
    intro hc
    have := (hiff v).mpr hc
    rw [Option.isNone_iff_eq_none.mp hvnone] at this
    simp at this
  have hsrcmem : source ∈ order := (hiff source).mp (by rw [hsrc]; rfl)
  have hvne_src : v ≠ source := fun hc => hvnotin (hc ▸ hsrcmem)
  refine ⟨?_, ?_, ?_, ?_, ?_⟩
  · rw [List.nodup_append]
    refine ⟨hnd, by simp, ?_⟩
    intro x hx hx'
    simp at hx'
    subst hx'
    exact hvnotin hx
  · intro x hx
    rcases List.mem_append.mp hx with h | h
    · exact hmemN x h
    · simp at h
      subst h
      exact hvN
  · intro x
    by_cases hxv : x = v
    · subst hxv
      simp
    · simp only [if_neg hxv]
      rw [hiff x]
      constructor
      · intro h
        exact List.mem_append.mpr (Or.inl h)
      · intro h
        rcases List.mem_append.mp h with h | h
        · exact h
        · simp at h
          exact absurd h hxv
  · show (if source = v then some u else parent source) = some source
    rw [if_neg (fun hc => hvne_src hc.symm)]
    exact hsrc
  · intro w q hw hwne
    have hw' : (if w = v then some u else parent w) = some q := hw
    by_cases hwv : w = v
    · rw [if_pos hwv] at hw'
      have hq : u = q := by
        injection hw'
      rw [← hq, hwv]
      refine ⟨hrv, List.mem_append.mpr (Or.inl hu), ?_⟩
      rw [List.indexOf_append_of_mem hu, List.indexOf_append_of_not_mem hvnotin]
      have h1 : order.indexOf u < order.length := List.indexOf_lt_length.mpr hu
      have h2 : List.indexOf v [v] = 0 := by simp
      omega
    · rw [if_neg hwv] at hw'
      obtain ⟨h1, h2, h3⟩ := hstep w q hw' hwne
      have hwmem : w ∈ order := (hiff w).mp (by rw [hw']; rfl)
      refine ⟨h1, List.mem_append.mpr (Or.inl h2), ?_⟩
      rw [List.indexOf_append_of_mem h2, List.indexOf_append_of_mem hwmem]
      exact h3

/-- Once the sink is assigned a parent, reconstructing the path with fuel
N+1 and reversing yields a good augmenting path. -/
lemma chain_goodPath {r : Nat → Nat → Int} {N source sink : Nat}
    {parent : Nat → Option Nat} {order : List Nat}
    (hpc : ParentChain r N source parent order)
    (hsink : (parent sink).isSome) :
    GoodPath r N source sink ((buildPathRev parent source (N + 1) sink).reverse) := by
  have hfuel : sink = source ∨ order.indexOf sink < N + 1 := by
    right
    have h1 : order.indexOf sink ≤ order.length := List.indexOf_le_length
    have h2 : order.length ≤ N := parentChain_order_le hpc
    omega
  obtain ⟨l, hl, hhead, hlast, hnd, hord, _, _, hpos⟩ :=
    buildPathRev_spec hpc (order.indexOf sink) sink hsink le_rfl (N + 1) hfuel
  rw [hl]
  exact goodPath_of_revchain hhead hlast hnd
    (fun x hx => hpc.2.1 x (hord x hx)) hpos

/-- Soundness of the inner BFS scan: on normal exit the chain invariant is
preserved for some extended order, and on early return the produced path is
a good augmenting path. -/
lemma bfsScan_spec {r : Nat → Nat → Int} {N source sink u : Nat} :
    ∀ (vs : List Nat) (parent : Nat → Option Nat) (queue order : List Nat),
    ParentChain r N source parent order → u ∈ order →
    (∀ x ∈ vs, x < N) → (∀ x ∈ queue, x ∈ order) →
    ((∀ parent1 queue1,
        bfsScan r N source sink u vs parent queue = Sum.inl (parent1, queue1) →
        ∃ order1, ParentChain r N source parent1 order1 ∧
          ∀ x ∈ queue1, x ∈ order1) ∧
     (∀ path, bfsScan r N source sink u vs parent queue = Sum.inr path →
        GoodPath r N source sink path)) := by
  intro vs
  induction vs with
  | nil =>
    intro parent queue order hpc hu _ hq
    constructor
    · intro parent1 queue1 h
      rw [bfsScan] at h
      injection h with h
      injection h with h1 h2
      subst h1
      subst h2
      exact ⟨order, hpc, hq⟩
    · intro path h
      rw [bfsScan] at h
      exact absurd h (by simp)
  | cons v vs ih =>
    intro parent queue order hpc hu hvs hq
    have hvN : v < N := hvs v (List.mem_cons_self v vs)
    have hvs' : ∀ x ∈ vs, x < N := fun x hx => hvs x (List.mem_cons_of_mem v hx)
    by_cases hcond : (parent v).isNone = true ∧ 0 < r u v
    · have hpc1 : ParentChain r N source
          (fun x => if x = v then some u else parent x) (order ++ [v]) :=
        parentChain_extend hpc hu hcond.1 hcond.2 hvN
      by_cases hvsink : v = sink
      · constructor
        · intro parent1 queue1 h
          rw [bfsScan, if_pos hcond, if_pos hvsink] at h
          exact absurd h (by simp)
        · intro path h
          rw [bfsScan, if_pos hcond, if_pos hvsink] at h
          injection h with h
          subst h
          have hsink : ((fun x => if x = v then some u else parent x) sink).isSome := by
            show (if sink = v then some u else parent sink).isSome
            rw [if_pos hvsink.symm]
            rfl
          exact chain_goodPath hpc1 hsink
      · have heq : bfsScan r N source sink u (v :: vs) parent queue =
            bfsScan r N source sink u vs
              (fun x => if x = v then some u else parent x) (queue ++ [v]) := by
          rw [bfsScan, if_pos hcond, if_neg hvsink]
        rw [heq]
        have hq1 : ∀ x ∈ queue ++ [v], x ∈ order ++ [v] := by
          intro x hx
          rcases List.mem_append.mp hx with h | h
          · exact List.mem_append.mpr (Or.inl (hq x h))
          · exact List.mem_append.mpr (Or.inr h)
        exact ih _ _ _ hpc1 (List.mem_append.mpr (Or.inl hu)) hvs' hq1
    · have heq : bfsScan r N source sink u (v :: vs) parent queue =
          bfsScan r N source sink u vs parent queue := by
        rw [bfsScan, if_neg hcond]
      rw [heq]
      exact ih _ _ _ hpc hu hvs' hq

/-- Soundness of the BFS queue loop: any returned path is a good augmenting
path, for any fuel. -/
lemma bfsLoop_spec {r : Nat → Nat → Int} {N source sink : Nat} :
    ∀ (fuel : Nat) (parent : Nat → Option Nat) (queue order : List Nat),
    ParentChain r N source parent order → (∀ x ∈ queue, x ∈ order) →
    ∀ path, bfsLoop r N source sink fuel parent queue = some path →
      GoodPath r N source sink path := by
  intro fuel
  induction fuel with
  | zero =>
    intro parent queue order _ _ path h
    exact absurd h (by rw [bfsLoop.eq_def]; simp)
  | succ f ih =>
    intro parent queue order hpc hq path h
    rw [bfsLoop.eq_def] at h
    dsimp only at h
    rcases queue with _ | ⟨u, qrest⟩
    · exact absurd h (by simp)
    · dsimp only at h
      have hu : u ∈ order := hq u (List.mem_cons_self u qrest)
      have hqrest : ∀ x ∈ qrest, x ∈ order :=
        fun x hx => hq x (List.mem_cons_of_mem u hx)
      have hvsN : ∀ x ∈ List.range N, x < N := fun x hx => List.mem_range.mp hx
      obtain ⟨hinl, hinr⟩ :=
        bfsScan_spec (List.range N) parent qrest order hpc hu hvsN hqrest
      rcases hscan : bfsScan r N source sink u (List.range N) parent qrest with
          ⟨parent1, queue1⟩ | path'
      · rw [hscan] at h
        dsimp only at h
        obtain ⟨order1, hpc1, hq1⟩ := hinl parent1 queue1 hscan
        exact ih parent1 queue1 order1 hpc1 hq1 path h
      · rw [hscan] at h
        dsimp only at h
        injection h with h
        subst h
        exact hinr path' hscan

/-- Soundness of the embedded BFS: any path it returns is a good augmenting
path from source to sink. -/
lemma edmonds_karp_bfs_sound {r : Nat → Nat → Int} {N source sink : Nat}
    (hsrcN : source < N) :
    ∀ path, edmonds_karp_bfs r N source sink = some path →
      GoodPath r N source sink path := by
  intro path h
  have hpc : ParentChain r N source
      (fun x => if x = source then some source else none) [source] := by
    refine ⟨by simp, ?_, ?_, ?_, ?_⟩
    · intro x hx
      simp at hx
      subst hx
      exact hsrcN
    · intro x
      by_cases hx : x = source
      · subst hx
        simp
      · simp [hx]
    · show (if source = source then some source else none) = some source
      rw [if_pos rfl]
    · intro v q hv hvne
      have hv' : (if v = source then some source else none) = some q := hv
      rw [if_neg hvne] at hv'
      exact absurd hv' (by simp)
  exact bfsLoop_spec (N + 1)
    (fun x => if x = source then some source else none) [source] [source]
    hpc (fun x hx => hx) path h

/-- The augmentation loop never pushes the flow value past the capacity of
any source-sink cut, for any fuel. -/
lemma maxFlowLoop_le_cut {N source sink : Nat} {c : Nat → Nat → Int}
    (S : Finset Nat) (hS : S ⊆ Finset.range N) (hsrcS : source ∈ S)
    (hsinkS : sink ∉ S) (hsrcN : source < N) (hss : source ≠ sink) :
    ∀ (fuel : Nat) (r : Nat → Nat → Int) (acc : Int),
    FlowInv N source sink c r acc →
    maxFlowLoop N source sink fuel r acc ≤
      ∑ i ∈ S, ∑ j ∈ Finset.range N \ S, c i j := by
  intro fuel
  induction fuel with
  | zero =>
    intro r acc hInv
    exact flowInv_le_cut hInv S hS hsrcS hsinkS
  | succ f ih =>
    intro r acc hInv
    rw [maxFlowLoop]
    rcases hbfs : edmonds_karp_bfs r N source sink with _ | path
    · exact flowInv_le_cut hInv S hS hsrcS hsinkS
    · dsimp only
      have hGood : GoodPath r N source sink path :=
        edmonds_karp_bfs_sound hsrcN path hbfs
      exact ih (augmentPath r path (path_flow r path)) (acc + path_flow r path)
        (augment_preserves hInv hGood hss)

/-- The embedded max-flow value is bounded by the capacity of any
source-sink cut. -/
lemma max_flow_le_cut {N source sink : Nat} {capacity : Nat → Nat → Int}
    (hc0 : ∀ i j, 0 ≤ capacity i j) (hsrcN : source < N) (hss : source ≠ sink)
    (S : Finset Nat) (hS : S ⊆ Finset.range N) (hsrcS : source ∈ S)
    (hsinkS : sink ∉ S) :
    max_flow capacity N source sink ≤
      ∑ i ∈ S, ∑ j ∈ Finset.range N \ S, capacity i j := by
  have hInv : FlowInv N source sink capacity capacity 0 := by
    refine ⟨hc0, fun i j => rfl, ?_, ?_⟩
    · intro x _ _ _
      unfold netOut
      simp
    · unfold netOut
      simp
  exact maxFlowLoop_le_cut S hS hsrcS hsinkS hsrcN hss (N + 1) capacity 0 hInv

/-- Generic write-characterization for folds whose step either leaves a cell
unchanged or writes 1 into a cell of a described family. -/
lemma foldl_writes {α : Type} (Fam : α → Nat → Nat → Prop)
    (step : (Nat → Nat → Int) → α → (Nat → Nat → Int))
    (hstep : ∀ c x i j, step c x i j = c i j ∨ (step c x i j = 1 ∧ Fam x i j)) :
    ∀ (l : List α) (c : Nat → Nat → Int) (i j : Nat),
      (l.foldl step c) i j = c i j ∨
      ((l.foldl step c) i j = 1 ∧ ∃ x ∈ l, Fam x i j) := by
  intro l
  induction l with
  | nil =>
    intro c i j
    exact Or.inl rfl
  | cons x xs ih =>
    intro c i j
    rw [List.foldl_cons]
    rcases ih (step c x) i j with h | ⟨h1, y, hy, hf⟩
    · rcases hstep c x i j with h' | ⟨h1, hf⟩
      · exact Or.inl (h.trans h')
      · exact Or.inr ⟨h.trans h1, x, List.mem_cons_self x xs, hf⟩
    · exact Or.inr ⟨h1, y, List.mem_cons_of_mem x hy, hf⟩

/-- Every cell of the constructed capacity matrix is 0, or is 1 and belongs
to one of the three edge families: source to U, W to sink, or a guarded
residual edge from U to W. -/
lemma buildCapacity_cases (residual : List (Nat × Nat)) (U W : List Nat)
    (source sink : Nat) (i j : Nat) :
    buildCapacity residual U W source sink i j = 0 ∨
      (buildCapacity residual U W source sink i j = 1 ∧
        ((i = source ∧ ∃ u ∈ U, j = umap U u) ∨
         ((∃ w ∈ W, i = wmap U W w) ∧ j = sink) ∨
         (∃ e ∈ residual, (e.1 ∈ U ∧ e.2 ∈ W) ∧
           i = umap U e.1 ∧ j = wmap U W e.2))) := by
  have hbc : buildCapacity residual U W source sink =
      residual.foldl
        (fun c e =>
          if e.1 ∈ U ∧ e.2 ∈ W then upd2 c (umap U e.1) (wmap U W e.2) 1 else c)
        (W.foldl (fun c w => upd2 c (wmap U W w) sink 1)
          (U.foldl (fun c u => upd2 c source (umap U u) 1)
            (fun _ _ => 0))) := rfl
  have h1 := foldl_writes (fun u i' j' => i' = source ∧ j' = umap U u)
      (fun c u => upd2 c source (umap U u) 1)
      (by
        intro c x i' j'
        unfold upd2
        beta_reduce
        by_cases h : i' = source ∧ j' = umap U x
        · right
          rw [if_pos h]
          exact ⟨rfl, h⟩
        · left
          rw [if_neg h])
      U (fun _ _ => 0) i j
  have h2 := foldl_writes (fun w i' j' => i' = wmap U W w ∧ j' = sink)
      (fun c w => upd2 c (wmap U W w) sink 1)
      (by
        intro c x i' j'
        unfold upd2
        beta_reduce
        by_cases h : i' = wmap U W x ∧ j' = sink
        · right
          rw [if_pos h]
          exact ⟨rfl, h⟩
        · left
          rw [if_neg h])
      W (U.foldl (fun c u => upd2 c source (umap U u) 1) (fun _ _ => 0)) i j
  have h3 := foldl_writes
      (fun (e : Nat × Nat) i' j' => (e.1 ∈ U ∧ e.2 ∈ W) ∧
        i' = umap U e.1 ∧ j' = wmap U W e.2)
      (fun c e =>
        if e.1 ∈ U ∧ e.2 ∈ W then upd2 c (umap U e.1) (wmap U W e.2) 1 else c)
      (by
        intro c x i' j'
        beta_reduce
        by_cases hP : x.1 ∈ U ∧ x.2 ∈ W
        · rw [if_pos hP]
          unfold upd2
          beta_reduce
          by_cases h : i' = umap U x.1 ∧ j' = wmap U W x.2
          · right
            rw [if_pos h]
            exact ⟨rfl, hP, h⟩
          · left
            rw [if_neg h]
        · rw [if_neg hP]
          left
          rfl)
      residual
      (W.foldl (fun c w => upd2 c (wmap U W w) sink 1)
        (U.foldl (fun c u => upd2 c source (umap U u) 1) (fun _ _ => 0))) i j
  rw [hbc]
  rcases h3 with h3e | ⟨h3v, e, he, hf⟩
  · rw [h3e]
    rcases h2 with h2e | ⟨h2v, w, hw, hf⟩
    · rw [h2e]
      rcases h1 with h1e | ⟨h1v, u, hu, hf⟩
      · rw [h1e]
        exact Or.inl rfl
      · exact Or.inr ⟨h1v, Or.inl ⟨hf.1, u, hu, hf.2⟩⟩
    · exact Or.inr ⟨h2v, Or.inr (Or.inl ⟨⟨w, hw, hf.1⟩, hf.2⟩)⟩
  · exact Or.inr ⟨h3v, Or.inr (Or.inr ⟨e, he, hf⟩)⟩

/-- Any vertex cover D of the residual edges caps the flow value of the
constructed bipartite network: the cut consisting of the source, the
uncovered U-nodes and the covered W-nodes has capacity at most card D. -/
lemma cut_bound_generic (residual : List (Nat × Nat)) (D : Finset Nat)
    (U W : List Nat) (nv : Nat)
    (hUnd : U.Nodup) (hWnd : W.Nodup)
    (hdisj : ∀ x, x ∈ U → x ∈ W → False)
    (hlen : U.length + W.length = nv)
    (hcov : ∀ e ∈ residual, (e.1 ∈ U ∧ e.2 ∈ W) → e.1 ∈ D ∨ e.2 ∈ D) :
    max_flow (buildCapacity residual U W 0 (nv + 1)) (nv + 2) 0 (nv + 1) ≤
      (D.card : Int) := by
  classical
  have humap_lb : ∀ u, 1 ≤ umap U u := by
    intro u
    unfold umap
    omega
  have humap_ub : ∀ u ∈ U, umap U u ≤ U.length := by
    intro u hu
    have := List.indexOf_lt_length.mpr hu
    unfold umap
    omega
  have hwmap_lb : ∀ w, U.length + 1 ≤ wmap U W w := by
    intro w
    unfold wmap
    omega
  have hwmap_ub : ∀ w ∈ W, wmap U W w ≤ nv := by
    intro w hw
    have := List.indexOf_lt_length.mpr hw
    unfold wmap
    omega
  have humap_inj : ∀ u1 ∈ U, ∀ u2 ∈ U, umap U u1 = umap U u2 → u1 = u2 := by
    intro u1 h1 u2 h2 h
    unfold umap at h
    exact (List.indexOf_inj h1 h2).mp (by omega)
  have hwmap_inj : ∀ w1 ∈ W, ∀ w2 ∈ W, wmap U W w1 = wmap U W w2 → w1 = w2 := by
    intro w1 h1 w2 h2 h
    unfold wmap at h
    exact (List.indexOf_inj h1 h2).mp (by omega)
  set S : Finset Nat := insert 0
    (((U.filter (fun x => ¬ x ∈ D)).map (fun u => umap U u)).toFinset ∪
     ((W.filter (fun x => x ∈ D)).map (fun w => wmap U W w)).toFinset) with hSdef
  set A : Finset (Nat × Nat) :=
    (((U.filter (fun x => x ∈ D)).map (fun u => ((0 : Nat), umap U u))) ++
     ((W.filter (fun x => x ∈ D)).map (fun w => (wmap U W w, nv + 1)))).toFinset
    with hAdef
  have hS_cases : ∀ i, i ∈ S →
      i = 0 ∨ (∃ u, u ∈ U ∧ ¬ u ∈ D ∧ i = umap U u) ∨
        (∃ w, w ∈ W ∧ w ∈ D ∧ i = wmap U W w) := by
    intro i hi
    rw [hSdef] at hi
    rcases Finset.mem_insert.mp hi with h | h
    · exact Or.inl h
    rcases Finset.mem_union.mp h with h | h
    · obtain ⟨u, hu, hui⟩ := List.mem_map.mp (List.mem_toFinset.mp h)
      obtain ⟨huU, huD⟩ := List.mem_filter.mp hu
      exact Or.inr (Or.inl ⟨u, huU, by simpa using huD, hui.symm⟩)
    · obtain ⟨w, hw, hwi⟩ := List.mem_map.mp (List.mem_toFinset.mp h)
      obtain ⟨hwW, hwD⟩ := List.mem_filter.mp hw
      exact Or.inr (Or.inr ⟨w, hwW, by simpa using hwD, hwi.symm⟩)
  have hS_in2 : ∀ u, u ∈ U → ¬ u ∈ D → umap U u ∈ S := by
    intro u hu hd
    rw [hSdef]
    apply Finset.mem_insert_of_mem
    apply Finset.mem_union_left
    rw [List.mem_toFinset]
    exact List.mem_map.mpr ⟨u, List.mem_filter.mpr ⟨hu, by simpa using hd⟩, rfl⟩
  have hS_in3 : ∀ w, w ∈ W → w ∈ D → wmap U W w ∈ S := by
    intro w hw hd
    rw [hSdef]
    apply Finset.mem_insert_of_mem
    apply Finset.mem_union_right
    rw [List.mem_toFinset]
    exact List.mem_map.mpr ⟨w, List.mem_filter.mpr ⟨hw, by simpa using hd⟩, rfl⟩
  have hA_in1 : ∀ u, u ∈ U → u ∈ D → ((0 : Nat), umap U u) ∈ A := by
    intro u hu hd
    rw [hAdef, List.mem_toFinset]
    apply List.mem_append.mpr
    exact Or.inl (List.mem_map.mpr
      ⟨u, List.mem_filter.mpr ⟨hu, by simpa using hd⟩, rfl⟩)
  have hA_in2 : ∀ w, w ∈ W → w ∈ D → (wmap U W w, nv + 1) ∈ A := by
    intro w hw hd
    rw [hAdef, List.mem_toFinset]
    apply List.mem_append.mpr
    exact Or.inr (List.mem_map.mpr
      ⟨w, List.mem_filter.mpr ⟨hw, by simpa using hd⟩, rfl⟩)
  have hc0 : ∀ i j, 0 ≤ buildCapacity residual U W 0 (nv + 1) i j := by
    intro i j
    rcases buildCapacity_cases residual U W 0 (nv + 1) i j with h | ⟨h, _⟩ <;>
      rw [h] <;> norm_num
  have hSsub : S ⊆ Finset.range (nv + 2) := by
    intro i hi
    rw [Finset.mem_range]
    rcases hS_cases i hi with h | ⟨u, hu, _, h⟩ | ⟨w, hw, _, h⟩
    · omega
    · have := humap_ub u hu
      omega
    · have := hwmap_ub w hw
      omega
  have h0S : (0 : Nat) ∈ S := by
    rw [hSdef]
    exact Finset.mem_insert_self 0 _
  have hsinkS : (nv + 1) ∉ S := by
    intro hc
    rcases hS_cases (nv + 1) hc with h | ⟨u, hu, _, h⟩ | ⟨w, hw, _, h⟩
    · omega
    · have := humap_ub u hu
      omega
    · have := hwmap_ub w hw
      omega
  have hpt : ∀ i ∈ S, ∀ j ∈ Finset.range (nv + 2) \ S,
      buildCapacity residual U W 0 (nv + 1) i j ≤
        (if (i, j) ∈ A then (1 : Int) else 0) := by
    intro i hi j hj
    have hjnS : j ∉ S := (Finset.mem_sdiff.mp hj).2
    rcases buildCapacity_cases residual U W 0 (nv + 1) i j with h0 | ⟨h1v, hfam⟩
    · rw [h0]
      by_cases hA : (i, j) ∈ A
      · rw [if_pos hA]
        norm_num
      · rw [if_neg hA]
    · rw [h1v]
      rcases hfam with ⟨hi0, u, hu, hju⟩ | ⟨⟨w, hw, hiw⟩, hjs⟩ | ⟨e, he, ⟨heU, heW⟩, hie, hje⟩
      · have huD : u ∈ D := by
          by_contra hd
          exact hjnS (hju ▸ hS_in2 u hu hd)
        rw [if_pos (by rw [hi0, hju]; exact hA_in1 u hu huD)]
      · have hwD : w ∈ D := by
          rcases hS_cases i hi with h | ⟨u', hu', _, h⟩ | ⟨w', hw', hw'D, h⟩
          · exact absurd (hiw.symm.trans h) (by have := hwmap_lb w; omega)
          · have := humap_ub u' hu'
            have := hwmap_lb w
            omega
          · have : w = w' := hwmap_inj w hw w' hw' (hiw.symm.trans h)
            exact this ▸ hw'D
        rw [if_pos (by rw [hiw, hjs]; exact hA_in2 w hw hwD)]
      · exfalso
        have he1D : ¬ e.1 ∈ D := by
          rcases hS_cases i hi with h | ⟨u', hu', hu'D, h⟩ | ⟨w', hw', _, h⟩
          · exact absurd (hie.symm.trans h) (by have := humap_lb e.1; omega)
          · have : e.1 = u' := humap_inj e.1 heU u' hu' (hie.symm.trans h)
            exact this ▸ hu'D
          · have := humap_ub e.1 heU
            have := hwmap_lb w'
            omega
        have he2D : ¬ e.2 ∈ D := by
          intro hd
          exact hjnS (hje ▸ hS_in3 e.2 heW hd)
        rcases hcov e he ⟨heU, heW⟩ with h | h
        · exact he1D h
        · exact he2D h
  have hAcard : (A.card : Int) ≤ (D.card : Int) := by
    have h1 : A.card ≤
        (U.filter (fun x => x ∈ D)).length + (W.filter (fun x => x ∈ D)).length := by
      calc A.card ≤ (((U.filter (fun x => x ∈ D)).map (fun u => ((0 : Nat), umap U u))) ++
          ((W.filter (fun x => x ∈ D)).map (fun w => (wmap U W w, nv + 1)))).length :=
            List.toFinset_card_le _
        _ = _ := by
            rw [List.length_append, List.length_map, List.length_map]
    have h2 : (U.filter (fun x => x ∈ D)).length +
        (W.filter (fun x => x ∈ D)).length ≤ D.card := by
      have hLnd : (U.filter (fun x => x ∈ D) ++ W.filter (fun x => x ∈ D)).Nodup := by
        rw [List.nodup_append]
        refine ⟨hUnd.filter _, hWnd.filter _, ?_⟩
        intro x hx hx'
        exact hdisj x (List.mem_filter.mp hx).1 (List.mem_filter.mp hx').1
      have hLsub : (U.filter (fun x => x ∈ D) ++
          W.filter (fun x => x ∈ D)).toFinset ⊆ D := by
        intro x hx
        rcases List.mem_append.mp (List.mem_toFinset.mp hx) with h | h
        · have := (List.mem_filter.mp h).2
          simpa using this
        · have := (List.mem_filter.mp h).2
          simpa using this
      have := Finset.card_le_card hLsub
      rw [List.toFinset_card_of_nodup hLnd] at this
      rw [List.length_append] at this
      exact this
    exact_mod_cast le_trans (Nat.cast_le.mpr h1) (Nat.cast_le.mpr h2)
  calc max_flow (buildCapacity residual U W 0 (nv + 1)) (nv + 2) 0 (nv + 1)
      ≤ ∑ i ∈ S, ∑ j ∈ Finset.range (nv + 2) \ S,
          buildCapacity residual U W 0 (nv + 1) i j :=
        max_flow_le_cut hc0 (by omega) (by omega) S hSsub h0S hsinkS
    _ ≤ ∑ i ∈ S, ∑ j ∈ Finset.range (nv + 2) \ S,
          (if (i, j) ∈ A then (1 : Int) else 0) := by
        apply Finset.sum_le_sum
        intro i hi
        apply Finset.sum_le_sum
        intro j hj
        exact hpt i hi j hj
    _ = ∑ p ∈ S ×ˢ (Finset.range (nv + 2) \ S),
          (if p ∈ A then (1 : Int) else 0) :=
        (Finset.sum_product S (Finset.range (nv + 2) \ S)
          (fun p => if p ∈ A then (1 : Int) else 0)).symm
    _ = (((S ×ˢ (Finset.range (nv + 2) \ S)).filter (fun p => p ∈ A)).card : Int) :=
        Finset.sum_boole _ _
    _ ≤ (A.card : Int) := by
        apply Nat.cast_le.mpr
        apply Finset.card_le_card
        intro p hp
        exact (Finset.mem_filter.mp hp).2
    _ ≤ (D.card : Int) := hAcard

/-- Admissibility of the matching-based lower bound: the computed bound
never exceeds the size of any vertex cover of the residual edges. -/
lemma matching_bound_admissible {residual : List (Nat × Nat)} {D : Finset Nat}
    (hcov : ∀ e ∈ residual, e.1 ∈ D ∨ e.2 ∈ D) :
    maximum_matching_lower_bound residual ≤ (D.card : Int) := by
  classical
  by_cases hres : residual = []
  · rw [maximum_matching_lower_bound, if_pos hres]
    exact Int.natCast_nonneg D.card
  · have heq : maximum_matching_lower_bound residual =
        max_flow (buildCapacity residual
            ((residVerts residual).filter (fun v => v % 2 = 0))
            ((residVerts residual).filter (fun v => ¬(v % 2 = 0)))
            0 ((residVerts residual).length + 1))
          ((residVerts residual).length + 2) 0
          ((residVerts residual).length + 1) := by
      rw [maximum_matching_lower_bound, if_neg hres]
    rw [heq]
    have hnd : (residVerts residual).Nodup := List.nodup_dedup _
    have hlen : ((residVerts residual).filter (fun v => v % 2 = 0)).length +
        ((residVerts residual).filter (fun v => ¬(v % 2 = 0))).length =
        (residVerts residual).length := by
      have hfeq : (residVerts residual).filter (fun v => ¬(v % 2 = 0)) =
          (residVerts residual).filter (fun v => !(decide (v % 2 = 0))) := by
        apply List.filter_congr
        intro x _
        rcases Nat.mod_two_eq_zero_or_one x with h | h <;> simp [h]
      rw [hfeq]
      have h := (@List.length_eq_length_filter_add _ (residVerts residual)
        (fun v => decide (v % 2 = 0))).symm
      simpa using h
    apply cut_bound_generic
    · exact hnd.filter _
    · exact hnd.filter _
    · intro x hx hx'
      have h1 := (List.mem_filter.mp hx).2
      have h2 := (List.mem_filter.mp hx').2
      simp at h1 h2
      omega
    · exact hlen
    · intro e he _
      exact hcov e he

/-! ### Optimality of the branch and bound solver -/

lemma BranchAndBoundSolver.bnb_find_cover_opt (n : Nat) :
    ∀ (l : List (Nat × Nat)) (current : Finset Nat) (s : BTState) (D : Finset Nat),
      l.length ≤ n → isCover l D → (∀ x ∈ D, x ∉ current) →
      (BranchAndBoundSolver.find_cover l current s).upper_bound ≤
        current.card + D.card := by
  induction n with
  | zero =>
    intro l current s D hl hD hdisj
    have hnil : l = [] := List.length_eq_zero.mp (Nat.le_zero.mp hl)
    subst hnil
    rw [BranchAndBoundSolver.find_cover]
    by_cases hp : current.card < s.upper_bound
    · rw [if_pos hp]
      simp only
      omega
    · rw [if_neg hp]
      omega
  | succ n ih =>
    intro l current s D hl hD hdisj
    rw [BranchAndBoundSolver.find_cover.eq_def]
    rcases l with _ | ⟨e, rest⟩
    · dsimp only
      by_cases hp : current.card < s.upper_bound
      · rw [if_pos hp]
        simp only
        omega
      · rw [if_neg hp]
        omega
    simp only
    by_cases hp : (s.upper_bound : Int) ≤
        (current.card : Int) + maximum_matching_lower_bound (e :: rest)
    · rw [if_pos hp]
      have hadm : maximum_matching_lower_bound (e :: rest) ≤ (D.card : Int) :=
        matching_bound_admissible hD
      omega
    rw [if_neg hp]
    have hlen1 : (removeIncident e.1 (e :: rest)).length ≤ n := by
      have := removeIncident_length_lt (l := rest) (x := e.1) (e := e) (by simp [edgeHas])
      simp only [List.length_cons] at this hl
      omega
    have hlen2 : (removeIncident e.2 (e :: rest)).length ≤ n := by
      have := removeIncident_length_lt (l := rest) (x := e.2) (e := e) (by simp [edgeHas])
      simp only [List.length_cons] at this hl
      omega
    rcases hD e (by simp) with hmem | hmem
    · have hD1 : isCover (removeIncident e.1 (e :: rest)) (D.erase e.1) :=
        isCover_removeIncident_erase hD
      have hdisj1 : ∀ x ∈ D.erase e.1, x ∉ insert e.1 current := by
        intro x hx
        rcases Finset.mem_erase.mp hx with ⟨hxne, hxD⟩
        intro hcontra
        rcases Finset.mem_insert.mp hcontra with h | h
        · exact hxne h
        · exact hdisj x hxD h
      have h1 := ih (removeIncident e.1 (e :: rest)) (insert e.1 current) s (D.erase e.1)
        hlen1 hD1 hdisj1
      have h2 := BranchAndBoundSolver.bnb_ub_mono (removeIncident e.2 (e :: rest)).length
        (removeIncident e.2 (e :: rest)) (insert e.2 current)
        (BranchAndBoundSolver.find_cover (removeIncident e.1 (e :: rest))
          (insert e.1 current) s) (le_refl _)
      have hcard1 : (insert e.1 current).card = current.card + 1 :=
        Finset.card_insert_of_not_mem (hdisj e.1 hmem)
      have hcard2 : (D.erase e.1).card = D.card - 1 := Finset.card_erase_of_mem hmem
      have hpos : 1 ≤ D.card := Finset.card_pos.mpr ⟨e.1, hmem⟩
      omega
    · have hD2 : isCover (removeIncident e.2 (e :: rest)) (D.erase e.2) :=
        isCover_removeIncident_erase hD
      have hdisj2 : ∀ x ∈ D.erase e.2, x ∉ insert e.2 current := by
        intro x hx
        rcases Finset.mem_erase.mp hx with ⟨hxne, hxD⟩
        intro hcontra
        rcases Finset.mem_insert.mp hcontra with h | h
        · exact hxne h
        · exact hdisj x hxD h
      have h1 := ih (removeIncident e.2 (e :: rest)) (insert e.2 current)
        (BranchAndBoundSolver.find_cover (removeIncident e.1 (e :: rest))
          (insert e.1 current) s) (D.erase e.2) hlen2 hD2 hdisj2
      have hcard1 : (insert e.2 current).card = current.card + 1 :=
        Finset.card_insert_of_not_mem (hdisj e.2 hmem)
      have hcard2 : (D.erase e.2).card = D.card - 1 := Finset.card_erase_of_mem hmem
      have hpos : 1 ≤ D.card := Finset.card_pos.mpr ⟨e.2, hmem⟩
      omega

/-- BranchAndBoundSolver.solve returns a minimum vertex cover on valid
graphs. -/
lemma BranchAndBoundSolver.bnb_solve_spec {g : Graph} (hv : g.valid) :
    isCover g.edges (BranchAndBoundSolver.solve g) ∧
      BranchAndBoundSolver.solve g ∈ coverFinsets g.num_vertices g.edges ∧
      (BranchAndBoundSolver.solve g).card = minCoverSize g.num_vertices g.edges := by
  set V := Finset.range g.num_vertices with hV
  set E := canonicalEdges g with hE
  have hs0 : BTInv E V ⟨g.num_vertices, V⟩ := by
    refine ⟨?_, le_refl _, by simp [hV]⟩
    intro e he
    have := canonicalEdges_valid hv e he
    exact Or.inl (by rw [hV]; exact Finset.mem_range.mpr this.1)
  have hsound := BranchAndBoundSolver.bnb_find_cover_sound E V E.length E ∅
    ⟨g.num_vertices, V⟩ (le_refl _) hs0 (fun e he => Or.inr he) (by simp)
    (fun e he => by
      have := canonicalEdges_valid hv e he
      exact ⟨Finset.mem_range.mpr this.1, Finset.mem_range.mpr this.2⟩)
  obtain ⟨hcov, hsub, hub⟩ := hsound
  have hcov' : isCover g.edges (BranchAndBoundSolver.solve g) := by
    rw [BranchAndBoundSolver.solve]
    exact isCover_canonical_iff.mp hcov
  have hmem : BranchAndBoundSolver.solve g ∈ coverFinsets g.num_vertices g.edges :=
    mem_coverFinsets.mpr ⟨hsub, hcov'⟩
  refine ⟨hcov', hmem, card_eq_minCoverSize hmem ?_⟩
  intro D hD
  have hDcov : isCover E D := isCover_canonical_iff.mpr (mem_coverFinsets.mp hD).2
  have hopt := BranchAndBoundSolver.bnb_find_cover_opt E.length E ∅ ⟨g.num_vertices, V⟩ D
    (le_refl _) hDcov (by simp)
  have hempty : (∅ : Finset Nat).card = 0 := Finset.card_empty
  rw [BranchAndBoundSolver.solve, ← hE, ← hV]
  omega

/-! ## The claims -/

/-- Claim C1 counterexample: the graph with one vertex and the single
self-loop edge (0, 0) has all endpoints inside [0, num_vertices), yet
ExactSolver.solve raises (returns none) instead of returning a minimum
cover, refuting the claim for ExactSolver. -/
theorem C1_counterexample :
    Graph.valid ⟨1, [(0, 0)]⟩ ∧ ExactSolver.solve ⟨1, [(0, 0)]⟩ = none :=
  ⟨by decide, ExactSolver.solve_none (a := 0) (by simp)⟩

/-- Claim C1, amended: for every graph with all edge endpoints in
[0, num_vertices), BacktrackingSolver.solve and IDDFSSolver.solve return a
vertex cover of minimum size; ExactSolver.solve does so as well whenever the
graph has no self-loop edge (with a self-loop it raises instead of
returning). -/
theorem C1_exact_solvers_minimum (g : Graph) (hv : g.valid) :
    (isCover g.edges (BacktrackingSolver.solve g) ∧
      (BacktrackingSolver.solve g).card = minCoverSize g.num_vertices g.edges) ∧
    (isCover g.edges (IDDFSSolver.solve g) ∧
      (IDDFSSolver.solve g).card = minCoverSize g.num_vertices g.edges) ∧
    (g.noSelfLoops →
      ∃ C, ExactSolver.solve g = some C ∧ isCover g.edges C ∧
        C.card = minCoverSize g.num_vertices g.edges) := by
  obtain ⟨hbt1, _, hbt3⟩ := BacktrackingSolver.bt_solve_spec hv
  obtain ⟨hid1, _, hid3⟩ := IDDFSSolver.iddfs_solve_spec hv
  refine ⟨⟨hbt1, hbt3⟩, ⟨hid1, hid3⟩, ?_⟩
  intro hnl
  obtain ⟨C, h1, h2, _, h4⟩ := ExactSolver.exact_solve_spec hv hnl
  exact ⟨C, h1, h2, h4⟩

/-- Claim C1 witness at the two-vertex single-edge graph. -/
theorem C1_witness :
    Graph.valid ⟨2, [(0, 1)]⟩ ∧
    ((isCover (⟨2, [(0, 1)]⟩ : Graph).edges
        (BacktrackingSolver.solve ⟨2, [(0, 1)]⟩) ∧
      (BacktrackingSolver.solve ⟨2, [(0, 1)]⟩).card =
        minCoverSize (⟨2, [(0, 1)]⟩ : Graph).num_vertices
          (⟨2, [(0, 1)]⟩ : Graph).edges) ∧
    (isCover (⟨2, [(0, 1)]⟩ : Graph).edges (IDDFSSolver.solve ⟨2, [(0, 1)]⟩) ∧
      (IDDFSSolver.solve ⟨2, [(0, 1)]⟩).card =
        minCoverSize (⟨2, [(0, 1)]⟩ : Graph).num_vertices
          (⟨2, [(0, 1)]⟩ : Graph).edges) ∧
    ((⟨2, [(0, 1)]⟩ : Graph).noSelfLoops →
      ∃ C, ExactSolver.solve ⟨2, [(0, 1)]⟩ = some C ∧
        isCover (⟨2, [(0, 1)]⟩ : Graph).edges C ∧
        C.card = minCoverSize (⟨2, [(0, 1)]⟩ : Graph).num_vertices
          (⟨2, [(0, 1)]⟩ : Graph).edges)) :=
  ⟨by decide, C1_exact_solvers_minimum ⟨2, [(0, 1)]⟩ (by decide)⟩

/-- Claim C2 counterexample: on the one-vertex graph with the self-loop
(0, 0) and the initial draw [true] (max_iters 1, tenure 7, default penalty),
tabu search returns the empty cover with cost 2 although the self-loop is
uncovered, refuting the final-feasibility consequence of the claim. -/
theorem C2_counterexample :
    Graph.valid ⟨1, [(0, 0)]⟩ ∧
    solve_tabu_search ⟨1, [(0, 0)]⟩ 1 7 none [true] = ([], 2) ∧
    count_uncovered_list ⟨1, [(0, 0)]⟩ [] = 1 :=
  ⟨by decide, by decide, by decide⟩

/-- Claim C2, amended: on graphs with in-range endpoints and no self-loop
edges, the recorded best solution is only replaced by a feasible candidate
of strictly lower cost, the best cost is non-increasing across the whole
run, and the returned cover leaves no edge uncovered. -/
theorem C2_tabu_best_feasible (g : Graph) (hv : g.valid) (hnl : g.noSelfLoops)
    (mi : Nat) (tt : Int) (penArg : Option Int) (init : List Bool)
    (hlen : init.length = g.num_vertices) :
    count_uncovered_list g (solve_tabu_search g mi tt penArg init).1 = 0 ∧
    (∀ (it : Int) (st st1 : TabuState),
      TabuInv g (effectivePenalty g penArg) st →
      tabuStep g (effectivePenalty g penArg) tt it st = some st1 →
      (st1.best = st.best ∧ st1.best_cost = st.best_cost) ∨
        (st1.best_cost < st.best_cost ∧
          g.count_uncovered_edges st1.best = 0)) ∧
    (tabuLoop g (effectivePenalty g penArg) tt mi 1
        (tabuInit g (effectivePenalty g penArg) init)).best_cost ≤
      (tabuInit g (effectivePenalty g penArg) init).best_cost := by
  refine ⟨solve_tabu_search_feasible g hv hnl mi tt penArg init hlen, ?_, ?_⟩
  · intro it st st1 hInv hstep
    exact (tabuStep_spec g hv hnl _ tt it st st1 hInv hstep).2
  · exact (tabuLoop_spec g hv hnl _ tt mi 1 _ (tabuInit_inv g hv _ init hlen)).2

/-- Claim C2 witness at the two-vertex single-edge graph. -/
theorem C2_witness :
    Graph.valid ⟨2, [(0, 1)]⟩ ∧ Graph.noSelfLoops ⟨2, [(0, 1)]⟩ ∧
    ([true, false] : List Bool).length = (⟨2, [(0, 1)]⟩ : Graph).num_vertices ∧
    (count_uncovered_list ⟨2, [(0, 1)]⟩
        (solve_tabu_search ⟨2, [(0, 1)]⟩ 1 7 none [true, false]).1 = 0 ∧
    (∀ (it : Int) (st st1 : TabuState),
      TabuInv ⟨2, [(0, 1)]⟩ (effectivePenalty ⟨2, [(0, 1)]⟩ none) st →
      tabuStep ⟨2, [(0, 1)]⟩ (effectivePenalty ⟨2, [(0, 1)]⟩ none) 7 it st =
          some st1 →
      (st1.best = st.best ∧ st1.best_cost = st.best_cost) ∨
        (st1.best_cost < st.best_cost ∧
          Graph.count_uncovered_edges ⟨2, [(0, 1)]⟩ st1.best = 0)) ∧
    (tabuLoop ⟨2, [(0, 1)]⟩ (effectivePenalty ⟨2, [(0, 1)]⟩ none) 7 1 1
        (tabuInit ⟨2, [(0, 1)]⟩ (effectivePenalty ⟨2, [(0, 1)]⟩ none)
          [true, false])).best_cost ≤
      (tabuInit ⟨2, [(0, 1)]⟩ (effectivePenalty ⟨2, [(0, 1)]⟩ none)
        [true, false]).best_cost) :=
  ⟨by decide, by decide, by decide,
    C2_tabu_best_feasible ⟨2, [(0, 1)]⟩ (by decide) (by decide) 1 7 none
      [true, false] (by decide)⟩

/-- Claim C3: on every graph with in-range endpoints the approximation
solver returns a vertex cover of size at most twice the minimum cover
size. -/
theorem C3_approximation_factor_two (g : Graph) (hv : g.valid) :
    isCover g.edges (solve_approximation g) ∧
      (solve_approximation g).card ≤ 2 * minCoverSize g.num_vertices g.edges :=
  ⟨solve_approximation_covers hv, solve_approximation_card hv⟩

/-- Claim C3 witness at the two-vertex single-edge graph. -/
theorem C3_witness :
    Graph.valid ⟨2, [(0, 1)]⟩ ∧
    (isCover (⟨2, [(0, 1)]⟩ : Graph).edges (solve_approximation ⟨2, [(0, 1)]⟩) ∧
      (solve_approximation ⟨2, [(0, 1)]⟩).card ≤
        2 * minCoverSize (⟨2, [(0, 1)]⟩ : Graph).num_vertices
          (⟨2, [(0, 1)]⟩ : Graph).edges) :=
  ⟨by decide, C3_approximation_factor_two ⟨2, [(0, 1)]⟩ (by decide)⟩

/-- Claim C4 counterexample: on the one-vertex self-loop graph the branch
and bound and backtracking solvers both return covers of size one, while
ExactSolver.solve raises (returns none) and so returns no size at all,
refuting the three-way agreement. -/
theorem C4_counterexample :
    Graph.valid ⟨1, [(0, 0)]⟩ ∧
    ExactSolver.solve ⟨1, [(0, 0)]⟩ = none ∧
    (BranchAndBoundSolver.solve ⟨1, [(0, 0)]⟩).card = 1 ∧
    (BacktrackingSolver.solve ⟨1, [(0, 0)]⟩).card = 1 := by
  refine ⟨by decide, ExactSolver.solve_none (a := 0) (by simp), ?_, ?_⟩
  · exact (BranchAndBoundSolver.bnb_solve_spec (by decide)).2.2.trans (by decide)
  · exact (BacktrackingSolver.bt_solve_spec (by decide)).2.2.trans (by decide)

/-- Claim C4, amended: on every graph with in-range endpoints the branch and
bound solver returns a cover of exactly the minimum size, hence of the same
size as the backtracking solver; ExactSolver agrees as well whenever the
graph has no self-loop. Moreover the matching-based lower bound is
admissible: it never exceeds the size of any vertex cover of the residual
edges, so the pruning never discards all optimal solutions. -/
theorem C4_bound_admissible_agreement (g : Graph) (hv : g.valid) :
    (BranchAndBoundSolver.solve g).card = minCoverSize g.num_vertices g.edges ∧
    (BranchAndBoundSolver.solve g).card = (BacktrackingSolver.solve g).card ∧
    (g.noSelfLoops → ∃ C, ExactSolver.solve g = some C ∧
      C.card = (BranchAndBoundSolver.solve g).card) ∧
    (∀ (residual : List (Nat × Nat)) (D : Finset Nat),
      (∀ e ∈ residual, e.1 ∈ D ∨ e.2 ∈ D) →
      maximum_matching_lower_bound residual ≤ (D.card : Int)) := by
  obtain ⟨_, _, hbb⟩ := BranchAndBoundSolver.bnb_solve_spec hv
  obtain ⟨_, _, hbt⟩ := BacktrackingSolver.bt_solve_spec hv
  refine ⟨hbb, by omega, ?_, fun residual D hcov => matching_bound_admissible hcov⟩
  intro hnl
  obtain ⟨C, h1, _, _, h4⟩ := ExactSolver.exact_solve_spec hv hnl
  exact ⟨C, h1, by omega⟩

/-- Claim C4 witness at the two-vertex single-edge graph. -/
theorem C4_witness :
    Graph.valid ⟨2, [(0, 1)]⟩ ∧
    ((BranchAndBoundSolver.solve ⟨2, [(0, 1)]⟩).card =
        minCoverSize (⟨2, [(0, 1)]⟩ : Graph).num_vertices
          (⟨2, [(0, 1)]⟩ : Graph).edges ∧
    (BranchAndBoundSolver.solve ⟨2, [(0, 1)]⟩).card =
      (BacktrackingSolver.solve ⟨2, [(0, 1)]⟩).card ∧
    ((⟨2, [(0, 1)]⟩ : Graph).noSelfLoops →
      ∃ C, ExactSolver.solve ⟨2, [(0, 1)]⟩ = some C ∧
        C.card = (BranchAndBoundSolver.solve ⟨2, [(0, 1)]⟩).card) ∧
    (∀ (residual : List (Nat × Nat)) (D : Finset Nat),
      (∀ e ∈ residual, e.1 ∈ D ∨ e.2 ∈ D) →
      maximum_matching_lower_bound residual ≤ (D.card : Int))) :=
  ⟨by decide, C4_bound_admissible_agreement ⟨2, [(0, 1)]⟩ (by decide)⟩

/-- Claim C5: tabu search returns a pair whose cost component is the cost
function recomputed on the returned cover with the internal penalty
(uncovered count times penalty plus cover size), and that internal penalty
always strictly exceeds num_vertices: a missing penalty or one at most
num_vertices is replaced by num_vertices + 1. -/
theorem C5_tabu_cost_and_penalty (g : Graph) (mi : Nat) (tt : Int)
    (penArg : Option Int) (init : List Bool) :
    (solve_tabu_search g mi tt penArg init).2 =
      (count_uncovered_list g (solve_tabu_search g mi tt penArg init).1 : Int) *
        effectivePenalty g penArg +
      ((solve_tabu_search g mi tt penArg init).1.length : Int) ∧
    (g.num_vertices : Int) < effectivePenalty g penArg ∧
    effectivePenalty g none = (g.num_vertices : Int) + 1 ∧
    (∀ p : Int, p ≤ (g.num_vertices : Int) →
      effectivePenalty g (some p) = (g.num_vertices : Int) + 1) := by
  refine ⟨solve_tabu_search_cost g mi tt penArg init,
    effectivePenalty_gt g penArg, rfl, ?_⟩
  intro p hp
  simp [effectivePenalty, hp]

/-- Claim C6: the Graph constructor was specified to fail exactly when an
edge endpoint is outside [0, num_vertices), but the code only checks the
upper bound: the edge (-1, 0) on a one-vertex graph passes the check, the
negative endpoint is resolved by Python negative indexing, and the
constructor returns a graph whose adjacency list is [[0, -1]] instead of
raising. -/
theorem C6_graph_negative_endpoint :
    Graph.init_list_adj 1 [(-1, 0)] = some [[0, -1]] ∧ ¬(0 ≤ (-1 : Int)) := by
  decide

/-- Claim C7 counterexample: on the edgeless one-vertex graph with the
initial draw [true] and max_iters 0 the tabu loop never runs, so the
initial vertex is never removed and tabu search returns the nonempty cover
[0] with cost 1, refuting the claim for tabu search. -/
theorem C7_counterexample :
    (⟨1, []⟩ : Graph).edges = [] ∧
    solve_tabu_search ⟨1, []⟩ 0 7 none [true] = ([0], 1) := by
  decide

/-- Claim C7, amended: on every graph with an empty edge list the
approximation, exact, backtracking, branch and bound and IDDFS solvers all
return the empty cover, and tabu search returns the empty cover with cost 0
provided max_iters is at least the number of vertices set in the random
initial assignment (each iteration removes at most one vertex from the
current cover). -/
theorem C7_empty_graph_all_solvers (g : Graph) (hE : g.edges = []) :
    solve_approximation g = ∅ ∧
    ExactSolver.solve g = some ∅ ∧
    BacktrackingSolver.solve g = ∅ ∧
    BranchAndBoundSolver.solve g = ∅ ∧
    IDDFSSolver.solve g = ∅ ∧
    (∀ (mi : Nat) (tt : Int) (penArg : Option Int) (init : List Bool),
      init.length = g.num_vertices → init.count true ≤ mi →
      solve_tabu_search g mi tt penArg init = ([], 0)) := by
  exact ⟨solve_approximation_empty g hE, ExactSolver.exact_solve_empty g hE,
    BacktrackingSolver.bt_solve_empty g hE,
    BranchAndBoundSolver.bnb_solve_empty g hE, IDDFSSolver.iddfs_solve_empty g hE,
    fun mi tt penArg init hlen hiters =>
      solve_tabu_search_empty g hE mi tt penArg init hlen hiters⟩

/-- Claim C7 witness at the edgeless five-vertex graph. -/
theorem C7_witness :
    (⟨5, []⟩ : Graph).edges = [] ∧
    (solve_approximation ⟨5, []⟩ = ∅ ∧
    ExactSolver.solve ⟨5, []⟩ = some ∅ ∧
    BacktrackingSolver.solve ⟨5, []⟩ = ∅ ∧
    BranchAndBoundSolver.solve ⟨5, []⟩ = ∅ ∧
    IDDFSSolver.solve ⟨5, []⟩ = ∅ ∧
    (∀ (mi : Nat) (tt : Int) (penArg : Option Int) (init : List Bool),
      init.length = (⟨5, []⟩ : Graph).num_vertices → init.count true ≤ mi →
      solve_tabu_search ⟨5, []⟩ mi tt penArg init = ([], 0))) :=
  ⟨rfl, C7_empty_graph_all_solvers ⟨5, []⟩ rfl⟩

/-- Claim C8: the approximation solver is a deterministic pure function of
the edge sequence, two calls on the same graph return the same set, and it
refines the single-pass specification model that adds both endpoints of an
edge exactly when neither endpoint is already covered. -/
theorem C8_approximation_deterministic (g : Graph) (hv : g.valid) :
    solve_approximation g = solve_approximation g ∧
    solve_approximation g = specApprox g.edges ∅ :=
  ⟨rfl, solve_approximation_eq_spec hv⟩

/-- Claim C8 witness at the two-vertex single-edge graph. -/
theorem C8_witness :
    Graph.valid ⟨2, [(0, 1)]⟩ ∧
    (solve_approximation ⟨2, [(0, 1)]⟩ = solve_approximation ⟨2, [(0, 1)]⟩ ∧
    solve_approximation ⟨2, [(0, 1)]⟩ =
      specApprox (⟨2, [(0, 1)]⟩ : Graph).edges ∅) :=
  ⟨by decide, C8_approximation_deterministic ⟨2, [(0, 1)]⟩ (by decide)⟩

/-- Claim C9: a flip is admitted exactly when its tabu entry has expiry at
most the current iteration or its resulting cost beats the best global cost
(aspiration); the selected move is the admitted flip of minimum resulting
cost with ties broken towards the smallest vertex index, none being
returned exactly when no flip is admitted; and applying the move records
the reverted state of the flipped vertex with expiry it + tabu_tenure. -/
theorem C9_tabu_move_rules (g : Graph) (pen it tenure : Int) (st : TabuState) :
    (∀ v, admissible g pen it st v ↔
      (¬(st.tabu (v, !st.current.getD v false) > it) ∨
        moveCost g pen st v < st.best_cost)) ∧
    (pickMove g pen it st = none ↔
      ∀ v, v < g.num_vertices → ¬ admissible g pen it st v) ∧
    (∀ v c, pickMove g pen it st = some (v, c) →
      v < g.num_vertices ∧ admissible g pen it st v ∧
      c = moveCost g pen st v ∧
      (∀ u, u < g.num_vertices → admissible g pen it st u →
        c ≤ moveCost g pen st u) ∧
      (∀ u, u < g.num_vertices → admissible g pen it st u →
        moveCost g pen st u = c → v ≤ u)) ∧
    (∀ v c, (applyMove g tenure it st v c).tabu
        (v, st.current.getD v false) = it + tenure) := by
  have hspec := pickMove_spec g pen it st
  refine ⟨fun v => Iff.rfl, hspec.1, hspec.2, ?_⟩
  intro v c
  unfold applyMove
  by_cases hg : c < st.best_cost ∧
      st.current_uncovered + delta_uncovered g st.current v = 0
  · rw [if_pos hg]
    simp
  · rw [if_neg hg]
    simp

/-- Claim C10: on any in-range graph containing a self-loop (a, a),
ExactSolver.solve raises (the one-element frozenset fails to unpack) even
though the Graph constructor accepts the self-loop and merely skips it in
the adjacency build, while the backtracking, branch and bound and IDDFS
solvers, which canonicalize edges as sorted pairs, still return covers
without raising. -/
theorem C10_selfloop_behaviour (g : Graph) (a : Nat) (ha : (a, a) ∈ g.edges)
    (hv : g.valid) :
    ExactSolver.solve g = none ∧
    graphInitStep g.num_vertices (List.replicate g.num_vertices [])
      ((a : Int), (a : Int)) = some (List.replicate g.num_vertices []) ∧
    isCover g.edges (BacktrackingSolver.solve g) ∧
    isCover g.edges (BranchAndBoundSolver.solve g) ∧
    isCover g.edges (IDDFSSolver.solve g) := by
  have haN : a < g.num_vertices := (hv (a, a) ha).1
  refine ⟨ExactSolver.solve_none ha, ?_, (BacktrackingSolver.bt_solve_spec hv).1,
    (BranchAndBoundSolver.solve_sound hv).1, (IDDFSSolver.iddfs_solve_spec hv).1⟩
  unfold graphInitStep
  rw [if_neg (by simp only [not_or]; omega), if_pos rfl]

/-- Claim C10 witness at the one-vertex self-loop graph. -/
theorem C10_witness :
    (0, 0) ∈ (⟨1, [(0, 0)]⟩ : Graph).edges ∧ Graph.valid ⟨1, [(0, 0)]⟩ ∧
    (ExactSolver.solve ⟨1, [(0, 0)]⟩ = none ∧
    graphInitStep (⟨1, [(0, 0)]⟩ : Graph).num_vertices
      (List.replicate (⟨1, [(0, 0)]⟩ : Graph).num_vertices [])
      (((0 : Nat) : Int), ((0 : Nat) : Int)) =
      some (List.replicate (⟨1, [(0, 0)]⟩ : Graph).num_vertices []) ∧
    isCover (⟨1, [(0, 0)]⟩ : Graph).edges
      (BacktrackingSolver.solve ⟨1, [(0, 0)]⟩) ∧
    isCover (⟨1, [(0, 0)]⟩ : Graph).edges
      (BranchAndBoundSolver.solve ⟨1, [(0, 0)]⟩) ∧
    isCover (⟨1, [(0, 0)]⟩ : Graph).edges (IDDFSSolver.solve ⟨1, [(0, 0)]⟩)) :=
  ⟨by decide, by decide,
    C10_selfloop_behaviour ⟨1, [(0, 0)]⟩ 0 (by decide) (by decide)⟩
